import Mathlib

/-!
# Proof-DAG translation pipeline of CVC4: term encoder, rule mapper, closure guard

A shallow embedding of

* `src/proof/lfsc/lfsc_term_process.cpp`  (`LfscTermProcessor`),
* `src/proof/lean/lean_post_processor.cpp` (`LeanProofPostprocessCallback`),
* `src/expr/proof_generator.cpp`           (`ProofGenerator`, `pfgEnsureClosed`),

followed by the theorems that settle the claims made about them.

Conventions of the embedding:

* a `Node` is a kind tag, a constant payload and an ordered list of children,
  as a `NodeValue` is; for a parameterized kind (`APPLY_UF`) the operator is the
  head of the list, exactly as it is passed to `NodeManager::mkNode`;
* variables are identified by the number the node manager gave them when they
  were allocated, and carry their sort;
* `std::map` and `std::unordered_set` members are association lists and lists;
* member functions take the object's state and return the new state;
* a function that can abort returns `Except Err`.
-/

namespace CVC4

/-! ## Kinds -/

/-- The kinds of `kind::Kind_t` that the embedded code names or needs. -/
inductive Kind where
  | NULL_EXPR | UNDEFINED_KIND
  | BOUND_VARIABLE | SKOLEM | VARIABLE
  | CONST_BOOLEAN | CONST_RATIONAL | CONST_STRING
  | APPLY_UF | HO_APPLY
  | NOT | AND | OR | IMPLIES | XOR | ITE | EQUAL | DISTINCT
  | PLUS | MULT | MINUS | UMINUS | LT | LEQ
  | STRING_CONCAT | STRING_LENGTH | STRING_TO_REGEXP
  | REGEXP_CONCAT | REGEXP_UNION | REGEXP_INTER | REGEXP_STAR
  | BITVECTOR_CONCAT | BITVECTOR_AND
  | FORALL | EXISTS | LAMBDA | WITNESS | BOUND_VAR_LIST
  | SEXPR
  | TYPE_CONSTANT | SORT_TYPE | FUNCTION_TYPE | ARRAY_TYPE | SET_TYPE
  deriving DecidableEq, Repr

/-- Modelled from the spec: `ExprManager::isNAryKind` is declared outside the
embedded sources; it holds of the operators "of unbounded arity" (those whose
upper bound on the number of children is the maximum). -/
def isNAryKind : Kind → Bool
  | .AND | .OR | .DISTINCT | .PLUS | .MULT
  | .STRING_CONCAT | .REGEXP_CONCAT | .REGEXP_UNION | .REGEXP_INTER
  | .BITVECTOR_CONCAT | .BITVECTOR_AND
  | .APPLY_UF | .BOUND_VAR_LIST | .SEXPR => true
  | _ => false

/-- Modelled from the spec: the meta-kind test `getMetaKind() == PARAMETERIZED`
is outside the embedded sources; the operator of such a node is a node itself. -/
def isParameterized : Kind → Bool
  | .APPLY_UF => true
  | _ => false

/-- Modelled from the spec: `Node::isClosure` is outside the embedded sources;
a closure binds the variables of its first child over its second child. -/
def isClosureKind : Kind → Bool
  | .FORALL | .EXISTS | .LAMBDA | .WITNESS => true
  | _ => false

/-- Modelled from the spec: `Smt2Printer::smtKindString` is outside the embedded
sources; it gives the SMT-LIB name of a kind. -/
def smtKindString : Kind → String
  | .NOT => "not" | .AND => "and" | .OR => "or" | .IMPLIES => "=>" | .XOR => "xor"
  | .ITE => "ite" | .EQUAL => "=" | .DISTINCT => "distinct"
  | .PLUS => "+" | .MULT => "*" | .MINUS => "-" | .UMINUS => "-"
  | .LT => "<" | .LEQ => "<="
  | .STRING_CONCAT => "str.++" | .STRING_LENGTH => "str.len"
  | .STRING_TO_REGEXP => "str.to_re"
  | .REGEXP_CONCAT => "re.++" | .REGEXP_UNION => "re.union"
  | .REGEXP_INTER => "re.inter" | .REGEXP_STAR => "re.*"
  | .BITVECTOR_CONCAT => "concat" | .BITVECTOR_AND => "bvand"
  | .FORALL => "forall" | .EXISTS => "exists" | .LAMBDA => "lambda"
  | .WITNESS => "witness"
  | _ => "?"

/-! ## Sorts -/

/-- The constant part of a sort node. -/
inductive TypePayload where
  | none
  | typeConst (name : String)
  | sort (name : String) (id : Nat)
  | sortConstructor (name : String) (id : Nat) (arity : Nat)
  deriving DecidableEq, Repr

/-- A `TypeNode`: kind, constant part, children.  A function sort has kind
`FUNCTION_TYPE` and children `T1 ... Tn T`. -/
inductive TypeNode where
  | mk (k : Kind) (payload : TypePayload) (children : List TypeNode) : TypeNode
  deriving Repr

mutual
/-- Equality of sorts is decidable. -/
def TypeNode.decEq : (a b : TypeNode) → Decidable (a = b)
  | .mk k p cs, .mk k2 p2 cs2 =>
    if hk : k = k2 then
      if hp : p = p2 then
        match TypeNode.decEqList cs cs2 with
        | isTrue hc => isTrue (by rw [hk, hp, hc])
        | isFalse hc => isFalse (fun e => hc (by cases e; rfl))
      else isFalse (fun e => hp (by cases e; rfl))
    else isFalse (fun e => hk (by cases e; rfl))
/-- Equality of lists of sorts is decidable. -/
def TypeNode.decEqList : (a b : List TypeNode) → Decidable (a = b)
  | [], [] => isTrue rfl
  | [], _ :: _ => isFalse (fun e => by cases e)
  | _ :: _, [] => isFalse (fun e => by cases e)
  | x :: xs, y :: ys =>
    match TypeNode.decEq x y with
    | isTrue hx =>
      match TypeNode.decEqList xs ys with
      | isTrue hs => isTrue (by rw [hx, hs])
      | isFalse hs => isFalse (fun e => hs (by cases e; rfl))
    | isFalse hx => isFalse (fun e => hx (by cases e; rfl))
end

instance : DecidableEq TypeNode := TypeNode.decEq

namespace TypeNode

/-- The null sort, `TypeNode::null()`. -/
def null : TypeNode := .mk .NULL_EXPR .none []

def getKind : TypeNode → Kind
  | .mk k _ _ => k

def getChildren : TypeNode → List TypeNode
  | .mk _ _ cs => cs

def getNumChildren (t : TypeNode) : Nat := t.getChildren.length

def isNull (t : TypeNode) : Bool := decide (t = null)

/-- The argument sorts `T1 ... Tn` of a function sort. -/
def getArgTypes (t : TypeNode) : List TypeNode := t.getChildren.dropLast

/-- The range sort `T` of a function sort. -/
def getRangeType (t : TypeNode) : TypeNode := t.getChildren.getLastD null

/-- What `operator<<` prints for a childless sort: its name. -/
def toString : TypeNode → String
  | .mk _ (.typeConst name) _ => name
  | .mk _ (.sort name _) _ => name
  | .mk _ (.sortConstructor name _ _) _ => name
  | .mk _ .none _ => "?"

end TypeNode

/-- The built-in sort `Bool`, `nm->booleanType()`. -/
def booleanType : TypeNode := .mk .TYPE_CONSTANT (.typeConst "Bool") []
/-- The built-in sort `Int`, `nm->integerType()`. -/
def integerType : TypeNode := .mk .TYPE_CONSTANT (.typeConst "Int") []
/-- The built-in sort `Real`. -/
def realType : TypeNode := .mk .TYPE_CONSTANT (.typeConst "Real") []
/-- The built-in sort `String`. -/
def stringType : TypeNode := .mk .TYPE_CONSTANT (.typeConst "String") []
/-- The built-in sort `RegLan`. -/
def regExpType : TypeNode := .mk .TYPE_CONSTANT (.typeConst "RegLan") []

def TypeNode.isInteger (t : TypeNode) : Bool := decide (t = integerType)

/-- The function sort built by `nm->mkFunctionType(args, range)`. -/
def mkFunctionType (args : List TypeNode) (range : TypeNode) : TypeNode :=
  .mk .FUNCTION_TYPE .none (args ++ [range])

/-- The sort built by `nm->mkSort(constructor, args)`: the application of a sort
constructor to argument sorts. -/
def mkSortApp (constructor : TypeNode) (args : List TypeNode) : TypeNode :=
  match constructor with
  | .mk _ p _ => .mk .SORT_TYPE p args

/-! ## Terms -/

/-- The constant part of a term node. -/
inductive Payload where
  | none
  | bool (b : Bool)
  | rational (num : Int) (den : Nat)
  | string (vec : List Nat)
  | var (id : Nat) (tn : TypeNode)
  deriving DecidableEq, Repr

/-- A `Node`: kind, constant part, children. -/
inductive Node where
  | mk (k : Kind) (payload : Payload) (children : List Node) : Node
  deriving Repr

mutual
/-- Equality of terms is decidable. -/
def Node.decEq : (a b : Node) → Decidable (a = b)
  | .mk k p cs, .mk k2 p2 cs2 =>
    if hk : k = k2 then
      if hp : p = p2 then
        match Node.decEqList cs cs2 with
        | isTrue hc => isTrue (by rw [hk, hp, hc])
        | isFalse hc => isFalse (fun e => hc (by cases e; rfl))
      else isFalse (fun e => hp (by cases e; rfl))
    else isFalse (fun e => hk (by cases e; rfl))
/-- Equality of lists of terms is decidable. -/
def Node.decEqList : (a b : List Node) → Decidable (a = b)
  | [], [] => isTrue rfl
  | [], _ :: _ => isFalse (fun e => by cases e)
  | _ :: _, [] => isFalse (fun e => by cases e)
  | x :: xs, y :: ys =>
    match Node.decEq x y with
    | isTrue hx =>
      match Node.decEqList xs ys with
      | isTrue hs => isTrue (by rw [hx, hs])
      | isFalse hs => isFalse (fun e => hs (by cases e; rfl))
    | isFalse hx => isFalse (fun e => hx (by cases e; rfl))
end

instance : DecidableEq Node := Node.decEq

namespace Node

/-- The null term, `Node::null()` (a default-constructed `Node`). -/
def null : Node := .mk .NULL_EXPR .none []

def getKind : Node → Kind
  | .mk k _ _ => k

def isNull (n : Node) : Bool := decide (n = null)

/-- The children `n.begin() .. n.end()`: for a parameterized kind the operator,
which heads the stored list, is not one of them. -/
def getChildren : Node → List Node
  | .mk k _ cs => if isParameterized k then cs.tail else cs

def getNumChildren (n : Node) : Nat := n.getChildren.length

/-- The child `n[i]`; the null term stands for a child that does not exist. -/
def getChild (n : Node) (i : Nat) : Node := n.getChildren.getD i null

/-- The operator `n.getOperator()` of a parameterized application. -/
def getOperator : Node → Node
  | .mk _ _ cs => cs.headD null

/-- The term of the same kind (and, for a parameterized kind, the same operator)
over the children `cs1`, as the base class's conversion rebuilds it. -/
def rebuild : Node → List Node → Node
  | .mk k p cs, cs1 => .mk k p ((if isParameterized k then cs.take 1 else []) ++ cs1)

def isVar (n : Node) : Bool :=
  match n.getKind with
  | .BOUND_VARIABLE | .SKOLEM | .VARIABLE => true
  | _ => false

def isClosure (n : Node) : Bool := isClosureKind n.getKind

/-- The code points of a string constant, `getConst<String>().getVec()`. -/
def getVec : Node → List Nat
  | .mk _ (.string vec) _ => vec
  | _ => []

/-- The Boolean of a Boolean constant, `getConst<bool>()`. -/
def getConstBool : Node → Bool
  | .mk _ (.bool b) _ => b
  | _ => false

end Node

/-- The term `nm->mkNode(k, children)`. -/
def mkNode (k : Kind) (children : List Node) : Node := .mk k .none children

/-- The term `nm->mkConst(b)` for a Boolean `b`. -/
def mkConstBool (b : Bool) : Node := .mk .CONST_BOOLEAN (.bool b) []

/-- The term `nm->mkConst(Rational(i))` for an integer `i`. -/
def mkConstRational (i : Int) : Node := .mk .CONST_RATIONAL (.rational i 1) []

/-- The term `nm->mkConst(String(vec))`. -/
def mkConstString (vec : List Nat) : Node := .mk .CONST_STRING (.string vec) []

/-! ## The node manager -/

/-- What the code uses of `NodeManager`: the supply of fresh variables and the
name attribute (`expr::VarNameAttr`). -/
structure NodeManager where
  nextId : Nat
  varNameAttr : List (Node × String)
  deriving Repr

namespace NodeManager

/-- A node manager that has allocated nothing. -/
def fresh : NodeManager := { nextId := 0, varNameAttr := [] }

/-- The call `nm->mkBoundVar(name, tn)`: a new bound variable of sort `tn`, named
`name`. -/
def mkBoundVar (nm : NodeManager) (name : String) (tn : TypeNode) : Node × NodeManager :=
  let v : Node := .mk .BOUND_VARIABLE (.var nm.nextId tn) []
  (v, { nextId := nm.nextId + 1, varNameAttr := (v, name) :: nm.varNameAttr })

/-- The call `nm->mkSort(name)`: a new uninterpreted sort. -/
def mkSort (nm : NodeManager) (name : String) : TypeNode × NodeManager :=
  (.mk .SORT_TYPE (.sort name nm.nextId) [], { nm with nextId := nm.nextId + 1 })

/-- The call `nm->mkSortConstructor(name, arity)`: a new sort constructor. -/
def mkSortConstructor (nm : NodeManager) (name : String) (arity : Nat) :
    TypeNode × NodeManager :=
  (.mk .SORT_TYPE (.sortConstructor name nm.nextId arity) [],
   { nm with nextId := nm.nextId + 1 })

/-- The name attribute of a node, if it has one. -/
def getName (nm : NodeManager) (n : Node) : Option String :=
  (nm.varNameAttr.find? (fun p => decide (p.1 = n))).map (fun p => p.2)

end NodeManager

/-! ## What the embedded code takes from its surroundings -/

/-- Capabilities the encoder consumes and does not own:
the type checker (`Node::getType` of a term that is not a variable) and the
skolem manager (`SkolemManager::getWitnessForm`).  Theorems hold for every
choice of them. -/
structure Env where
  typeOf : Node → TypeNode
  getWitnessForm : Node → Node

/-- The sort `n.getType()`: a variable carries its sort, the type checker gives
the sort of every other term. -/
def Node.getType (env : Env) : Node → TypeNode
  | .mk _ (.var _ tn) _ => tn
  | n => env.typeOf n

/-- How a call can fail to return. -/
inductive Err where
  /-- An `AlwaysAssert` or `Unreachable` failed: abort in every build. -/
  | fatal
  /-- An `Assert` failed: abort in a build with assertions. -/
  | assertion
  /-- An index outside a `std::vector` was read: the code has no defined result. -/
  | outOfRange
  /-- The recursion budget of the embedding ran out (no counterpart in the code). -/
  | outOfFuel
  deriving DecidableEq, Repr

/-! ## Finite maps and sets -/

/-- The lookup `m.find(a)` in a `std::map`. -/
def mapFind {α β : Type} [DecidableEq α] : List (α × β) → α → Option β
  | [], _ => none
  | (k, v) :: rest, a => if k = a then some v else mapFind rest a

/-- The assignment `m[a] = b` in a `std::map`: it replaces the value of a key
that is present and adds the key otherwise. -/
def mapInsert {α β : Type} [DecidableEq α] : List (α × β) → α → β → List (α × β)
  | [], a, b => [(a, b)]
  | (k, v) :: rest, a, b =>
    if k = a then (k, b) :: rest else (k, v) :: mapInsert rest a b

/-- The insertion `s.insert(a)` in a set. -/
def setInsert {α : Type} [DecidableEq α] (s : List α) (a : α) : List α :=
  if a ∈ s then s else a :: s

/-! ## The LFSC term processor -/

/-- The key of the symbol cache, `std::tuple<Kind, TypeNode, size_t>`. -/
abbrev SymbolKey := Kind × TypeNode × Nat

/-- The data members of `LfscTermProcessor`, together with the node manager it
allocates from.  `d_cache` and `d_tcache` are the memo tables of the base class. -/
structure LfscTermProcessor where
  nm : NodeManager
  d_arrow : TypeNode
  d_sortType : TypeNode
  d_typeAsNode : List (TypeNode × Node)
  d_symbols : List Node
  d_symbolsMap : List (SymbolKey × Node)
  d_varIndex : List (Node × Nat)
  d_cache : List (Node × Node)
  d_tcache : List (TypeNode × TypeNode)
  deriving Repr

namespace LfscTermProcessor

/-- The member `mkInternalSymbol(name, tn)`. -/
def mkInternalSymbol (s : LfscTermProcessor) (name : String) (tn : TypeNode) :
    Node × LfscTermProcessor :=
  let (sym, nm1) := s.nm.mkBoundVar name tn
  (sym, { s with nm := nm1, d_symbols := setInsert s.d_symbols sym })

/-- The member `getSymbolInternal(k, tn, name, v)`. -/
def getSymbolInternal (s : LfscTermProcessor) (k : Kind) (tn : TypeNode)
    (name : String) (v : Nat) : Node × LfscTermProcessor :=
  let key : SymbolKey := (k, tn, v)
  match mapFind s.d_symbolsMap key with
  | some sym => (sym, s)
  | none =>
    let (sym, s1) := s.mkInternalSymbol name tn
    (sym, { s1 with d_symbolsMap := mapInsert s1.d_symbolsMap key sym })

/-- The member `getSymbolInternalFor(n, name, v)`. -/
def getSymbolInternalFor (env : Env) (s : LfscTermProcessor) (n : Node)
    (name : String) (v : Nat) : Node × LfscTermProcessor :=
  s.getSymbolInternal n.getKind (n.getType env) name v

/-- The constructor `LfscTermProcessor()`. -/
def new (nm : NodeManager) : LfscTermProcessor :=
  let (arrow, nm1) := nm.mkSortConstructor "arrow" 2
  let (sortType, nm2) := nm1.mkSort "sortType"
  let anfType := mkFunctionType [sortType, sortType] sortType
  let s0 : LfscTermProcessor :=
    { nm := nm2, d_arrow := arrow, d_sortType := sortType, d_typeAsNode := [],
      d_symbols := [], d_symbolsMap := [], d_varIndex := [], d_cache := [],
      d_tcache := [] }
  let (sym, s1) := s0.getSymbolInternal .FUNCTION_TYPE anfType "arrow" 0
  { s1 with d_typeAsNode := mapInsert s1.d_typeAsNode arrow sym }

/-- The member `typeAsNode(tni)`. -/
def typeAsNode (s : LfscTermProcessor) (tni : TypeNode) : Except Err Node :=
  match mapFind s.d_typeAsNode tni with
  | none => .error .fatal
  | some n => .ok n

/-- The member `getOrAssignIndexForVar(v)`. -/
def getOrAssignIndexForVar (s : LfscTermProcessor) (v : Node) :
    Except Err (Nat × LfscTermProcessor) :=
  if v.isVar then
    match mapFind s.d_varIndex v with
    | some i => .ok (i, s)
    | none =>
      let id := s.d_varIndex.length
      .ok (id, { s with d_varIndex := mapInsert s.d_varIndex v id })
  else .error .assertion

/-- The member `getNullTerminator(k)`. -/
def getNullTerminator (k : Kind) : Node :=
  match k with
  | .OR => mkConstBool false
  | .AND => mkConstBool true
  | .PLUS => mkConstRational 0
  | .MULT => mkConstRational 1
  | .STRING_CONCAT => mkConstString []
  | .REGEXP_CONCAT => mkNode .STRING_TO_REGEXP [mkConstString []]
  | _ => Node.null

/-- The member `shouldTraverse(n)`. -/
def shouldTraverse (n : Node) : Bool := decide (n.getKind ≠ .BOUND_VAR_LIST)

/-- The loop of `runConvertType` over the argument sorts of a function sort,
last argument first. -/
def runConvertTypeArgs (s : LfscTermProcessor) (arrown : Node) :
    List TypeNode → TypeNode → Node → Except Err (TypeNode × Node)
  | [], cur, tnn => .ok (cur, tnn)
  | it :: rest, cur, tnn =>
    match s.typeAsNode it with
    | .error e => .error e
    | .ok itn =>
      runConvertTypeArgs s arrown rest (mkSortApp s.d_arrow [it, cur])
        (mkNode .APPLY_UF [arrown, itn, tnn])

/-- The member `runConvertType(tn)`. -/
def runConvertType (s : LfscTermProcessor) (tn : TypeNode) :
    Except Err (TypeNode × LfscTermProcessor) :=
  let k := tn.getKind
  if k = .FUNCTION_TYPE then
    match mapFind s.d_typeAsNode s.d_arrow with
    | none => .error .assertion
    | some arrown =>
      if arrown.isNull then .error .assertion
      else
        match s.typeAsNode tn.getRangeType with
        | .error e => .error e
        | .ok tnn0 =>
          match runConvertTypeArgs s arrown tn.getArgTypes.reverse tn.getRangeType tnn0 with
          | .error e => .error e
          | .ok (cur, tnn) =>
            if tnn.isNull then .error .assertion
            else .ok (cur, { s with d_typeAsNode := mapInsert s.d_typeAsNode cur tnn })
  else if tn.getNumChildren = 0 then
    let (tnn, s1) := s.getSymbolInternal k s.d_sortType tn.toString 0
    if tnn.isNull then .error .assertion
    else .ok (tn, { s1 with d_typeAsNode := mapInsert s1.d_typeAsNode tn tnn })
  else .error .assertion

/-- The call `theory::uf::TheoryUfRewriter::getHoApplyForApplyUf(n)`, which is
outside the embedded sources: the curried form
`(HO_APPLY ... (HO_APPLY f a1) ... an)` of `(APPLY_UF f a1 ... an)`. -/
def getHoApplyForApplyUf (n : Node) : Node :=
  n.getChildren.foldl (fun curr a => mkNode .HO_APPLY [curr, a]) n.getOperator

mutual
/-- Modelled from the spec: the sort half of the base class's conversion, which
is outside the embedded sources.  Bottom-up and memoized: a sort that is in the
memo table is answered from it; otherwise its children are converted, the sort
is rebuilt over them, `runConvertType` is applied and the result is recorded. -/
def convertType (s : LfscTermProcessor) : TypeNode → Except Err (TypeNode × LfscTermProcessor)
  | .mk k p cs =>
    match mapFind s.d_tcache (.mk k p cs) with
    | some r => .ok (r, s)
    | none =>
      match convertTypeList s cs with
      | .error e => .error e
      | .ok (cs1, s1) =>
        match s1.runConvertType (.mk k p cs1) with
        | .error e => .error e
        | .ok (r, s2) =>
          .ok (r, { s2 with d_tcache := mapInsert s2.d_tcache (.mk k p cs) r })
/-- The conversion of the children of a sort, first child first. -/
def convertTypeList (s : LfscTermProcessor) :
    List TypeNode → Except Err (List TypeNode × LfscTermProcessor)
  | [] => .ok ([], s)
  | t :: ts =>
    match convertType s t with
    | .error e => .error e
    | .ok (t1, s1) =>
      match convertTypeList s1 ts with
      | .error e => .error e
      | .ok (ts1, s2) => .ok (t1 :: ts1, s2)
end

/-- The conversion of a list of terms by `cv`, first term first. -/
def convertList (cv : LfscTermProcessor → Node → Except Err (Node × LfscTermProcessor))
    (s : LfscTermProcessor) : List Node → Except Err (List Node × LfscTermProcessor)
  | [] => .ok ([], s)
  | n :: ns =>
    match cv s n with
    | .error e => .error e
    | .ok (n1, s1) =>
      match convertList cv s1 ns with
      | .error e => .error e
      | .ok (ns1, s2) => .ok (n1 :: ns1, s2)

/-- The loop of the `CONST_STRING` case of `runConvert` over the code points
`v[1], v[2], ...` of the reversed string, each converted by `rc` as a one-element
string. -/
def stringLoop (rc : LfscTermProcessor → Node → Except Err (Node × LfscTermProcessor))
    (s : LfscTermProcessor) : List Nat → Node → Except Err (Node × LfscTermProcessor)
  | [], ret => .ok (ret, s)
  | c :: cs, ret =>
    match rc s (mkConstString [c]) with
    | .error e => .error e
    | .ok (e1, s1) => stringLoop rc s1 cs (mkNode .STRING_CONCAT [e1, ret])

/-- The loop of the closure case of `runConvert` over the bound variables, last
declared first. -/
def closureLoop (env : Env) (forallOp : Node) (s : LfscTermProcessor) :
    List Node → Node → Except Err (Node × LfscTermProcessor)
  | [], ret => .ok (ret, s)
  | v :: vs, ret =>
    match s.getOrAssignIndexForVar v with
    | .error e => .error e
    | .ok (idx, s1) =>
      let x := mkConstRational idx
      match convertType s1 (v.getType env) with
      | .error e => .error e
      | .ok (ct, s2) =>
        match s2.typeAsNode ct with
        | .error e => .error e
        | .ok tc =>
          closureLoop env forallOp s2 vs
            (mkNode .APPLY_UF [mkNode .APPLY_UF [forallOp, x, tc], ret])

/-- The inner loop of the `DISTINCT` case of `runConvert`, over `j = i+1 ..
nchild-1`. -/
def distinctInner (k : Kind) (children : List Node) (nchild i : Nat) (ret : Node) : Node :=
  (List.range' (i + 1) (nchild - (i + 1))).foldl
    (fun ret j =>
      if i ≠ 0 ∧ j ≠ 1 then
        mkNode .AND [ret, mkNode k [children.getD i Node.null, children.getD j Node.null]]
      else ret)
    ret

/-- The outer loop of the `DISTINCT` case of `runConvert`, over `i = 0 ..
nchild-1`. -/
def distinctLoop (k : Kind) (children : List Node) (nchild : Nat) (ret : Node) : Node :=
  (List.range nchild).foldl (fun ret i => distinctInner k children nchild i ret) ret

/-- The loop "iterate over children and make binary conversion" of `runConvert`,
over the (reversed) children that are left. -/
def chainLoop (ck : Kind) (opc : Node) (children : List Node) (ret : Node) : Node :=
  children.foldl
    (fun ret c => if !opc.isNull then mkNode ck [opc, c, ret] else mkNode ck [c, ret])
    ret

mutual
/-- Modelled from the spec: the term half of the base class's conversion, which
is outside the embedded sources.  Bottom-up and memoized: a term that is in the
memo table is answered from it; a term that `shouldTraverse` rejects is left as
it is; otherwise the children are converted (the operator of a parameterized
application is kept), the term is rebuilt over them, `runConvert` is applied and
the result is recorded under the source term. -/
def convert (env : Env) : Nat → LfscTermProcessor → Node →
    Except Err (Node × LfscTermProcessor)
  | 0, _, _ => .error .outOfFuel
  | fuel + 1, s, n =>
    match mapFind s.d_cache n with
    | some r => .ok (r, s)
    | none =>
      if shouldTraverse n then
        match convertList (convert env fuel) s n.getChildren with
        | .error e => .error e
        | .ok (cs1, s1) =>
          match runConvert env fuel s1 (n.rebuild cs1) with
          | .error e => .error e
          | .ok (r, s2) => .ok (r, { s2 with d_cache := mapInsert s2.d_cache n r })
      else .ok (n, { s with d_cache := mapInsert s.d_cache n n })
/-- The member `runConvert(n)`. -/
def runConvert (env : Env) : Nat → LfscTermProcessor → Node →
    Except Err (Node × LfscTermProcessor)
  | 0, _, _ => .error .outOfFuel
  | fuel + 1, s, n =>
    let k := n.getKind
    let tn := n.getType env
    if k = .BOUND_VARIABLE then
      if n ∈ s.d_symbols then .ok (n, s)
      else
        match s.getOrAssignIndexForVar n with
        | .error e => .error e
        | .ok (idx, s1) =>
          let x := mkConstRational idx
          match convertType s1 tn with
          | .error e => .error e
          | .ok (ct, s2) =>
            match s2.typeAsNode ct with
            | .error e => .error e
            | .ok tc =>
              let ftype := mkFunctionType [integerType, s2.d_sortType] tn
              let (bvarOp, s3) := s2.getSymbolInternal k ftype "bvar" 0
              .ok (mkNode .APPLY_UF [bvarOp, x, tc], s3)
    else if k = .SKOLEM then
      match convert env fuel s (env.getWitnessForm n) with
      | .error e => .error e
      | .ok (wi, s1) =>
        let ftype := mkFunctionType [tn] tn
        let (skolemOp, s2) := s1.getSymbolInternal k ftype "skolem" 0
        .ok (mkNode .APPLY_UF [skolemOp, wi], s2)
    else if k = .APPLY_UF then
      runConvert env fuel s (getHoApplyForApplyUf n)
    else if k = .HO_APPLY then
      let argTypes := [(n.getChild 0).getType env, (n.getChild 1).getType env]
      let tnh := mkFunctionType argTypes tn
      let (hconstf, s1) := s.getSymbolInternal k tnh "apply" 0
      .ok (mkNode .APPLY_UF [hconstf, n.getChild 0, n.getChild 1], s1)
    else if k = .CONST_RATIONAL then
      let tnv := mkFunctionType [tn] tn
      if tn.isInteger then
        let (rconstf, s1) := s.getSymbolInternal k tnv "int" 0
        .ok (mkNode .APPLY_UF [rconstf, n], s1)
      else
        let (rconstf, s1) := s.getSymbolInternal k tnv "real" 0
        .ok (mkNode .APPLY_UF [rconstf, n], s1)
    else if k = .CONST_STRING then
      let vec := n.getVec
      if vec.length = 0 then
        .ok (s.getSymbolInternalFor env n "emptystr" 0)
      else if vec.length = 1 then
        let tnc := mkFunctionType [integerType] tn
        let (aconstf, s1) := s.getSymbolInternal k tnc "char" 0
        .ok (mkNode .APPLY_UF [aconstf, mkConstRational (vec.getD 0 0)], s1)
      else
        let v := vec.reverse
        match runConvert env fuel s (mkConstString [v.getD 0 0]) with
        | .error e => .error e
        | .ok (ret, s1) => stringLoop (runConvert env fuel) s1 (v.drop 1) ret
    else if k = .ITE then
      let itype := mkFunctionType [s.d_sortType]
        (mkFunctionType [booleanType, tn, tn] tn)
      let (iteSym, s1) := s.getSymbolInternal k itype "ite" 0
      match s1.typeAsNode tn with
      | .error e => .error e
      | .ok typeNode =>
        .ok (mkNode .APPLY_UF
          [mkNode .APPLY_UF [iteSym, typeNode], n.getChild 0, n.getChild 1, n.getChild 2], s1)
    else if k = .MINUS then
      if n.getNumChildren = 2 then
        let opName := "int." ++ smtKindString k
        let ftype := mkFunctionType [tn, tn] tn
        let (opc, s1) := s.getSymbolInternal k ftype opName 0
        .ok (mkNode .APPLY_UF [opc, n.getChild 0, n.getChild 1], s1)
      else .error .assertion
    else if n.isClosure then
      let ret := n.getChild 1
      let bodyType := mkFunctionType [ret.getType env] tn
      let ftype := mkFunctionType [integerType, s.d_sortType] bodyType
      let (forallOp, s1) := s.getSymbolInternal k ftype (smtKindString k) 0
      closureLoop env forallOp s1 (n.getChild 0).getChildren.reverse ret
    else if isNAryKind k && decide (n.getNumChildren ≥ 2) then
      let nchild := n.getNumChildren
      if isParameterized k then .error .assertion
      else
        let children := n.getChildren.reverse
        if k = .DISTINCT then
          let ret := mkNode k [children.getD 0 Node.null, children.getD 1 Node.null]
          .ok (distinctLoop k children nchild ret, s)
        else
          let nullTerm := getNullTerminator k
          let start : Except Err ((Node × Nat) × LfscTermProcessor) :=
            if nullTerm.isNull then .ok ((children.getD 0 Node.null, 1), s)
            else
              match convert env fuel s nullTerm with
              | .error e => .error e
              | .ok (ret, s1) => .ok ((ret, 0), s1)
          match start with
          | .error e => .error e
          | .ok ((ret, i), s1) =>
            if k = .PLUS ∨ k = .MULT then
              let opName := "int." ++ smtKindString k
              let ftype := mkFunctionType [tn, tn] tn
              let (opc, s2) := s1.getSymbolInternal k ftype opName 0
              .ok (chainLoop .APPLY_UF opc (children.drop i) ret, s2)
            else
              .ok (chainLoop k Node.null (children.drop i) ret, s1)
    else .ok (n, s)
end

end LfscTermProcessor

/-! ## Proof steps, proof nodes and the proof accumulator -/

/-- The inference-rule tags of `PfRule` that the embedded code names or needs. -/
inductive PfRule where
  | ASSUME | SCOPE | SUBS | REWRITE
  | RESOLUTION | CHAIN_RESOLUTION | FACTORING | REORDERING
  | REFL | SYMM | TRANS | CONG | TRUE_INTRO | TRUE_ELIM
  | LEAN_RULE | UNKNOWN
  deriving DecidableEq, Repr

/-- The rule tags of the target calculus, `LeanRule`, that the embedded code
names. -/
inductive LeanRule where
  | R0 | R1 | SMTREFL | SMTSYMM | SMTSYMM_NEG | ASSUME | SCOPE | UNKNOWN
  deriving DecidableEq, Repr

/-- Modelled from the spec: the numeric identifier `static_cast<unsigned>(rule)`
of a target rule; the enumeration itself is declared outside the embedded
sources, so the numbers are the positions in the list above. -/
def LeanRule.toNat : LeanRule → Nat
  | .R0 => 0 | .R1 => 1 | .SMTREFL => 2 | .SMTSYMM => 3 | .SMTSYMM_NEG => 4
  | .ASSUME => 5 | .SCOPE => 6 | .UNKNOWN => 7

/-- A `ProofNode`: rule tag, premise proofs, arguments, conclusion. -/
inductive ProofNode where
  | mk (rule : PfRule) (children : List ProofNode) (args : List Node) (result : Node) :
      ProofNode
  deriving Repr

namespace ProofNode

def getRule : ProofNode → PfRule
  | .mk r _ _ _ => r

def getResult : ProofNode → Node
  | .mk _ _ _ res => res

mutual
/-- Modelled from the spec: the free assumptions of a proof, which
`expr::getFreeAssumptions` (outside the embedded sources) computes: the
conclusions of its `ASSUME` leaves that no enclosing `SCOPE` step discharges
through its arguments. -/
def freeAssumptions : ProofNode → List Node
  | .mk rule children args res =>
    if rule = .ASSUME then [res]
    else if rule = .SCOPE then
      (freeAssumptionsList children).filter (fun a => decide (a ∉ args))
    else freeAssumptionsList children
/-- The free assumptions of a list of proofs. -/
def freeAssumptionsList : List ProofNode → List Node
  | [] => []
  | p :: ps => freeAssumptions p ++ freeAssumptionsList ps
end

/-- Modelled from the spec: `ProofNode::isClosed` (outside the embedded
sources): a proof is closed iff it has no free assumption. -/
def isClosed (pn : ProofNode) : Bool := pn.freeAssumptions.isEmpty

end ProofNode

/-- The overwrite policies `CDPOverwrite`. -/
inductive CDPOverwrite where
  | ALWAYS | ASSUME_ONLY | NEVER
  deriving DecidableEq, Repr

/-- A step of the proof accumulator: conclusion, rule tag, premises (by their
conclusions), arguments. -/
structure ProofStep where
  conclusion : Node
  rule : PfRule
  premises : List Node
  args : List Node
  deriving DecidableEq, Repr

/-- The proof accumulator `CDProof`: the steps it holds, at most one for each
conclusion. -/
abbrev CDProof := List ProofStep

/-- What the rule mapper consumes of the proof checker, an opaque capability:
`checkDebug` computes the conclusion of a rule applied to premises and
arguments, and `accepts` says whether a step passes the check made when it is
added to an accumulator. -/
structure ProofChecker where
  checkDebug : PfRule → List Node → List Node → Node
  accepts : ProofStep → Bool

namespace CDProof

/-- The step of the accumulator that concludes `f`, if there is one. -/
def getProof (cdp : CDProof) (f : Node) : Option ProofStep :=
  cdp.find? (fun st => decide (st.conclusion = f))

/-- Modelled from the spec: whether a step that exists is replaced under the
policy: `ALWAYS` unconditionally, `ASSUME_ONLY` only if the existing step is an
assumption, `NEVER` not at all. -/
def shouldOverwrite (prev : ProofStep) (opolicy : CDPOverwrite) : Bool :=
  match opolicy with
  | .ALWAYS => true
  | .ASSUME_ONLY => decide (prev.rule = .ASSUME)
  | .NEVER => false

/-- The accumulator with the step for the conclusion of `st` set to `st`. -/
def setStep (cdp : CDProof) (st : ProofStep) : CDProof :=
  st :: cdp.filter (fun old => decide (old.conclusion ≠ st.conclusion))

/-- The accumulator with an assumption step added for every premise that has no
step yet. -/
def ensurePremises (cdp : CDProof) : List Node → CDProof
  | [] => cdp
  | c :: cs =>
    match getProof cdp c with
    | some _ => ensurePremises cdp cs
    | none => ensurePremises (cdp ++ [{ conclusion := c, rule := .ASSUME,
                                        premises := [], args := [c] }]) cs

/-- Modelled from the spec: `CDProof::addStep(expected, id, children, args)`,
which is outside the embedded sources, under the policy `opolicy` (the code's
callers leave it at its default, `ASSUME_ONLY`).  A step that exists and is not
to be replaced is left and the call succeeds; otherwise premises without a step
become assumptions, and the new step is recorded if the checker accepts it; the
call fails if the checker rejects it. -/
def addStep (pc : ProofChecker) (cdp : CDProof) (expected : Node) (id : PfRule)
    (children args : List Node) (opolicy : CDPOverwrite) : Bool × CDProof :=
  let st : ProofStep := { conclusion := expected, rule := id, premises := children,
                          args := args }
  match getProof cdp expected with
  | some prev =>
    if shouldOverwrite prev opolicy then
      if pc.accepts st then (true, setStep (ensurePremises cdp children) st)
      else (false, cdp)
    else (true, cdp)
  | none =>
    if pc.accepts st then (true, setStep (ensurePremises cdp children) st)
    else (false, cdp)

end CDProof

/-! ## The rule mapper of the Lean post-processor -/

/-- Modelled from the spec: the term `nm->mkNode(op, child)` whose first argument
is a term and not a kind, "the pairing" of the two terms; its kind,
`operatorToKind(op)`, is outside the embedded sources and is the undefined kind
for a term that is no operator. -/
def mkNodeOp (op child : Node) : Node := .mk .UNDEFINED_KIND .none [op, child]

/-- The element `v[i]` of a `std::vector`. -/
def vecAt (v : List Node) (i : Nat) : Except Err Node :=
  match v.get? i with
  | some n => .ok n
  | none => .error .outOfRange

namespace LeanProofPostprocessCallback

/-- The member `shouldUpdate(pn, continueUpdate)`; the second component is the
value of the reference parameter `continueUpdate` after the call. -/
def shouldUpdate (pn : ProofNode) (continueUpdate : Bool) : Bool × Bool :=
  (decide (pn.getRule ≠ .LEAN_RULE), continueUpdate)

/-- The member `addLeanStep(res, rule, children, args, cdp)`. -/
def addLeanStep (pc : ProofChecker) (res : Node) (rule : LeanRule)
    (children args : List Node) (cdp : CDProof) : Bool × CDProof :=
  let leanId := mkConstRational (rule.toNat : Nat)
  let lean_args := [leanId, res] ++ args
  cdp.addStep pc res .LEAN_RULE children lean_args .ASSUME_ONLY

/-- The loop of the `CHAIN_RESOLUTION` case of `update`, from `i` on, for `n`
more rounds. -/
def chainResolutionLoop (pc : ProofChecker) (children args : List Node) :
    Nat → Nat → Node → CDProof → Except Err (Node × CDProof)
  | 0, _, cur, cdp => .ok (cur, cdp)
  | n + 1, i, cur, cdp =>
    match vecAt children i with
    | .error e => .error e
    | .ok ci =>
      let newChildren := [cur, ci]
      match vecAt args ((i - 1) * 2) with
      | .error e => .error e
      | .ok a0 =>
        match vecAt args ((i - 1) * 2 + 1) with
        | .error e => .error e
        | .ok a1 =>
          let newArgs := [a0, a1]
          let cur1 := pc.checkDebug .RESOLUTION newChildren newArgs
          let r := addLeanStep pc cur1
            (if a0.getConstBool then LeanRule.R1 else LeanRule.R0) newChildren [a1] cdp
          chainResolutionLoop pc children args n (i + 1) cur1 r.2

/-- The member `update(res, id, children, args, cdp, continueUpdate)`: the
returned Boolean, the accumulator after the call, and the value of the
reference parameter `continueUpdate` after the call. -/
def update (pc : ProofChecker) (res : Node) (id : PfRule) (children args : List Node)
    (cdp : CDProof) (continueUpdate : Bool) : Except Err (Bool × CDProof × Bool) :=
  match id with
  | .ASSUME =>
    let r := addLeanStep pc res .ASSUME children [] cdp
    .ok (r.1, r.2, continueUpdate)
  | .SCOPE =>
    let r := addLeanStep pc res .SCOPE children [] cdp
    .ok (r.1, r.2, continueUpdate)
  | .CHAIN_RESOLUTION =>
    match vecAt children 0 with
    | .error e => .error e
    | .ok cur =>
      match chainResolutionLoop pc children args (children.length - 1) 1 cur cdp with
      | .error e => .error e
      | .ok (_, cdp1) => .ok (true, cdp1, continueUpdate)
  | .REFL =>
    let r := addLeanStep pc res .SMTREFL children [] cdp
    .ok (r.1, r.2, continueUpdate)
  | .SYMM =>
    match vecAt children 0 with
    | .error e => .error e
    | .ok child =>
      let k := child.getKind
      if k = .EQUAL then
        let new_id := mkConstRational (LeanRule.SMTSYMM.toNat : Nat)
        let t1 := child.getChild 0
        let t2 := child.getChild 1
        let c1 := mkNode .NOT [mkNode .EQUAL [t1, t2]]
        let c2 := mkNode .EQUAL [t2, t1]
        let new_res := mkNodeOp c1 c2
        let new_args := [new_id, t1, t2]
        let r := cdp.addStep pc new_res .LEAN_RULE [] new_args .ASSUME_ONLY
        .ok (true, r.2, continueUpdate)
      else
        let new_id := mkConstRational (LeanRule.SMTSYMM_NEG.toNat : Nat)
        let t1 := (child.getChild 0).getChild 0
        let t2 := (child.getChild 0).getChild 1
        let c1 := mkNode .EQUAL [t1, t2]
        let c2 := mkNode .NOT [mkNode .EQUAL [t2, t1]]
        let new_res := mkNodeOp c1 c2
        let new_args := [new_id, t1, t2]
        let r := cdp.addStep pc new_res .LEAN_RULE [] new_args .ASSUME_ONLY
        .ok (true, r.2, continueUpdate)
  | _ => .ok (false, cdp, continueUpdate)

end LeanProofPostprocessCallback

/-! ## The proof generator and the closure-check guard -/

/-- The options the guard reads: `options::proofNew()` and
`options::proofNewEagerChecking()`. -/
structure Options where
  proofNew : Bool
  proofNewEagerChecking : Bool
  deriving DecidableEq, Repr

/-- A proof generator: its name and its `getProofFor`, which answers with a
proof, with no proof (the null pointer), or aborts. -/
structure ProofGenerator where
  identify : String
  getProofFor : Node → Except Err (Option ProofNode)

/-- The member `ProofGenerator::getProofFor(f)` of the base class. -/
def ProofGenerator.getProofForBase (_f : Node) : Except Err (Option ProofNode) :=
  .error .fatal

/-- What a call of the guard did: the goals for which it asked the generator for
a proof, and whether it returned or aborted. -/
structure GuardRun where
  queried : List Node
  outcome : Except Err Unit

/-- The function `pfgEnsureClosed(proven, pg, c, ctx, reqGen)`; `traceOn` is
`Trace.isOn`, and a null generator is `none`. -/
def pfgEnsureClosed (opts : Options) (traceOn : String → Bool) (proven : Node)
    (pg : Option ProofGenerator) (c : String) (_ctx : String) (reqGen : Bool) : GuardRun :=
  if !opts.proofNew then
    { queried := [], outcome := .ok () }
  else
    let isTraceDebug := traceOn c
    if !opts.proofNewEagerChecking && !isTraceDebug then
      { queried := [], outcome := .ok () }
    else
      match pg with
      | none =>
        if reqGen then { queried := [], outcome := .error .fatal }
        else { queried := [], outcome := .ok () }
      | some g =>
        match g.getProofFor proven with
        | .error e => { queried := [proven], outcome := .error e }
        | .ok none => { queried := [proven], outcome := .error .fatal }
        | .ok (some pn) =>
          if pn.isClosed then { queried := [proven], outcome := .ok () }
          else { queried := [proven], outcome := .error .fatal }

/-! ## Sequences of calls -/

/-- A sequence of calls `getOrAssignIndexForVar(v)`, one for each element of the
list in turn, each on the state the call before it left. -/
def assignAll (s : LfscTermProcessor) : List Node → Except Err LfscTermProcessor
  | [] => .ok s
  | v :: vs =>
    match s.getOrAssignIndexForVar v with
    | .error e => .error e
    | .ok (_, s1) => assignAll s1 vs

/-! ## Invariants of the encoder state -/

/-- The shape of the variable-index table: its keys are pairwise distinct and its
values are `0, 1, 2, ...` in the order of insertion. -/
def VarIndexOK (t : List (Node × Nat)) : Prop :=
  t.map Prod.snd = List.range t.length ∧ (t.map Prod.fst).Nodup

/-- The invariant of the symbol cache: every cached symbol is a bound variable
that the node manager has allocated, of the sort of its key; no symbol is cached
under two keys; and no key occurs twice in the table. -/
structure SymbolsOK (s : LfscTermProcessor) : Prop where
  typed : ∀ key sym, mapFind s.d_symbolsMap key = some sym →
    ∃ id, sym = Node.mk .BOUND_VARIABLE (.var id key.2.1) [] ∧ id < s.nm.nextId
  inj : ∀ key1 key2 sym, mapFind s.d_symbolsMap key1 = some sym →
    mapFind s.d_symbolsMap key2 = some sym → key1 = key2
  nodup : (s.d_symbolsMap.map Prod.fst).Nodup

/-- Every entry of the symbol cache of `s` is an entry of that of `s2`. -/
def SymExt (s s2 : LfscTermProcessor) : Prop :=
  ∀ key sym, mapFind s.d_symbolsMap key = some sym → mapFind s2.d_symbolsMap key = some sym

/-- A step from `s` to `s2` that leaves the memo table of terms alone, keeps the
entries of the symbol cache and preserves its invariant. -/
structure Quiet (s s2 : LfscTermProcessor) : Prop where
  symbols : SymbolsOK s → SymbolsOK s2
  ext : SymExt s s2
  cache : s2.d_cache = s.d_cache

/-- The invariant of the memo table of terms, for the terms that occur as null
terminators: what the table holds for a Boolean constant, an integer constant,
the empty string and the regular expression of the empty string is what
`runConvert` makes of them. -/
structure NullTermCacheOK (s : LfscTermProcessor) : Prop where
  bool : ∀ b r, mapFind s.d_cache (mkConstBool b) = some r → r = mkConstBool b
  rational : ∀ i r, mapFind s.d_cache (mkConstRational i) = some r →
    ∃ tnv sym, r = mkNode .APPLY_UF [sym, mkConstRational i] ∧
      mapFind s.d_symbolsMap (.CONST_RATIONAL, tnv, 0) = some sym
  emptyString : ∀ r, mapFind s.d_cache (mkConstString []) = some r →
    ∃ tn, mapFind s.d_symbolsMap (.CONST_STRING, tn, 0) = some r
  emptyRegexp : ∀ r, mapFind s.d_cache (mkNode .STRING_TO_REGEXP [mkConstString []]) = some r →
    ∃ e, r = mkNode .STRING_TO_REGEXP [e]

/-- The invariant of the encoder state: that of the symbol cache and that of the
memo table of terms.  It holds after the constructor, and `convert`,
`runConvert` and the functions they call preserve it. -/
structure WF (s : LfscTermProcessor) : Prop where
  symbols : SymbolsOK s
  cache : NullTermCacheOK s

/-- A step from `s` to `s2` that preserves the invariant of the state and keeps
the entries of the symbol cache. -/
structure Grows (s s2 : LfscTermProcessor) : Prop where
  wf : WF s → WF s2
  ext : SymExt s s2

/-! ## Decoding a chain, and the standard interpretation -/

/-- A structural decoder of a flattened chain of the operator `k`.  It walks down
the last argument of the links (binary applications of `k`; for `PLUS` and
`MULT`, applications of a binary symbol to two arguments) and collects the
operand of each link, and stops at the first term that is not a link. -/
def decodeChain (k : Kind) : Node → List Node
  | .mk k2 _ [a, r] => if k2 = k ∧ k ≠ .PLUS ∧ k ≠ .MULT then a :: decodeChain k r else []
  | .mk k2 _ [_, a, r] =>
    if k2 = .APPLY_UF ∧ (k = .PLUS ∨ k = .MULT) then a :: decodeChain k r else []
  | _ => []

/-- The values of the standard interpretation: Booleans and integers. -/
inductive Val where
  | bool (b : Bool)
  | int (i : Int)
  deriving DecidableEq, Repr

/-- The Booleans of a list of values, if all of them are Booleans. -/
def asBools : List (Option Val) → Option (List Bool)
  | [] => some []
  | some (.bool b) :: vs => (asBools vs).map (fun bs => b :: bs)
  | _ :: _ => none

/-- The integers of a list of values, if all of them are integers. -/
def asInts : List (Option Val) → Option (List Int)
  | [] => some []
  | some (.int i) :: vs => (asInts vs).map (fun is => i :: is)
  | _ :: _ => none

/-- The kind for which the encoder minted the symbol `sym`: the kind of the key
under which the symbol cache holds it. -/
def symbolKind (s : LfscTermProcessor) (sym : Node) : Option Kind :=
  (s.d_symbolsMap.find? (fun e => decide (e.2 = sym))).map (fun e => e.1.1)

/-- The standard interpretation of a term of kind `k` with constant part `p`
over children `cs` whose values are `vs`, the reference against which the
encoding is compared.  A disjunction
is true iff some operand is, a conjunction iff all are, a sum is the sum and a
product the product of its operands, whatever their number; the application of
a symbol that the encoder minted for `PLUS`, `MULT` or integer constants means
binary addition, binary multiplication and the integer itself; every other term
has the value the assignment `rho` gives it. -/
def evalNode (s : LfscTermProcessor) (rho : Node → Option Val) (k : Kind) (p : Payload)
    (cs : List Node) (vs : List (Option Val)) : Option Val :=
  match k with
  | .CONST_BOOLEAN =>
    match p with
    | .bool b => some (.bool b)
    | _ => none
  | .CONST_RATIONAL =>
    match p with
    | .rational i 1 => some (.int i)
    | _ => none
  | .OR => (asBools vs).map (fun bs => Val.bool (bs.any id))
  | .AND => (asBools vs).map (fun bs => Val.bool (bs.all id))
  | .PLUS => (asInts vs).map (fun is => Val.int is.sum)
  | .MULT => (asInts vs).map (fun is => Val.int is.prod)
  | .APPLY_UF =>
    match symbolKind s (cs.headD Node.null) with
    | some .CONST_RATIONAL =>
      match asInts vs.tail with
      | some [i] => some (.int i)
      | _ => none
    | some .PLUS =>
      match asInts vs.tail with
      | some [i, j] => some (.int (i + j))
      | _ => none
    | some .MULT =>
      match asInts vs.tail with
      | some [i, j] => some (.int (i * j))
      | _ => none
    | _ => rho (.mk k p cs)
  | _ => rho (.mk k p cs)

mutual
/-- The value of a term under the standard interpretation and the assignment
`rho`, the encoder's symbols being those of the state `s`. -/
def eval (s : LfscTermProcessor) (rho : Node → Option Val) : Node → Option Val
  | .mk k p cs => evalNode s rho k p cs (evalList s rho cs)
/-- The values of a list of terms. -/
def evalList (s : LfscTermProcessor) (rho : Node → Option Val) : List Node → List (Option Val)
  | [] => []
  | c :: cs => eval s rho c :: evalList s rho cs
end

/-! ## Concrete inputs

Terms, sorts and states at which the theorems below are instantiated. -/

/-- A type checker that answers `Bool` everywhere, and a skolem manager whose
witness forms are the skolems themselves. -/
def exampleEnv : Env := { typeOf := fun _ => booleanType, getWitnessForm := fun n => n }

/-- The free variable number `i`, of sort `Bool`. -/
def boolVar (i : Nat) : Node := .mk .VARIABLE (.var i booleanType) []

/-- The free variable number `i`, of sort `Int`. -/
def intVar (i : Nat) : Node := .mk .VARIABLE (.var i integerType) []

/-- The encoder right after its constructor has run on a node manager that has
allocated nothing. -/
def freshEncoder : LfscTermProcessor := LfscTermProcessor.new NodeManager.fresh

/-- Options with proof production and eager checking both on. -/
def eagerOptions : Options := { proofNew := true, proofNewEagerChecking := true }

/-- No diagnostic tag is traced. -/
def traceNothing : String → Bool := fun _ => false

/-- The closed proof of `true` by the rule `TRUE_INTRO` from no premise. -/
def closedProof : ProofNode := .mk .TRUE_INTRO [] [] (mkConstBool true)

/-- A generator that answers every goal with `closedProof`. -/
def closedGenerator : ProofGenerator :=
  { identify := "closed", getProofFor := fun _ => .ok (some closedProof) }

/-- A node manager on which two sorts `U` and `V` have been declared. -/
def nmWithTwoSorts : NodeManager :=
  ((NodeManager.fresh.mkSort "U").2.mkSort "V").2

/-- The uninterpreted sort `U`, the first sort declared on a fresh node manager. -/
def sortU : TypeNode := (NodeManager.fresh.mkSort "U").1

/-- The uninterpreted sort `V`, declared after `U`. -/
def sortV : TypeNode := ((NodeManager.fresh.mkSort "U").2.mkSort "V").1

/-- A proof checker that accepts every step and computes no conclusion. -/
def trustingChecker : ProofChecker :=
  { checkDebug := fun _ _ _ => Node.null, accepts := fun _ => true }

/-- The equality `x0 = x1`. -/
def eqAB : Node := mkNode .EQUAL [boolVar 0, boolVar 1]

/-- The equality `x1 = x0`. -/
def eqBA : Node := mkNode .EQUAL [boolVar 1, boolVar 0]

/-! ## The steps a chain resolution is broken into -/

/-- The identity of an attribute: the template parameter `T` of
`mkBoundVar<T>`, whose value `attr` carries nothing else. -/
abbrev AttrId := Nat

/-- The call `nm->mkBoundVar(tn)`: a new bound variable of sort `tn`, without a
name. -/
def NodeManager.mkBoundVarUnnamed (nm : NodeManager) (tn : TypeNode) : Node × NodeManager :=
  (.mk .BOUND_VARIABLE (.var nm.nextId tn) [], { nm with nextId := nm.nextId + 1 })

/-- The call `v.setAttribute(expr::VarNameAttr(), name)`. -/
def NodeManager.setName (nm : NodeManager) (v : Node) (name : String) : NodeManager :=
  { nm with varNameAttr := mapInsert nm.varNameAttr v name }

/-- The data members of `BoundVarManager`, together with the node manager it
allocates from and the term-valued attributes of the terms (what
`n.hasAttribute(attr)`, `n.getAttribute(attr)` and `n.setAttribute(attr, v)`
read and write), a table keyed by attribute and term. -/
structure BoundVarManager where
  nm : NodeManager
  attrs : List ((AttrId × Node) × Node)
  d_keepCacheVals : Bool
  d_cacheVals : List Node
  deriving Repr

namespace BoundVarManager

/-- The constructor `BoundVarManager()`, on a node manager and the attributes the
terms carry at that time. -/
def new (nm : NodeManager) (attrs : List ((AttrId × Node) × Node)) : BoundVarManager :=
  { nm := nm, attrs := attrs, d_keepCacheVals := false, d_cacheVals := [] }

/-- The member `enableKeepCacheValues(isEnabled)`. -/
def enableKeepCacheValues (s : BoundVarManager) (isEnabled : Bool) : BoundVarManager :=
  { s with d_keepCacheVals := isEnabled }

/-- The member `mkBoundVar<T>(attr, n, tn)`: the manager after the call, and the
variable returned or the abort. -/
def mkBoundVar (env : Env) (s : BoundVarManager) (attr : AttrId) (n : Node) (tn : TypeNode) :
    BoundVarManager × Except Err Node :=
  match mapFind s.attrs (attr, n) with
  | some cached =>
    if cached.getType env = tn then (s, .ok cached) else (s, .error .assertion)
  | none =>
    let r := s.nm.mkBoundVarUnnamed tn
    let v := r.1
    let s1 := { s with nm := r.2, attrs := mapInsert s.attrs (attr, n) v }
    if s1.d_keepCacheVals then
      ({ s1 with d_cacheVals := setInsert s1.d_cacheVals n }, .ok v)
    else (s1, .ok v)

/-- The static member `setNameAttr(v, name)`, on the node manager that holds the
name attribute. -/
def setNameAttr (nm : NodeManager) (v : Node) (name : String) : NodeManager :=
  nm.setName v name

/-- The member `mkBoundVar<T>(attr, n, name, tn)`, the overload with a name. -/
def mkBoundVarNamed (env : Env) (s : BoundVarManager) (attr : AttrId) (n : Node)
    (name : String) (tn : TypeNode) : BoundVarManager × Except Err Node :=
  match s.mkBoundVar env attr n tn with
  | (s1, .error e) => (s1, .error e)
  | (s1, .ok v) => ({ s1 with nm := setNameAttr s1.nm n name }, .ok v)

end BoundVarManager

/-- A manager right after its constructor has run, on a node manager that has
allocated nothing and terms that carry no attribute. -/
def freshBoundVarManager : BoundVarManager := BoundVarManager.new NodeManager.fresh []

/-! ## Adding the proof of a generator to an accumulator -/

/-- The step at the root of a proof: its conclusion, its rule tag, the
conclusions of its premise proofs, its arguments. -/
def ProofNode.rootStep : ProofNode → ProofStep
  | .mk rule children args res =>
    { conclusion := res, rule := rule, premises := children.map ProofNode.getResult,
      args := args }

/-- Modelled from the spec: `CDProof::addProof(pn, opolicy, doCopy)`, which is
outside the embedded sources, for a call without deep copy: the root step of the
proof is merged into the accumulator under the policy.  With no step for the
conclusion yet the step is recorded; `ALWAYS` replaces the step that exists;
`ASSUME_ONLY` replaces it only if it is an assumption and leaves it otherwise;
`NEVER` rejects a step that differs from the one that exists and leaves the old
one. -/
def CDProof.addProof (cdp : CDProof) (pn : ProofNode) (opolicy : CDPOverwrite)
    (_doCopy : Bool) : Bool × CDProof :=
  let st := pn.rootStep
  match cdp.getProof st.conclusion with
  | none => (true, cdp.setStep st)
  | some prev =>
    match opolicy with
    | .ALWAYS => (true, cdp.setStep st)
    | .ASSUME_ONLY => if prev.rule = .ASSUME then (true, cdp.setStep st) else (true, cdp)
    | .NEVER => if prev = st then (true, cdp) else (false, cdp)

/-- The member `ProofGenerator::addProofTo(f, pf, opolicy)` of the base class.
`addProof` is the member `addProof(pn, opolicy, doCopy)` of the accumulator the
pointer `pf` refers to, and a null pointer is `none`; the result is the
accumulator after the call, and the returned Boolean or the abort. -/
def ProofGenerator.addProofTo
    (addProof : CDProof → ProofNode → CDPOverwrite → Bool → Bool × CDProof)
    (g : ProofGenerator) (f : Node) (pf : Option CDProof) (opolicy : CDPOverwrite) :
    Option CDProof × Except Err Bool :=
  match pf with
  | none => (none, .error .assertion)
  | some cdp =>
    match g.getProofFor f with
    | .error e => (some cdp, .error e)
    | .ok (some apf) =>
      let r := addProof cdp apf opolicy false
      if r.1 then (some r.2, .ok true) else (some r.2, .ok false)
    | .ok none => (some cdp, .error .assertion)

/-- A generator that has no proof for any goal. -/
def emptyGenerator : ProofGenerator :=
  { identify := "empty", getProofFor := fun _ => .ok none }

/-! ## Relations between the states of a pass -/

/-- Every entry of the variable-index table of `s` is an entry of that of
`s2`. -/
def IndexExt (s s2 : LfscTermProcessor) : Prop :=
  ∀ v i, mapFind s.d_varIndex v = some i → mapFind s2.d_varIndex v = some i

/-- The invariant of the sort tables: that of the symbol cache; the arrow sort
constructor has a reflection; no reflection is the null term; and every sort the
memo table of sorts answers with has a reflection. -/
structure TypesOK (s : LfscTermProcessor) : Prop where
  symbols : SymbolsOK s
  arrow : ∃ a, mapFind s.d_typeAsNode s.d_arrow = some a
  nonnull : ∀ t n, mapFind s.d_typeAsNode t = some n → n.isNull = false
  tcache : ∀ t r, mapFind s.d_tcache t = some r → ∃ n, mapFind s.d_typeAsNode r = some n

/-- A step from `s` to `s2` that preserves the invariant of the sort tables and
keeps a reflection for every sort that has one. -/
structure TypeGrows (s s2 : LfscTermProcessor) : Prop where
  ok : TypesOK s → TypesOK s2
  keys : ∀ t n, mapFind s.d_typeAsNode t = some n → ∃ n2, mapFind s2.d_typeAsNode t = some n2

/-- A relation between encoder states that holds across every elementary change
of state the encoder makes: a symbol lookup, an index lookup, recording a
reflection that is not null, recording a converted sort that has a reflection,
and recording a converted term. -/
structure StepRel (R : LfscTermProcessor → LfscTermProcessor → Prop) : Prop where
  rel_refl : ∀ s, R s s
  rel_trans : ∀ s1 s2 s3, R s1 s2 → R s2 s3 → R s1 s3
  symbol : ∀ s k tn name v, R s (LfscTermProcessor.getSymbolInternal s k tn name v).2
  index : ∀ s v i s1, LfscTermProcessor.getOrAssignIndexForVar s v = .ok (i, s1) → R s s1
  reflect : ∀ s t n, n.isNull = false →
    R s { s with d_typeAsNode := mapInsert s.d_typeAsNode t n }
  tmemo : ∀ s t r, (∃ n, mapFind s.d_typeAsNode r = some n) →
    R s { s with d_tcache := mapInsert s.d_tcache t r }
  memo : ∀ s n r, R s { s with d_cache := mapInsert s.d_cache n r }

/-! ## Sorts the encoder reflects, and the binders of a closure -/

mutual
/-- A sort `runConvertType` has a case for, all the way down: a childless sort
that is no function sort, or a function sort (it has a range sort) whose
argument and range sorts are such sorts. -/
def TypeNode.isEncodable : TypeNode → Bool
  | .mk k _ cs =>
    if k = .FUNCTION_TYPE then !cs.isEmpty && TypeNode.isEncodableList cs
    else cs.isEmpty
/-- All sorts of a list are such sorts. -/
def TypeNode.isEncodableList : List TypeNode → Bool
  | [] => true
  | t :: ts => TypeNode.isEncodable t && TypeNode.isEncodableList ts
end

/-- What a binder carries for the bound variable `v`: the index
`getOrAssignIndexForVar(v)` and the reflection `typeAsNode` of the converted sort
of `v`. -/
def binderData (env : Env) (s : LfscTermProcessor) (v : Node) :
    Except Err ((Nat × Node) × LfscTermProcessor) :=
  match s.getOrAssignIndexForVar v with
  | .error e => .error e
  | .ok (idx, s1) =>
    match LfscTermProcessor.convertType s1 (v.getType env) with
    | .error e => .error e
    | .ok (ct, s2) =>
      match s2.typeAsNode ct with
      | .error e => .error e
      | .ok tc => .ok ((idx, tc), s2)

/-- The data of the binders for a list of variables, computed for the first
variable of the list first. -/
def binderDataList (env : Env) (s : LfscTermProcessor) :
    List Node → Except Err (List (Nat × Node) × LfscTermProcessor)
  | [] => .ok ([], s)
  | v :: vs =>
    match binderData env s v with
    | .error e => .error e
    | .ok (d, s1) =>
      match binderDataList env s1 vs with
      | .error e => .error e
      | .ok (ds, s2) => .ok (d :: ds, s2)

/-- The nested applications `((op i1 S1) ((op i2 S2) ... ((op ik Sk) body)))`
for the data `(i1, S1), ..., (ik, Sk)`: the first pair is outermost. -/
def binderChain (op : Node) (data : List (Nat × Node)) (body : Node) : Node :=
  data.foldr
    (fun d r => mkNode .APPLY_UF [mkNode .APPLY_UF [op, mkConstRational d.1, d.2], r]) body

/-- The zero-based position of `x` among the distinct variables of the calls
`vs` followed by a call for `x`, in the order in which they are first seen: the
number of distinct variables seen before `x` is first seen. -/
def firstSeenPosition (vs : List Node) (x : Node) : Nat :=
  (vs.takeWhile (fun v => decide (v ≠ x))).dedup.length

/-- The bound variable number `i` of sort `tn`. -/
def boundVar (i : Nat) (tn : TypeNode) : Node := .mk .BOUND_VARIABLE (.var i tn) []

/-- Options with proof production on and eager checking off. -/
def lazyOptions : Options := { proofNew := true, proofNewEagerChecking := false }

/-- Exactly the diagnostic tag "tag" is traced. -/
def traceTag : String → Bool := fun c => decide (c = "tag")

/-- The fresh encoder after `runConvertType(Bool)`. -/
def encoderWithBool : LfscTermProcessor :=
  match freshEncoder.runConvertType booleanType with
  | .ok (_, s) => s
  | .error _ => freshEncoder

/-- Every symbol the symbol cache holds is in the set of internal symbols. -/
def SymbolsMinted (s : LfscTermProcessor) : Prop :=
  ∀ key sym, mapFind s.d_symbolsMap key = some sym → sym ∈ s.d_symbols

/-- A step from `s` to `s2` that keeps every internal symbol and keeps the
symbols of the symbol cache among them. -/
structure MintedGrows (s s2 : LfscTermProcessor) : Prop where
  minted : SymbolsMinted s → SymbolsMinted s2
  symbols : ∀ sym, sym ∈ s.d_symbols → sym ∈ s2.d_symbols

/-- A type checker that answers `Bool` everywhere, and a skolem manager for
which the witness form of every skolem is the constant `true`. -/
def witnessEnv : Env :=
  { typeOf := fun _ => booleanType, getWitnessForm := fun _ => mkConstBool true }

/-- The skolem number `i` of sort `tn`. -/
def skolemVar (i : Nat) (tn : TypeNode) : Node := .mk .SKOLEM (.var i tn) []

/-! ## String literals -/

/-- The term `(char c)`: the application of the symbol `sym` to the code point
`c`. -/
def charTerm (sym : Node) (c : Nat) : Node := mkNode .APPLY_UF [sym, mkConstRational (c : Nat)]

/-- The key under which the symbol `char` for the one-element literal of the
code point `c` is cached: the kind `CONST_STRING` and the function sort from
`Int` to the sort of that literal. -/
def charKey (env : Env) (c : Nat) : SymbolKey :=
  (.CONST_STRING, mkFunctionType [integerType] ((mkConstString [c]).getType env), 0)

/-- The code point of a term `(char c)`, whatever its symbol. -/
def decodeChar : Node → Option Nat
  | .mk .APPLY_UF _ [_, .mk .CONST_RATIONAL (.rational i _) _] => some i.toNat
  | _ => none

/-- A structural decoder of an encoded string literal: a bound variable stands
for the empty literal, a term `(char c)` for the literal of `c`, and a link
`(str.++ (char c) r)` for `c` followed by what `r` stands for. -/
def decodeString : Node → Option (List Nat)
  | .mk .STRING_CONCAT _ [a, r] =>
    match decodeChar a, decodeString r with
    | some c, some cs => some (c :: cs)
    | _, _ => none
  | .mk .BOUND_VARIABLE _ _ => some []
  | n => (decodeChar n).map (fun c => [c])

/-! # Theorems -/

open LfscTermProcessor LeanProofPostprocessCallback

/-! ## Finite maps -/

theorem mapFind_mapInsert_self {α β : Type} [DecidableEq α] (m : List (α × β)) (a : α) (b : β) :
    mapFind (mapInsert m a b) a = some b := by
  induction m with
  | nil => simp [mapInsert, mapFind]
  | cons e rest ih =>
    obtain ⟨k, v⟩ := e
    by_cases h : k = a
    · simp [mapInsert, mapFind, h]
    · simp [mapInsert, mapFind, h, ih]

theorem mapFind_mapInsert_ne {α β : Type} [DecidableEq α] (m : List (α × β)) (a c : α) (b : β)
    (h : a ≠ c) : mapFind (mapInsert m a b) c = mapFind m c := by
  induction m with
  | nil => simp [mapInsert, mapFind, h]
  | cons e rest ih =>
    obtain ⟨k, v⟩ := e
    by_cases hk : k = a
    · subst hk
      simp [mapInsert, mapFind, h]
    · simp [mapInsert, mapFind, hk, ih]

theorem mapInsert_of_none {α β : Type} [DecidableEq α] (m : List (α × β)) (a : α) (b : β)
    (h : mapFind m a = none) : mapInsert m a b = m ++ [(a, b)] := by
  induction m with
  | nil => simp [mapInsert]
  | cons e rest ih =>
    obtain ⟨k, v⟩ := e
    by_cases hk : k = a
    · simp [mapFind, hk] at h
    · simp [mapFind, hk] at h
      simp [mapInsert, hk, ih h]

theorem mapFind_none_iff {α β : Type} [DecidableEq α] (m : List (α × β)) (a : α) :
    mapFind m a = none ↔ a ∉ m.map Prod.fst := by
  induction m with
  | nil => simp [mapFind]
  | cons e rest ih =>
    obtain ⟨k, v⟩ := e
    by_cases hk : k = a
    · simp [mapFind, hk]
    · simp [mapFind, hk, ih, Ne.symm hk]

theorem mem_of_mapFind {α β : Type} [DecidableEq α] (m : List (α × β)) (a : α) (b : β)
    (h : mapFind m a = some b) : (a, b) ∈ m := by
  induction m with
  | nil => simp [mapFind] at h
  | cons e rest ih =>
    obtain ⟨k, v⟩ := e
    by_cases hk : k = a
    · simp [mapFind, hk] at h
      simp [hk, h]
    · simp [mapFind, hk] at h
      simp [ih h]

theorem mapFind_of_mem_nodup {α β : Type} [DecidableEq α] (m : List (α × β)) (a : α) (b : β)
    (hnd : (m.map Prod.fst).Nodup) (h : (a, b) ∈ m) : mapFind m a = some b := by
  induction m with
  | nil => simp at h
  | cons e rest ih =>
    obtain ⟨k, v⟩ := e
    simp only [List.map_cons, List.nodup_cons] at hnd
    simp only [List.mem_cons, Prod.mk.injEq] at h
    rcases h with ⟨rfl, rfl⟩ | h
    · simp [mapFind]
    · have hk : k ≠ a := by
        rintro rfl
        exact hnd.1 (List.mem_map_of_mem Prod.fst h)
      simp [mapFind, hk, ih hnd.2 h]

/-! ## The symbol cache -/

theorem getSymbolInternal_of_some (s : LfscTermProcessor) (k : Kind) (tn : TypeNode)
    (name : String) (v : Nat) (sym : Node)
    (h : mapFind s.d_symbolsMap (k, tn, v) = some sym) :
    s.getSymbolInternal k tn name v = (sym, s) := by
  simp [getSymbolInternal, h]

theorem getSymbolInternal_of_none (s : LfscTermProcessor) (k : Kind) (tn : TypeNode)
    (name : String) (v : Nat) (h : mapFind s.d_symbolsMap (k, tn, v) = none) :
    s.getSymbolInternal k tn name v =
      (Node.mk .BOUND_VARIABLE (.var s.nm.nextId tn) [],
       { s with
         nm := (s.nm.mkBoundVar name tn).2
         d_symbols := setInsert s.d_symbols (Node.mk .BOUND_VARIABLE (.var s.nm.nextId tn) [])
         d_symbolsMap := mapInsert s.d_symbolsMap (k, tn, v)
           (Node.mk .BOUND_VARIABLE (.var s.nm.nextId tn) []) }) := by
  simp [getSymbolInternal, h, mkInternalSymbol, NodeManager.mkBoundVar]

/-- After a request the symbol cache answers the request's key with the symbol
that was returned. -/
theorem getSymbolInternal_cached (s : LfscTermProcessor) (k : Kind) (tn : TypeNode)
    (name : String) (v : Nat) :
    mapFind (s.getSymbolInternal k tn name v).2.d_symbolsMap (k, tn, v) =
      some (s.getSymbolInternal k tn name v).1 := by
  cases h : mapFind s.d_symbolsMap (k, tn, v) with
  | some sym => rw [getSymbolInternal_of_some _ _ _ _ _ _ h]; exact h
  | none =>
    rw [getSymbolInternal_of_none _ _ _ _ _ h]
    exact mapFind_mapInsert_self _ _ _

/-- A request keeps every entry of the symbol cache. -/
theorem getSymbolInternal_extends (s : LfscTermProcessor) (k : Kind) (tn : TypeNode)
    (name : String) (v : Nat) (key : SymbolKey) (sym : Node)
    (h : mapFind s.d_symbolsMap key = some sym) :
    mapFind (s.getSymbolInternal k tn name v).2.d_symbolsMap key = some sym := by
  cases hf : mapFind s.d_symbolsMap (k, tn, v) with
  | some sym0 => rw [getSymbolInternal_of_some _ _ _ _ _ _ hf]; exact h
  | none =>
    rw [getSymbolInternal_of_none _ _ _ _ _ hf]
    have hne : (k, tn, v) ≠ key := by
      rintro rfl
      rw [hf] at h
      cases h
    simpa [mapFind_mapInsert_ne _ _ _ _ hne] using h

/-- The invariant of the symbol cache holds right after the constructor. -/
theorem SymbolsOK_new (nm : NodeManager) : SymbolsOK (LfscTermProcessor.new nm) := by
  have hmap : (LfscTermProcessor.new nm).d_symbolsMap =
      [((Kind.FUNCTION_TYPE,
          mkFunctionType [((nm.mkSortConstructor "arrow" 2).2.mkSort "sortType").1,
            ((nm.mkSortConstructor "arrow" 2).2.mkSort "sortType").1]
            ((nm.mkSortConstructor "arrow" 2).2.mkSort "sortType").1, 0),
        Node.mk .BOUND_VARIABLE (.var (nm.nextId + 2)
          (mkFunctionType [((nm.mkSortConstructor "arrow" 2).2.mkSort "sortType").1,
            ((nm.mkSortConstructor "arrow" 2).2.mkSort "sortType").1]
            ((nm.mkSortConstructor "arrow" 2).2.mkSort "sortType").1)) [])] := rfl
  have hnm : (LfscTermProcessor.new nm).nm.nextId = nm.nextId + 3 := rfl
  refine ⟨?_, ?_, ?_⟩
  · intro key sym h
    rw [hmap] at h
    simp only [mapFind] at h
    split at h
    · next hk =>
      cases h
      exact ⟨nm.nextId + 2, by rw [← hk], by rw [hnm]; omega⟩
    · cases h
  · intro key1 key2 sym h1 h2
    rw [hmap] at h1 h2
    simp only [mapFind] at h1 h2
    split at h1
    · next hk1 =>
      split at h2
      · next hk2 => rw [← hk1, ← hk2]
      · cases h2
    · cases h1
  · rw [hmap]
    simp

/-- A request preserves the invariant of the symbol cache. -/
theorem SymbolsOK_getSymbolInternal (s : LfscTermProcessor) (hs : SymbolsOK s) (k : Kind)
    (tn : TypeNode) (name : String) (v : Nat) :
    SymbolsOK (s.getSymbolInternal k tn name v).2 := by
  cases hf : mapFind s.d_symbolsMap (k, tn, v) with
  | some sym0 => rw [getSymbolInternal_of_some _ _ _ _ _ _ hf]; exact hs
  | none =>
    rw [getSymbolInternal_of_none _ _ _ _ _ hf]
    have hfresh : ∀ key sym, mapFind s.d_symbolsMap key = some sym →
        sym ≠ Node.mk .BOUND_VARIABLE (.var s.nm.nextId tn) [] := by
      intro key sym h heq
      obtain ⟨id, hid, hlt⟩ := hs.typed key sym h
      rw [heq] at hid
      injection hid with _ hp _
      injection hp with hid2 _
      omega
    refine ⟨?_, ?_, ?_⟩
    · intro key sym h
      by_cases hk : (k, tn, v) = key
      · subst hk
        rw [mapFind_mapInsert_self] at h
        cases h
        exact ⟨s.nm.nextId, rfl, by simp [NodeManager.mkBoundVar]⟩
      · simp only [mapFind_mapInsert_ne _ _ _ _ hk] at h
        obtain ⟨id, hid, hlt⟩ := hs.typed key sym h
        exact ⟨id, hid, by simp only [NodeManager.mkBoundVar]; omega⟩
    · intro key1 key2 sym h1 h2
      by_cases hk1 : (k, tn, v) = key1
      · by_cases hk2 : (k, tn, v) = key2
        · rw [← hk1, ← hk2]
        · subst hk1
          rw [mapFind_mapInsert_self] at h1
          simp only [mapFind_mapInsert_ne _ _ _ _ hk2] at h2
          cases h1
          exact absurd rfl (hfresh key2 _ h2)
      · by_cases hk2 : (k, tn, v) = key2
        · subst hk2
          rw [mapFind_mapInsert_self] at h2
          simp only [mapFind_mapInsert_ne _ _ _ _ hk1] at h1
          cases h2
          exact absurd rfl (hfresh key1 _ h1)
        · simp only [mapFind_mapInsert_ne _ _ _ _ hk1] at h1
          simp only [mapFind_mapInsert_ne _ _ _ _ hk2] at h2
          exact hs.inj key1 key2 sym h1 h2
    · show ((mapInsert s.d_symbolsMap (k, tn, v) _).map Prod.fst).Nodup
      rw [mapInsert_of_none _ _ _ hf, List.map_append, List.nodup_append]
      refine ⟨hs.nodup, by simp, ?_⟩
      intro a ha hb
      simp at hb
      subst hb
      exact (mapFind_none_iff _ _).1 hf ha

/-- Under the invariant a request returns a bound variable of the requested
sort. -/
theorem getSymbolInternal_sort (s : LfscTermProcessor) (hs : SymbolsOK s) (k : Kind)
    (tn : TypeNode) (name : String) (v : Nat) :
    ∃ id, (s.getSymbolInternal k tn name v).1 = Node.mk .BOUND_VARIABLE (.var id tn) [] := by
  obtain ⟨id, hid, _⟩ := (SymbolsOK_getSymbolInternal s hs k tn name v).typed (k, tn, v) _
    (getSymbolInternal_cached s k tn name v)
  exact ⟨id, hid⟩

/-- Under the invariant the symbol a request returns is not the null term. -/
theorem getSymbolInternal_not_null (s : LfscTermProcessor) (hs : SymbolsOK s) (k : Kind)
    (tn : TypeNode) (name : String) (v : Nat) :
    (s.getSymbolInternal k tn name v).1.isNull = false := by
  obtain ⟨id, hid⟩ := getSymbolInternal_sort s hs k tn name v
  rw [hid]
  simp [Node.isNull, Node.null]

/-! ## Unfolding `runConvert` and `convert` -/

theorem null_isNull : Node.null.isNull = true := by decide

theorem chainLoop_null (k : Kind) (cs : List Node) (ret : Node) :
    chainLoop k Node.null cs.reverse ret = cs.foldr (fun a r => mkNode k [a, r]) ret := by
  unfold chainLoop
  simp [null_isNull, List.foldl_reverse]

theorem chainLoop_symbol (opc : Node) (hopc : opc.isNull = false) (cs : List Node) (ret : Node) :
    chainLoop .APPLY_UF opc cs.reverse ret
      = cs.foldr (fun a r => mkNode .APPLY_UF [opc, a, r]) ret := by
  unfold chainLoop
  simp [hopc, List.foldl_reverse]

/-- A term whose kind none of the cases of `runConvert` handles is returned as
it is. -/
theorem runConvert_leaf (env : Env) (fuel : Nat) (s : LfscTermProcessor) (k : Kind)
    (p : Payload) (cs : List Node)
    (h1 : k ≠ .BOUND_VARIABLE) (h2 : k ≠ .SKOLEM) (h3 : k ≠ .APPLY_UF)
    (h4 : k ≠ .HO_APPLY) (h5 : k ≠ .CONST_RATIONAL)
    (h6 : k ≠ .CONST_STRING) (h7 : k ≠ .ITE) (h8 : k ≠ .MINUS)
    (h9 : isClosureKind k = false) (h10 : isNAryKind k = false) :
    runConvert env (fuel + 1) s (.mk k p cs) = .ok (.mk k p cs, s) := by
  rw [runConvert]
  simp [Node.getKind, h1, h2, h3, h4, h5, h6, h7, h8, h9, h10, Node.isClosure]

theorem convert_constBool_total (env : Env) (fuel : Nat) (s : LfscTermProcessor) (b : Bool) :
    ∃ T s1, convert env (fuel + 1 + 1) s (mkConstBool b) = .ok (T, s1) := by
  rw [convert]
  cases hc : mapFind s.d_cache (mkConstBool b) with
  | some r => exact ⟨r, s, rfl⟩
  | none =>
    have hl : runConvert env (fuel + 1) s (mkConstBool b) = .ok (mkConstBool b, s) :=
      runConvert_leaf env fuel s _ _ _ (by decide) (by decide) (by decide) (by decide)
        (by decide) (by decide) (by decide) (by decide) (by rfl) (by rfl)
    have hr : (mkConstBool b).rebuild [] = mkConstBool b := by
      simp [mkConstBool, Node.rebuild, isParameterized]
    have hch : (mkConstBool b).getChildren = [] := by
      simp [mkConstBool, Node.getChildren]
    have hst : shouldTraverse (mkConstBool b) = true := by
      simp [shouldTraverse, mkConstBool, Node.getKind]
    simp [hst, hch, convertList, hr, hl]

theorem convert_constRational_total (env : Env) (fuel : Nat) (s : LfscTermProcessor) (i : Int) :
    ∃ T s1, convert env (fuel + 1 + 1) s (mkConstRational i) = .ok (T, s1) := by
  rw [convert]
  cases hc : mapFind s.d_cache (mkConstRational i) with
  | some r => exact ⟨r, s, rfl⟩
  | none =>
    have hr : (mkConstRational i).rebuild [] = mkConstRational i := rfl
    have hch : (mkConstRational i).getChildren = [] := rfl
    have hst : shouldTraverse (mkConstRational i) = true := rfl
    have hl : ∃ T s1, runConvert env (fuel + 1) s (mkConstRational i) = .ok (T, s1) := by
      rw [runConvert]
      simp only [mkConstRational, Node.getKind, reduceCtorEq, if_false, if_true]
      split
      · exact ⟨_, _, rfl⟩
      · exact ⟨_, _, rfl⟩
    obtain ⟨T, s1, hT⟩ := hl
    simp [hst, hch, convertList, hr, hT]

theorem convert_emptyString_total (env : Env) (fuel : Nat) (s : LfscTermProcessor) :
    ∃ T s1, convert env (fuel + 1 + 1) s (mkConstString []) = .ok (T, s1) := by
  rw [convert]
  cases hc : mapFind s.d_cache (mkConstString []) with
  | some r => exact ⟨r, s, rfl⟩
  | none =>
    have hl : runConvert env (fuel + 1) s (mkConstString []) =
        .ok (s.getSymbolInternalFor env (mkConstString []) "emptystr" 0) := by
      rw [runConvert]
      simp [mkConstString, Node.getKind, Node.getVec]
    have hr : (mkConstString []).rebuild [] = mkConstString [] := by
      simp [mkConstString, Node.rebuild, isParameterized]
    have hch : (mkConstString []).getChildren = [] := by
      simp [mkConstString, Node.getChildren]
    have hst : shouldTraverse (mkConstString []) = true := by
      simp [shouldTraverse, mkConstString, Node.getKind]
    simp [hst, hch, convertList, hr, hl]

theorem convert_emptyRegexp_total (env : Env) (fuel : Nat) (s : LfscTermProcessor) :
    ∃ T s1, convert env (fuel + 1 + 1 + 1) s (mkNode .STRING_TO_REGEXP [mkConstString []])
      = .ok (T, s1) := by
  rw [convert]
  cases hc : mapFind s.d_cache (mkNode .STRING_TO_REGEXP [mkConstString []]) with
  | some r => exact ⟨r, s, rfl⟩
  | none =>
    obtain ⟨e, s1, he⟩ := convert_emptyString_total env fuel s
    have hst : shouldTraverse (mkNode .STRING_TO_REGEXP [mkConstString []]) = true := by
      simp [shouldTraverse, mkNode, Node.getKind]
    have hch : (mkNode .STRING_TO_REGEXP [mkConstString []]).getChildren = [mkConstString []] := by
      simp [mkNode, Node.getChildren, isParameterized]
    have hr : (mkNode .STRING_TO_REGEXP [mkConstString []]).rebuild [e]
        = mkNode .STRING_TO_REGEXP [e] := by
      simp [mkNode, Node.rebuild, isParameterized]
    have hl : runConvert env (fuel + 1 + 1) s1 (mkNode .STRING_TO_REGEXP [e])
        = .ok (mkNode .STRING_TO_REGEXP [e], s1) :=
      runConvert_leaf env (fuel + 1) s1 _ _ _ (by decide) (by decide) (by decide) (by decide)
        (by decide) (by decide) (by decide) (by decide) (by rfl) (by rfl)
    simp [hst, hch, convertList, he, hr, hl]

/-- The six operators to which `getNullTerminator` gives a terminator. -/
theorem getNullTerminator_isNull (k : Kind)
    (hk : k = .OR ∨ k = .AND ∨ k = .PLUS ∨ k = .MULT ∨ k = .STRING_CONCAT ∨ k = .REGEXP_CONCAT) :
    (getNullTerminator k).isNull = false := by
  rcases hk with rfl | rfl | rfl | rfl | rfl | rfl <;> decide

/-- The base class's conversion returns on the null terminator of each of the six
terminator-bearing operators, given a budget of three. -/
theorem convert_nullTerminator_total (env : Env) (fuel : Nat) (s : LfscTermProcessor)
    (k : Kind)
    (hk : k = .OR ∨ k = .AND ∨ k = .PLUS ∨ k = .MULT ∨ k = .STRING_CONCAT ∨ k = .REGEXP_CONCAT)
    (hfuel : 3 ≤ fuel) :
    ∃ T s1, convert env fuel s (getNullTerminator k) = .ok (T, s1) := by
  obtain ⟨f, rfl⟩ : ∃ f, fuel = f + 1 + 1 + 1 := ⟨fuel - 3, by omega⟩
  rcases hk with rfl | rfl | rfl | rfl | rfl | rfl
  · exact convert_constBool_total env (f + 1) s false
  · exact convert_constBool_total env (f + 1) s true
  · exact convert_constRational_total env (f + 1) s 0
  · exact convert_constRational_total env (f + 1) s 1
  · exact convert_emptyString_total env (f + 1) s
  · exact convert_emptyRegexp_total env f s

theorem runConvert_constBool (env : Env) (fuel : Nat) (s s2 : LfscTermProcessor) (b : Bool)
    (r : Node) (h : runConvert env fuel s (mkConstBool b) = .ok (r, s2)) :
    r = mkConstBool b ∧ s2 = s := by
  cases fuel with
  | zero => rw [runConvert] at h; cases h
  | succ f =>
    have hl : runConvert env (f + 1) s (mkConstBool b) = .ok (mkConstBool b, s) :=
      runConvert_leaf env f s _ _ _ (by decide) (by decide) (by decide) (by decide)
        (by decide) (by decide) (by decide) (by decide) (by rfl) (by rfl)
    rw [hl] at h
    simp only [Except.ok.injEq, Prod.mk.injEq] at h
    exact ⟨h.1.symm, h.2.symm⟩

theorem runConvert_constRational (env : Env) (fuel : Nat) (s s2 : LfscTermProcessor) (i : Int)
    (r : Node) (h : runConvert env fuel s (mkConstRational i) = .ok (r, s2)) :
    ∃ tnv name, r = mkNode .APPLY_UF
          [(s.getSymbolInternal .CONST_RATIONAL tnv name 0).1, mkConstRational i] ∧
      s2 = (s.getSymbolInternal .CONST_RATIONAL tnv name 0).2 := by
  cases fuel with
  | zero => rw [runConvert] at h; cases h
  | succ f =>
    rw [runConvert] at h
    simp only [mkConstRational, Node.getKind, reduceCtorEq, if_false, if_true] at h
    split at h
    · simp only [Except.ok.injEq, Prod.mk.injEq] at h
      exact ⟨_, "int", h.1.symm, h.2.symm⟩
    · simp only [Except.ok.injEq, Prod.mk.injEq] at h
      exact ⟨_, "real", h.1.symm, h.2.symm⟩

theorem runConvert_emptyString (env : Env) (fuel : Nat) (s s2 : LfscTermProcessor)
    (r : Node) (h : runConvert env fuel s (mkConstString []) = .ok (r, s2)) :
    ∃ tn, r = (s.getSymbolInternal .CONST_STRING tn "emptystr" 0).1 ∧
      s2 = (s.getSymbolInternal .CONST_STRING tn "emptystr" 0).2 := by
  cases fuel with
  | zero => rw [runConvert] at h; cases h
  | succ f =>
    rw [runConvert] at h
    simp only [mkConstString, Node.getKind, reduceCtorEq, if_false, if_true, Node.getVec,
      List.length_nil, getSymbolInternalFor, Except.ok.injEq, Prod.mk.injEq] at h
    exact ⟨_, (Prod.ext_iff.1 h).1.symm, (Prod.ext_iff.1 h).2.symm⟩

theorem runConvert_stringToRegexp (env : Env) (fuel : Nat) (s s2 : LfscTermProcessor)
    (p : Payload) (cs : List Node) (r : Node)
    (h : runConvert env fuel s (.mk .STRING_TO_REGEXP p cs) = .ok (r, s2)) :
    r = .mk .STRING_TO_REGEXP p cs ∧ s2 = s := by
  cases fuel with
  | zero => rw [runConvert] at h; cases h
  | succ f =>
    have hl : runConvert env (f + 1) s (.mk .STRING_TO_REGEXP p cs)
        = .ok (.mk .STRING_TO_REGEXP p cs, s) :=
      runConvert_leaf env f s _ _ _ (by decide) (by decide) (by decide) (by decide)
        (by decide) (by decide) (by decide) (by decide) (by rfl) (by rfl)
    rw [hl] at h
    simp only [Except.ok.injEq, Prod.mk.injEq] at h
    exact ⟨h.1.symm, h.2.symm⟩

theorem convertList_nil_inv
    (cv : LfscTermProcessor → Node → Except Err (Node × LfscTermProcessor))
    (s s1 : LfscTermProcessor) (rs : List Node)
    (h : convertList cv s [] = .ok (rs, s1)) : rs = [] ∧ s1 = s := by
  simp only [convertList, Except.ok.injEq, Prod.mk.injEq] at h
  exact ⟨h.1.symm, h.2.symm⟩

theorem convertList_singleton_inv
    (cv : LfscTermProcessor → Node → Except Err (Node × LfscTermProcessor))
    (s s1 : LfscTermProcessor) (n : Node) (rs : List Node)
    (h : convertList cv s [n] = .ok (rs, s1)) : ∃ e, rs = [e] ∧ cv s n = .ok (e, s1) := by
  rw [convertList] at h
  split at h
  · cases h
  · next n1 s2 hn =>
    simp only [convertList, Except.ok.injEq, Prod.mk.injEq] at h
    refine ⟨n1, h.1.symm, ?_⟩
    rw [hn, h.2]

/-- After `convert` has returned, the memo table holds the result under the
source term. -/
theorem convert_cached (env : Env) (fuel : Nat) (s s1 : LfscTermProcessor) (n r : Node)
    (h : convert env fuel s n = .ok (r, s1)) : mapFind s1.d_cache n = some r := by
  cases fuel with
  | zero => rw [convert] at h; cases h
  | succ f =>
    rw [convert] at h
    split at h
    · next r0 hc =>
      simp only [Except.ok.injEq, Prod.mk.injEq] at h
      rw [← h.2, ← h.1]; exact hc
    · split at h
      · split at h
        · cases h
        · split at h
          · cases h
          · simp only [Except.ok.injEq, Prod.mk.injEq] at h
            rw [← h.2, ← h.1]
            exact mapFind_mapInsert_self _ _ _
      · simp only [Except.ok.injEq, Prod.mk.injEq] at h
        rw [← h.2, ← h.1]
        exact mapFind_mapInsert_self _ _ _

/-- What `runConvert` returns for an application of a terminator-bearing
operator to two or more operands, in terms of the encoding `T` of the
terminator: the chain of links of the operator itself, or, for `PLUS` and
`MULT`, of `chainLoop` over the symbol `getSymbolInternal` gives. -/
theorem runConvert_nary_inv (env : Env) (fuel : Nat) (s s1 : LfscTermProcessor) (k : Kind)
    (p : Payload) (operands : List Node) (r : Node)
    (hk : k = .OR ∨ k = .AND ∨ k = .PLUS ∨ k = .MULT ∨ k = .STRING_CONCAT ∨ k = .REGEXP_CONCAT)
    (hlen : 2 ≤ operands.length)
    (h : runConvert env fuel s (.mk k p operands) = .ok (r, s1)) :
    ∃ f T s0, fuel = f + 1 ∧ convert env f s (getNullTerminator k) = .ok (T, s0) ∧
      ((k ≠ .PLUS ∧ k ≠ .MULT) →
        r = operands.foldr (fun a r => mkNode k [a, r]) T ∧ s1 = s0) ∧
      ((k = .PLUS ∨ k = .MULT) →
        ∃ ftype name,
          r = chainLoop .APPLY_UF (s0.getSymbolInternal k ftype name 0).1 operands.reverse T ∧
          s1 = (s0.getSymbolInternal k ftype name 0).2) := by
  have hn := getNullTerminator_isNull k hk
  cases fuel with
  | zero => rw [runConvert] at h; cases h
  | succ f =>
    rw [runConvert] at h
    cases hc : convert env f s (getNullTerminator k) with
    | error e =>
      rcases hk with rfl | rfl | rfl | rfl | rfl | rfl <;>
        simp [Node.getKind, Node.isClosure, isClosureKind, isNAryKind, Node.getNumChildren,
          Node.getChildren, isParameterized, hlen, hn, hc] at h
    | ok v =>
      obtain ⟨T, s0⟩ := v
      refine ⟨f, T, s0, rfl, hc, ?_, ?_⟩
      · rintro ⟨hp, hm⟩
        rcases hk with rfl | rfl | rfl | rfl | rfl | rfl <;>
          first
          | exact absurd rfl hp
          | exact absurd rfl hm
          | (simp [Node.getKind, Node.isClosure, isClosureKind, isNAryKind, Node.getNumChildren,
              Node.getChildren, isParameterized, hlen, hn, hc, chainLoop_null] at h
             exact ⟨h.1.symm, h.2.symm⟩)
      · intro hpm
        rcases hpm with rfl | rfl <;>
        · simp only [Node.getKind, Node.isClosure, isClosureKind, isNAryKind, Node.getNumChildren,
            Node.getChildren, isParameterized, hlen, hn, hc, reduceCtorEq, if_false, if_true,
            Bool.true_and, decide_True, Bool.false_eq_true, true_or, or_true, List.drop_zero,
            ge_iff_le, Except.ok.injEq, Prod.mk.injEq] at h
          exact ⟨_, _, h.1.symm, h.2.symm⟩

/-- In any state `runConvert` returns on an application of a terminator-bearing
operator to two or more operands, given a budget of four. -/
theorem runConvert_nary_total (env : Env) (fuel : Nat) (s : LfscTermProcessor) (k : Kind)
    (p : Payload) (operands : List Node)
    (hk : k = .OR ∨ k = .AND ∨ k = .PLUS ∨ k = .MULT ∨ k = .STRING_CONCAT ∨ k = .REGEXP_CONCAT)
    (hlen : 2 ≤ operands.length) (hfuel : 3 ≤ fuel) :
    ∃ r s1, runConvert env (fuel + 1) s (.mk k p operands) = .ok (r, s1) := by
  obtain ⟨T, s0, hT⟩ := convert_nullTerminator_total env fuel s k hk hfuel
  have hn := getNullTerminator_isNull k hk
  rw [runConvert]
  rcases hk with rfl | rfl | rfl | rfl | rfl | rfl <;>
    simp [Node.getKind, Node.isClosure, isClosureKind, isNAryKind, Node.getNumChildren,
      Node.getChildren, isParameterized, hlen, hn, hT]

/-! ## Preservation of the invariants -/

theorem SymExt.ext_refl (s : LfscTermProcessor) : SymExt s s := fun _ _ h => h

theorem SymExt.ext_trans {s1 s2 s3 : LfscTermProcessor} (h12 : SymExt s1 s2) (h23 : SymExt s2 s3) :
    SymExt s1 s3 := fun key sym h => h23 key sym (h12 key sym h)

theorem Quiet.quiet_refl (s : LfscTermProcessor) : Quiet s s :=
  ⟨fun h => h, SymExt.ext_refl s, rfl⟩

theorem Quiet.quiet_trans {s1 s2 s3 : LfscTermProcessor} (h12 : Quiet s1 s2) (h23 : Quiet s2 s3) :
    Quiet s1 s3 :=
  ⟨fun h => h23.symbols (h12.symbols h), h12.ext.ext_trans h23.ext, by rw [h23.cache, h12.cache]⟩

theorem Grows.grows_refl (s : LfscTermProcessor) : Grows s s :=
  ⟨fun h => h, SymExt.ext_refl s⟩

theorem Grows.grows_trans {s1 s2 s3 : LfscTermProcessor} (h12 : Grows s1 s2) (h23 : Grows s2 s3) :
    Grows s1 s3 :=
  ⟨fun h => h23.wf (h12.wf h), h12.ext.ext_trans h23.ext⟩

/-- The null-terminator entries of the memo table stay right when the table is
kept and the symbol cache is extended. -/
theorem NullTermCacheOK.of_ext {s s2 : LfscTermProcessor} (h : NullTermCacheOK s)
    (hext : SymExt s s2) (hcache : s2.d_cache = s.d_cache) : NullTermCacheOK s2 := by
  refine ⟨?_, ?_, ?_, ?_⟩
  · intro b r hr
    rw [hcache] at hr
    exact h.bool b r hr
  · intro i r hr
    rw [hcache] at hr
    obtain ⟨tnv, sym, h1, h2⟩ := h.rational i r hr
    exact ⟨tnv, sym, h1, hext _ _ h2⟩
  · intro r hr
    rw [hcache] at hr
    obtain ⟨tn, h1⟩ := h.emptyString r hr
    exact ⟨tn, hext _ _ h1⟩
  · intro r hr
    rw [hcache] at hr
    exact h.emptyRegexp r hr

theorem Quiet.grows {s s2 : LfscTermProcessor} (h : Quiet s s2) : Grows s s2 :=
  ⟨fun hw => ⟨h.symbols hw.symbols, hw.cache.of_ext h.ext h.cache⟩, h.ext⟩

theorem getSymbolInternal_cache (s : LfscTermProcessor) (k : Kind) (tn : TypeNode)
    (name : String) (v : Nat) : (s.getSymbolInternal k tn name v).2.d_cache = s.d_cache := by
  cases hf : mapFind s.d_symbolsMap (k, tn, v) with
  | some sym0 => rw [getSymbolInternal_of_some _ _ _ _ _ _ hf]
  | none => rw [getSymbolInternal_of_none _ _ _ _ _ hf]

theorem getSymbolInternal_quiet (s : LfscTermProcessor) (k : Kind) (tn : TypeNode)
    (name : String) (v : Nat) : Quiet s (s.getSymbolInternal k tn name v).2 :=
  ⟨fun h => SymbolsOK_getSymbolInternal s h k tn name v,
   fun key sym h => getSymbolInternal_extends s k tn name v key sym h,
   getSymbolInternal_cache s k tn name v⟩

theorem getSymbolInternal_quiet_of_eq (s s2 : LfscTermProcessor) (k : Kind) (tn : TypeNode)
    (name : String) (v : Nat) (sym : Node)
    (h : s.getSymbolInternal k tn name v = (sym, s2)) : Quiet s s2 := by
  have hq := getSymbolInternal_quiet s k tn name v
  rw [h] at hq
  exact hq

theorem getOrAssignIndexForVar_quiet (s s1 : LfscTermProcessor) (v : Node) (i : Nat)
    (h : s.getOrAssignIndexForVar v = .ok (i, s1)) : Quiet s s1 := by
  unfold getOrAssignIndexForVar at h
  split at h
  · split at h
    · simp only [Except.ok.injEq, Prod.mk.injEq] at h
      rw [← h.2]; exact Quiet.quiet_refl s
    · simp only [Except.ok.injEq, Prod.mk.injEq] at h
      rw [← h.2]
      exact ⟨fun hs => ⟨hs.typed, hs.inj, hs.nodup⟩, fun _ _ hk => hk, rfl⟩
  · cases h

theorem runConvertType_quiet (s s1 : LfscTermProcessor) (tn r : TypeNode)
    (h : s.runConvertType tn = .ok (r, s1)) : Quiet s s1 := by
  unfold runConvertType at h
  simp only at h
  split at h
  · split at h
    · cases h
    · split at h
      · cases h
      · split at h
        · cases h
        · split at h
          · cases h
          · split at h
            · cases h
            · simp only [Except.ok.injEq, Prod.mk.injEq] at h
              rw [← h.2]
              exact ⟨fun hs => ⟨hs.typed, hs.inj, hs.nodup⟩, fun _ _ hk => hk, rfl⟩
  · split at h
    · split at h
      · cases h
      · simp only [Except.ok.injEq, Prod.mk.injEq] at h
        rw [← h.2]
        have hq := getSymbolInternal_quiet s tn.getKind s.d_sortType tn.toString 0
        exact ⟨fun hs => ⟨(hq.symbols hs).typed, (hq.symbols hs).inj, (hq.symbols hs).nodup⟩,
          hq.ext, hq.cache⟩
    · cases h

mutual
theorem convertType_quiet : ∀ (t : TypeNode) (s s1 : LfscTermProcessor) (r : TypeNode),
    convertType s t = .ok (r, s1) → Quiet s s1
  | .mk k p cs, s, s1, r, h => by
    rw [convertType] at h
    split at h
    · simp only [Except.ok.injEq, Prod.mk.injEq] at h
      rw [← h.2]; exact Quiet.quiet_refl s
    · split at h
      · cases h
      · next cs1 s2 hl =>
        split at h
        · cases h
        · next r2 s3 hr =>
          simp only [Except.ok.injEq, Prod.mk.injEq] at h
          rw [← h.2]
          have h1 := convertTypeList_quiet cs s s2 cs1 hl
          have h2 := runConvertType_quiet s2 s3 _ r2 hr
          have h3 := h1.quiet_trans h2
          exact ⟨fun hs => ⟨(h3.symbols hs).typed, (h3.symbols hs).inj, (h3.symbols hs).nodup⟩,
            h3.ext, h3.cache⟩
theorem convertTypeList_quiet : ∀ (ts : List TypeNode) (s s1 : LfscTermProcessor)
    (rs : List TypeNode), convertTypeList s ts = .ok (rs, s1) → Quiet s s1
  | [], s, s1, rs, h => by
    rw [convertTypeList] at h
    simp only [Except.ok.injEq, Prod.mk.injEq] at h
    rw [← h.2]; exact Quiet.quiet_refl s
  | t :: ts, s, s1, rs, h => by
    rw [convertTypeList] at h
    split at h
    · cases h
    · next t1 s2 ht =>
      split at h
      · cases h
      · next ts1 s3 hts =>
        simp only [Except.ok.injEq, Prod.mk.injEq] at h
        rw [← h.2]
        exact (convertType_quiet t s s2 t1 ht).quiet_trans (convertTypeList_quiet ts s2 s3 ts1 hts)
end

theorem closureLoop_quiet (env : Env) (forallOp : Node) (vs : List Node) :
    ∀ (s s1 : LfscTermProcessor) (ret r : Node),
      closureLoop env forallOp s vs ret = .ok (r, s1) → Quiet s s1 := by
  induction vs with
  | nil =>
    intro s s1 ret r h
    simp only [closureLoop, Except.ok.injEq, Prod.mk.injEq] at h
    rw [← h.2]; exact Quiet.quiet_refl s
  | cons v vs ih =>
    intro s s1 ret r h
    rw [closureLoop] at h
    split at h
    · cases h
    · next idx s2 hv =>
      simp only at h
      split at h
      · cases h
      · next ct s3 hct =>
        split at h
        · cases h
        · next tc htc =>
          exact ((getOrAssignIndexForVar_quiet s s2 v idx hv).quiet_trans
            (convertType_quiet _ s2 s3 ct hct)).quiet_trans (ih s3 s1 _ r h)

theorem convertList_grows
    (cv : LfscTermProcessor → Node → Except Err (Node × LfscTermProcessor))
    (hcv : ∀ s n r s1, cv s n = .ok (r, s1) → Grows s s1) (ns : List Node) :
    ∀ (s s1 : LfscTermProcessor) (rs : List Node),
      convertList cv s ns = .ok (rs, s1) → Grows s s1 := by
  induction ns with
  | nil =>
    intro s s1 rs h
    simp only [convertList, Except.ok.injEq, Prod.mk.injEq] at h
    rw [← h.2]; exact Grows.grows_refl s
  | cons n ns ih =>
    intro s s1 rs h
    rw [convertList] at h
    split at h
    · cases h
    · next n1 s2 hn =>
      split at h
      · cases h
      · next ns1 s3 hns =>
        simp only [Except.ok.injEq, Prod.mk.injEq] at h
        rw [← h.2]
        exact (hcv s n n1 s2 hn).grows_trans (ih s2 s3 ns1 hns)

theorem stringLoop_grows
    (rc : LfscTermProcessor → Node → Except Err (Node × LfscTermProcessor))
    (hrc : ∀ s n r s1, rc s n = .ok (r, s1) → Grows s s1) (cs : List Nat) :
    ∀ (s s1 : LfscTermProcessor) (ret r : Node),
      stringLoop rc s cs ret = .ok (r, s1) → Grows s s1 := by
  induction cs with
  | nil =>
    intro s s1 ret r h
    simp only [stringLoop, Except.ok.injEq, Prod.mk.injEq] at h
    rw [← h.2]; exact Grows.grows_refl s
  | cons c cs ih =>
    intro s s1 ret r h
    rw [stringLoop] at h
    split at h
    · cases h
    · next e1 s2 he =>
      exact (hrc s _ e1 s2 he).grows_trans (ih s2 s1 _ r h)

/-- Recording the result of `runConvert` for a term under that term keeps the
null-terminator entries of the memo table right. -/
theorem convert_step_cache (env : Env) (fuel : Nat) (s s1 s2 : LfscTermProcessor) (n r : Node)
    (cs1 : List Node)
    (hl : convertList (convert env fuel) s n.getChildren = .ok (cs1, s1))
    (hr : runConvert env fuel s1 (n.rebuild cs1) = .ok (r, s2))
    (hw : NullTermCacheOK s2) :
    NullTermCacheOK { s2 with d_cache := mapInsert s2.d_cache n r } := by
  refine ⟨?_, ?_, ?_, ?_⟩
  · intro b r2 h2
    simp only at h2
    by_cases hn : n = mkConstBool b
    · subst hn
      rw [mapFind_mapInsert_self] at h2
      cases h2
      have hch : (mkConstBool b).getChildren = [] := rfl
      rw [hch] at hl
      obtain ⟨rfl, rfl⟩ := convertList_nil_inv _ _ _ _ hl
      have hrb : (mkConstBool b).rebuild [] = mkConstBool b := rfl
      rw [hrb] at hr
      exact (runConvert_constBool env fuel _ _ b _ hr).1
    · rw [mapFind_mapInsert_ne _ _ _ _ hn] at h2
      exact hw.bool b r2 h2
  · intro i r2 h2
    simp only at h2
    by_cases hn : n = mkConstRational i
    · subst hn
      rw [mapFind_mapInsert_self] at h2
      cases h2
      have hch : (mkConstRational i).getChildren = [] := rfl
      rw [hch] at hl
      obtain ⟨rfl, rfl⟩ := convertList_nil_inv _ _ _ _ hl
      have hrb : (mkConstRational i).rebuild [] = mkConstRational i := rfl
      rw [hrb] at hr
      obtain ⟨tnv, name, h1, h3⟩ := runConvert_constRational env fuel _ _ i _ hr
      refine ⟨tnv, _, h1, ?_⟩
      show mapFind s2.d_symbolsMap _ = _
      rw [h3]
      exact getSymbolInternal_cached _ _ _ _ _
    · rw [mapFind_mapInsert_ne _ _ _ _ hn] at h2
      exact hw.rational i r2 h2
  · intro r2 h2
    simp only at h2
    by_cases hn : n = mkConstString []
    · subst hn
      rw [mapFind_mapInsert_self] at h2
      cases h2
      have hch : (mkConstString []).getChildren = [] := rfl
      rw [hch] at hl
      obtain ⟨rfl, rfl⟩ := convertList_nil_inv _ _ _ _ hl
      have hrb : (mkConstString []).rebuild [] = mkConstString [] := rfl
      rw [hrb] at hr
      obtain ⟨tn, h1, h3⟩ := runConvert_emptyString env fuel _ _ _ hr
      refine ⟨tn, ?_⟩
      show mapFind s2.d_symbolsMap _ = _
      rw [h3, h1]
      exact getSymbolInternal_cached _ _ _ _ _
    · rw [mapFind_mapInsert_ne _ _ _ _ hn] at h2
      exact hw.emptyString r2 h2
  · intro r2 h2
    simp only at h2
    by_cases hn : n = mkNode .STRING_TO_REGEXP [mkConstString []]
    · subst hn
      rw [mapFind_mapInsert_self] at h2
      cases h2
      have hch : (mkNode .STRING_TO_REGEXP [mkConstString []]).getChildren
          = [mkConstString []] := rfl
      rw [hch] at hl
      obtain ⟨e, rfl, _⟩ := convertList_singleton_inv _ _ _ _ _ hl
      have hrb : (mkNode .STRING_TO_REGEXP [mkConstString []]).rebuild [e]
          = mkNode .STRING_TO_REGEXP [e] := rfl
      rw [hrb] at hr
      exact ⟨e, (runConvert_stringToRegexp env fuel _ _ _ _ _ hr).1⟩
    · rw [mapFind_mapInsert_ne _ _ _ _ hn] at h2
      exact hw.emptyRegexp r2 h2

/-- Recording a term under itself keeps the null-terminator entries of the memo
table right, when the term is one that `shouldTraverse` rejects. -/
theorem skip_step_cache (s : LfscTermProcessor) (n : Node) (hst : shouldTraverse n = false)
    (hw : NullTermCacheOK s) :
    NullTermCacheOK { s with d_cache := mapInsert s.d_cache n n } := by
  have hk : n.getKind = .BOUND_VAR_LIST := by
    simpa [shouldTraverse] using hst
  refine ⟨?_, ?_, ?_, ?_⟩
  · intro b r2 h2
    simp only at h2
    have hn : n ≠ mkConstBool b := by rintro rfl; cases hk
    rw [mapFind_mapInsert_ne _ _ _ _ hn] at h2
    exact hw.bool b r2 h2
  · intro i r2 h2
    simp only at h2
    have hn : n ≠ mkConstRational i := by rintro rfl; cases hk
    rw [mapFind_mapInsert_ne _ _ _ _ hn] at h2
    exact hw.rational i r2 h2
  · intro r2 h2
    simp only at h2
    have hn : n ≠ mkConstString [] := by rintro rfl; cases hk
    rw [mapFind_mapInsert_ne _ _ _ _ hn] at h2
    exact hw.emptyString r2 h2
  · intro r2 h2
    simp only at h2
    have hn : n ≠ mkNode .STRING_TO_REGEXP [mkConstString []] := by rintro rfl; cases hk
    rw [mapFind_mapInsert_ne _ _ _ _ hn] at h2
    exact hw.emptyRegexp r2 h2

/-- One round of the induction: `runConvert` with one more unit of budget
preserves the invariant, if `convert` and `runConvert` do with the budget. -/
theorem runConvert_grows_step (env : Env) (fuel : Nat)
    (ihc : ∀ s n r s1, convert env fuel s n = .ok (r, s1) → Grows s s1)
    (ihr : ∀ s n r s1, runConvert env fuel s n = .ok (r, s1) → Grows s s1)
    (s : LfscTermProcessor) (n r : Node) (s1 : LfscTermProcessor)
    (h : runConvert env (fuel + 1) s n = .ok (r, s1)) : Grows s s1 := by
  rw [runConvert] at h
  conv at h => lhs; zeta
  by_cases h1 : n.getKind = .BOUND_VARIABLE
  · rw [if_pos h1] at h
    split at h
    · simp only [Except.ok.injEq, Prod.mk.injEq] at h
      rw [← h.2]; exact Grows.grows_refl s
    · split at h
      · cases h
      · next idx s2 hv =>
        split at h
        · cases h
        · next ct s3 hct =>
          split at h
          · cases h
          · next tc htc =>
            simp only [Except.ok.injEq, Prod.mk.injEq] at h
            rw [← h.2]
            exact (((getOrAssignIndexForVar_quiet s s2 n idx hv).quiet_trans
              (convertType_quiet _ s2 s3 ct hct)).quiet_trans
              (getSymbolInternal_quiet s3 _ _ _ _)).grows
  rw [if_neg h1] at h
  by_cases h2 : n.getKind = .SKOLEM
  · rw [if_pos h2] at h
    split at h
    · cases h
    · next wi s2 hw =>
      simp only [Except.ok.injEq, Prod.mk.injEq] at h
      rw [← h.2]
      exact (ihc s _ wi s2 hw).grows_trans (getSymbolInternal_quiet s2 _ _ _ _).grows
  rw [if_neg h2] at h
  by_cases h3 : n.getKind = .APPLY_UF
  · rw [if_pos h3] at h
    exact ihr s _ r s1 h
  rw [if_neg h3] at h
  by_cases h4 : n.getKind = .HO_APPLY
  · rw [if_pos h4] at h
    simp only [Except.ok.injEq, Prod.mk.injEq] at h
    rw [← h.2]
    exact (getSymbolInternal_quiet s _ _ _ _).grows
  rw [if_neg h4] at h
  by_cases h5 : n.getKind = .CONST_RATIONAL
  · rw [if_pos h5] at h
    split at h
    · simp only [Except.ok.injEq, Prod.mk.injEq] at h
      rw [← h.2]
      exact (getSymbolInternal_quiet s _ _ _ _).grows
    · simp only [Except.ok.injEq, Prod.mk.injEq] at h
      rw [← h.2]
      exact (getSymbolInternal_quiet s _ _ _ _).grows
  rw [if_neg h5] at h
  by_cases h6 : n.getKind = .CONST_STRING
  · rw [if_pos h6] at h
    split at h
    · simp only [Except.ok.injEq] at h
      rw [getSymbolInternalFor] at h
      have := (Prod.ext_iff.1 h).2
      simp only at this
      rw [← this]
      exact (getSymbolInternal_quiet s _ _ _ _).grows
    · split at h
      · simp only [Except.ok.injEq, Prod.mk.injEq] at h
        rw [← h.2]
        exact (getSymbolInternal_quiet s _ _ _ _).grows
      · split at h
        · cases h
        · next ret s2 hret =>
          exact (ihr s _ ret s2 hret).grows_trans (stringLoop_grows _ ihr _ s2 s1 ret r h)
  rw [if_neg h6] at h
  by_cases h7 : n.getKind = .ITE
  · rw [if_pos h7] at h
    split at h
    next iteSym s2 hg =>
    split at h
    · cases h
    · simp only [Except.ok.injEq, Prod.mk.injEq] at h
      rw [← h.2]
      exact (getSymbolInternal_quiet_of_eq s s2 _ _ _ _ _ hg).grows
  rw [if_neg h7] at h
  by_cases h8 : n.getKind = .MINUS
  · rw [if_pos h8] at h
    split at h
    · simp only [Except.ok.injEq, Prod.mk.injEq] at h
      rw [← h.2]
      exact (getSymbolInternal_quiet s _ _ _ _).grows
    · cases h
  rw [if_neg h8] at h
  by_cases h9 : n.isClosure = true
  · rw [if_pos h9] at h
    exact ((getSymbolInternal_quiet s _ _ _ _).quiet_trans
      (closureLoop_quiet env _ _ _ s1 _ r h)).grows
  rw [if_neg h9] at h
  by_cases h10 : (isNAryKind n.getKind && decide (n.getNumChildren ≥ 2)) = true
  · rw [if_pos h10] at h
    split at h
    · cases h
    · split at h
      · simp only [Except.ok.injEq, Prod.mk.injEq] at h
        rw [← h.2]; exact Grows.grows_refl s
      · split at h
        · cases h
        · next ret i s2 hstart =>
          have hg1 : Grows s s2 := by
            split at hstart
            · simp only [Except.ok.injEq, Prod.mk.injEq] at hstart
              rw [← hstart.2]; exact Grows.grows_refl s
            · split at hstart
              · cases hstart
              · next ret0 s3 hc =>
                simp only [Except.ok.injEq, Prod.mk.injEq] at hstart
                rw [← hstart.2]
                exact ihc s _ ret0 s3 hc
          split at h
          · simp only [Except.ok.injEq, Prod.mk.injEq] at h
            rw [← h.2]
            exact hg1.grows_trans (getSymbolInternal_quiet s2 _ _ _ _).grows
          · simp only [Except.ok.injEq, Prod.mk.injEq] at h
            rw [← h.2]
            exact hg1
  rw [if_neg h10] at h
  simp only [Except.ok.injEq, Prod.mk.injEq] at h
  rw [← h.2]; exact Grows.grows_refl s

/-- The base class's `convert` and the member `runConvert` preserve the invariant
of the encoder state, whatever the budget. -/
theorem convert_runConvert_grows (env : Env) : ∀ fuel : Nat,
    (∀ s n r s1, convert env fuel s n = .ok (r, s1) → Grows s s1) ∧
    (∀ s n r s1, runConvert env fuel s n = .ok (r, s1) → Grows s s1) := by
  intro fuel
  induction fuel with
  | zero =>
    constructor
    · intro s n r s1 h
      rw [convert] at h; cases h
    · intro s n r s1 h
      rw [runConvert] at h; cases h
  | succ fuel ih =>
    obtain ⟨ihc, ihr⟩ := ih
    refine ⟨?_, runConvert_grows_step env fuel ihc ihr⟩
    intro s n r s1 h
    rw [convert] at h
    split at h
    · simp only [Except.ok.injEq, Prod.mk.injEq] at h
      rw [← h.2]; exact Grows.grows_refl s
    · split at h
      · split at h
        · cases h
        · next cs1 s2 hl =>
          split at h
          · cases h
          · next r2 s3 hr =>
            simp only [Except.ok.injEq, Prod.mk.injEq] at h
            rw [← h.2]
            have hg : Grows s s3 :=
              (convertList_grows _ ihc _ s s2 cs1 hl).grows_trans (ihr s2 _ r2 s3 hr)
            refine ⟨fun hw => ⟨⟨(hg.wf hw).symbols.typed, (hg.wf hw).symbols.inj,
              (hg.wf hw).symbols.nodup⟩,
              convert_step_cache env fuel s s2 s3 n r2 cs1 hl hr (hg.wf hw).cache⟩, hg.ext⟩
      · next hst =>
        simp only [Except.ok.injEq, Prod.mk.injEq] at h
        rw [← h.2]
        refine ⟨fun hw => ⟨⟨hw.symbols.typed, hw.symbols.inj, hw.symbols.nodup⟩,
          skip_step_cache s n (by simpa using hst) hw.cache⟩, fun _ _ hk => hk⟩

theorem convert_grows (env : Env) (fuel : Nat) (s s1 : LfscTermProcessor) (n r : Node)
    (h : convert env fuel s n = .ok (r, s1)) : Grows s s1 :=
  (convert_runConvert_grows env fuel).1 s n r s1 h

theorem runConvert_grows (env : Env) (fuel : Nat) (s s1 : LfscTermProcessor) (n r : Node)
    (h : runConvert env fuel s n = .ok (r, s1)) : Grows s s1 :=
  (convert_runConvert_grows env fuel).2 s n r s1 h

/-- The invariant of the encoder state holds right after the constructor. -/
theorem WF_new (nm : NodeManager) : WF (LfscTermProcessor.new nm) := by
  have hc : (LfscTermProcessor.new nm).d_cache = [] := rfl
  refine ⟨SymbolsOK_new nm, ⟨?_, ?_, ?_, ?_⟩⟩ <;>
  · intros
    simp_all [mapFind]

/-- In a state that satisfies the invariant, the encoding of a null terminator is
the Boolean constant itself, the application of the symbol for integer
constants to the integer constant, the symbol for the empty string, or a
`STRING_TO_REGEXP` term. -/
theorem convert_nullTerminator_shape (env : Env) (fuel : Nat) (s s0 : LfscTermProcessor)
    (k : Kind) (T : Node) (hw : WF s)
    (h : convert env fuel s (getNullTerminator k) = .ok (T, s0)) :
    WF s0 ∧
    (k = .OR → T = mkConstBool false) ∧
    (k = .AND → T = mkConstBool true) ∧
    (k = .PLUS → ∃ tnv sym, T = mkNode .APPLY_UF [sym, mkConstRational 0] ∧
      mapFind s0.d_symbolsMap (.CONST_RATIONAL, tnv, 0) = some sym) ∧
    (k = .MULT → ∃ tnv sym, T = mkNode .APPLY_UF [sym, mkConstRational 1] ∧
      mapFind s0.d_symbolsMap (.CONST_RATIONAL, tnv, 0) = some sym) ∧
    (k = .STRING_CONCAT → ∃ tn, mapFind s0.d_symbolsMap (.CONST_STRING, tn, 0) = some T) ∧
    (k = .REGEXP_CONCAT → ∃ e, T = mkNode .STRING_TO_REGEXP [e]) := by
  have hw0 : WF s0 := (convert_grows env fuel s s0 _ T h).wf hw
  have hc := convert_cached env fuel s s0 _ T h
  refine ⟨hw0, ?_, ?_, ?_, ?_, ?_, ?_⟩
  · rintro rfl; exact hw0.cache.bool false T hc
  · rintro rfl; exact hw0.cache.bool true T hc
  · rintro rfl; exact hw0.cache.rational 0 T hc
  · rintro rfl; exact hw0.cache.rational 1 T hc
  · rintro rfl; exact hw0.cache.emptyString T hc
  · rintro rfl; exact hw0.cache.emptyRegexp T hc

/-! ## C1: the expansion of `DISTINCT` -/

/-- C1 (code_bug): on `(distinct a b c)` the `DISTINCT` case of `runConvert`
returns the conjunction of the two comparisons `(distinct c b)` and
`(distinct b a)` only: the loop's guard `i != 0 && j != 1` skips every pair
whose first position is `0`, so the pair of the first and the last operand is
never compared and the result has 2 comparisons, not C(3,2) = 3. -/
theorem runConvert_distinct_three (env : Env) (fuel : Nat) (s : LfscTermProcessor)
    (a b c : Node) :
    runConvert env (fuel + 1) s (mkNode .DISTINCT [a, b, c]) =
      .ok (mkNode .AND [mkNode .DISTINCT [c, b], mkNode .DISTINCT [b, a]], s) := by
  rw [runConvert]
  simp [mkNode, Node.getKind, Node.isClosure, isClosureKind, isNAryKind,
    Node.getNumChildren, Node.getChildren, isParameterized, distinctLoop, distinctInner,
    List.range, List.range.loop, List.range']

/-! ## C2: chains down to the null terminator -/

/-- C2: for a terminator-bearing operator `k` among `OR`, `AND`,
`STRING_CONCAT`, `REGEXP_CONCAT` and operands `a1 ... ak` (`k >= 2`),
`runConvert` returns the right-associated chain
`op(a1, op(a2, ... op(ak, T)))`, one link for each operand in the original
order, whose innermost tail `T` is the encoding (by the base class's `convert`)
of `getNullTerminator(op)`; and it does return, given a budget of four. -/
theorem runConvert_terminator_chain (env : Env) (fuel : Nat) (s : LfscTermProcessor)
    (k : Kind) (p : Payload) (operands : List Node)
    (hk : k = .OR ∨ k = .AND ∨ k = .STRING_CONCAT ∨ k = .REGEXP_CONCAT)
    (hlen : 2 ≤ operands.length) (hfuel : 3 ≤ fuel) :
    ∃ T s1, convert env fuel s (getNullTerminator k) = .ok (T, s1) ∧
      runConvert env (fuel + 1) s (.mk k p operands) =
        .ok (operands.foldr (fun a r => mkNode k [a, r]) T, s1) := by
  have hk6 : k = .OR ∨ k = .AND ∨ k = .PLUS ∨ k = .MULT ∨ k = .STRING_CONCAT ∨
      k = .REGEXP_CONCAT := by
    rcases hk with h | h | h | h <;> simp [h]
  obtain ⟨T, s1, hT⟩ := convert_nullTerminator_total env fuel s k hk6 hfuel
  refine ⟨T, s1, hT, ?_⟩
  have hn : (getNullTerminator k).isNull = false := by
    rcases hk with rfl | rfl | rfl | rfl <;> decide
  rw [runConvert]
  rcases hk with rfl | rfl | rfl | rfl <;>
    simp [Node.getKind, Node.isClosure, isClosureKind, isNAryKind, Node.getNumChildren,
      Node.getChildren, isParameterized, hlen, hn, hT, chainLoop_null]

/-- C2 at a concrete input: `(or x0 x1 x2)` on the fresh encoder. -/
theorem runConvert_terminator_chain_witness :
    ∃ T s1, convert exampleEnv 3 freshEncoder (getNullTerminator .OR) = .ok (T, s1) ∧
      runConvert exampleEnv (3 + 1) freshEncoder
          (.mk .OR .none [boolVar 0, boolVar 1, boolVar 2]) =
        .ok ([boolVar 0, boolVar 1, boolVar 2].foldr (fun a r => mkNode .OR [a, r]) T, s1) :=
  runConvert_terminator_chain exampleEnv 3 freshEncoder .OR .none
    [boolVar 0, boolVar 1, boolVar 2] (Or.inl rfl) (by decide) (by decide)

/-! ## C3: decoding the chain -/

theorem decodeChain_link (k : Kind) (hp : k ≠ .PLUS) (hm : k ≠ .MULT) (a r : Node) :
    decodeChain k (mkNode k [a, r]) = a :: decodeChain k r := by
  simp [mkNode, decodeChain, hp, hm]

theorem decodeChain_symbol_link (k : Kind) (hk : k = .PLUS ∨ k = .MULT) (opc a r : Node) :
    decodeChain k (mkNode .APPLY_UF [opc, a, r]) = a :: decodeChain k r := by
  simp [mkNode, decodeChain, hk]

theorem decodeChain_foldr (k : Kind) (hp : k ≠ .PLUS) (hm : k ≠ .MULT) (T : Node)
    (hT : decodeChain k T = []) (operands : List Node) :
    decodeChain k (operands.foldr (fun a r => mkNode k [a, r]) T) = operands := by
  induction operands with
  | nil => simpa using hT
  | cons a rest ih => simp [decodeChain_link k hp hm, ih]

theorem decodeChain_symbol_foldr (k : Kind) (hk : k = .PLUS ∨ k = .MULT) (opc T : Node)
    (hT : decodeChain k T = []) (operands : List Node) :
    decodeChain k (operands.foldr (fun a r => mkNode .APPLY_UF [opc, a, r]) T) = operands := by
  induction operands with
  | nil => simpa using hT
  | cons a rest ih => simp [decodeChain_symbol_link k hk, ih]

/-- In a state that satisfies the invariant, `runConvert` maps an application of
a terminator-bearing operator to two or more operands to a chain from which
`decodeChain` reads the operands back. -/
theorem runConvert_decode (env : Env) (fuel : Nat) (s s1 : LfscTermProcessor) (k : Kind)
    (p : Payload) (operands : List Node) (r : Node) (hw : WF s)
    (hk : k = .OR ∨ k = .AND ∨ k = .PLUS ∨ k = .MULT ∨ k = .STRING_CONCAT ∨ k = .REGEXP_CONCAT)
    (hlen : 2 ≤ operands.length)
    (h : runConvert env fuel s (.mk k p operands) = .ok (r, s1)) :
    decodeChain k r = operands := by
  obtain ⟨f, T, s0, _, hT, hstruct, hsym⟩ := runConvert_nary_inv env fuel s s1 k p operands r hk hlen h
  obtain ⟨hw0, hor, hand, hplus, hmult, hstr, hre⟩ :=
    convert_nullTerminator_shape env f s s0 k T hw hT
  rcases hk with rfl | rfl | rfl | rfl | rfl | rfl
  · rw [(hstruct ⟨by decide, by decide⟩).1, hor rfl]
    exact decodeChain_foldr .OR (by decide) (by decide) (mkConstBool false) rfl _
  · rw [(hstruct ⟨by decide, by decide⟩).1, hand rfl]
    exact decodeChain_foldr .AND (by decide) (by decide) (mkConstBool true) rfl _
  · obtain ⟨ftype, name, hr, _⟩ := hsym (Or.inl rfl)
    obtain ⟨tnv, sym, hTe, _⟩ := hplus rfl
    rw [hr, chainLoop_symbol _ (getSymbolInternal_not_null s0 hw0.symbols _ _ _ _), hTe]
    exact decodeChain_symbol_foldr _ (Or.inl rfl) _ _ (by simp [mkNode, decodeChain]) _
  · obtain ⟨ftype, name, hr, _⟩ := hsym (Or.inr rfl)
    obtain ⟨tnv, sym, hTe, _⟩ := hmult rfl
    rw [hr, chainLoop_symbol _ (getSymbolInternal_not_null s0 hw0.symbols _ _ _ _), hTe]
    exact decodeChain_symbol_foldr _ (Or.inr rfl) _ _ (by simp [mkNode, decodeChain]) _
  · rw [(hstruct ⟨by decide, by decide⟩).1]
    obtain ⟨tn, hTs⟩ := hstr rfl
    obtain ⟨id, hid, _⟩ := hw0.symbols.typed _ _ hTs
    exact decodeChain_foldr _ (by decide) (by decide) _ (by rw [hid]; rfl) _
  · rw [(hstruct ⟨by decide, by decide⟩).1]
    obtain ⟨e, hTe⟩ := hre rfl
    exact decodeChain_foldr _ (by decide) (by decide) _ (by rw [hTe]; simp [mkNode, decodeChain]) _

/-- C3: in every state that satisfies the invariant of the encoder (it holds
after the constructor and `convert` and `runConvert` preserve it), for every
terminator-bearing operator `k` and every list of two or more operands,
`runConvert` returns a chain from which the structural decoder `decodeChain`
recovers exactly the operands in their original order; consequently an
application of `k` to a different operand list has a different encoding; and
in particular `(or A B C (or D E))` and `(or A B C D E)` encode to different
terms. -/
theorem flattening_decodable (env : Env) (fuel : Nat) (s : LfscTermProcessor) (k : Kind)
    (p : Payload) (operands : List Node) (hw : WF s)
    (hk : k = .OR ∨ k = .AND ∨ k = .PLUS ∨ k = .MULT ∨ k = .STRING_CONCAT ∨ k = .REGEXP_CONCAT)
    (hlen : 2 ≤ operands.length) (hfuel : 3 ≤ fuel) :
    ∃ r s1, runConvert env (fuel + 1) s (.mk k p operands) = .ok (r, s1) ∧
      decodeChain k r = operands ∧
      (∀ (env2 : Env) (fuel2 : Nat) (s2 s3 : LfscTermProcessor) (p2 : Payload)
          (operands2 : List Node) (r2 : Node),
        WF s2 → 2 ≤ operands2.length →
        runConvert env2 fuel2 s2 (.mk k p2 operands2) = .ok (r2, s3) →
        operands2 ≠ operands → r2 ≠ r) ∧
      (∀ (A B C D E : Node) (envN envF : Env) (fuelN fuelF : Nat)
          (sN sF tN tF : LfscTermProcessor) (rN rF : Node),
        WF sN → WF sF →
        runConvert envN fuelN sN (mkNode .OR [A, B, C, mkNode .OR [D, E]]) = .ok (rN, tN) →
        runConvert envF fuelF sF (mkNode .OR [A, B, C, D, E]) = .ok (rF, tF) →
        rN ≠ rF) := by
  obtain ⟨r, s1, hr⟩ := runConvert_nary_total env fuel s k p operands hk hlen hfuel
  have hd := runConvert_decode env (fuel + 1) s s1 k p operands r hw hk hlen hr
  refine ⟨r, s1, hr, hd, ?_, ?_⟩
  · intro env2 fuel2 s2 s3 p2 operands2 r2 hw2 hlen2 hr2 hne heq
    have hd2 := runConvert_decode env2 fuel2 s2 s3 k p2 operands2 r2 hw2 hk hlen2 hr2
    rw [heq, hd] at hd2
    exact hne hd2.symm
  · intro A B C D E envN envF fuelN fuelF sN sF tN tF rN rF hwN hwF hN hF heq
    have hdN := runConvert_decode envN fuelN sN tN .OR .none _ rN hwN (Or.inl rfl)
      (by simp) hN
    have hdF := runConvert_decode envF fuelF sF tF .OR .none _ rF hwF (Or.inl rfl)
      (by simp) hF
    rw [heq, hdF] at hdN
    have := congrArg List.length hdN
    simp at this

/-- C3 at a concrete input: `(or x0 x1 x2 x3 x4)` on the fresh encoder. -/
theorem flattening_decodable_witness :
    ∃ r s1, runConvert exampleEnv (3 + 1) freshEncoder
        (.mk .OR .none [boolVar 0, boolVar 1, boolVar 2, boolVar 3, boolVar 4]) = .ok (r, s1) ∧
      decodeChain .OR r = [boolVar 0, boolVar 1, boolVar 2, boolVar 3, boolVar 4] ∧
      (∀ (env2 : Env) (fuel2 : Nat) (s2 s3 : LfscTermProcessor) (p2 : Payload)
          (operands2 : List Node) (r2 : Node),
        WF s2 → 2 ≤ operands2.length →
        runConvert env2 fuel2 s2 (.mk .OR p2 operands2) = .ok (r2, s3) →
        operands2 ≠ [boolVar 0, boolVar 1, boolVar 2, boolVar 3, boolVar 4] → r2 ≠ r) ∧
      (∀ (A B C D E : Node) (envN envF : Env) (fuelN fuelF : Nat)
          (sN sF tN tF : LfscTermProcessor) (rN rF : Node),
        WF sN → WF sF →
        runConvert envN fuelN sN (mkNode .OR [A, B, C, mkNode .OR [D, E]]) = .ok (rN, tN) →
        runConvert envF fuelF sF (mkNode .OR [A, B, C, D, E]) = .ok (rF, tF) →
        rN ≠ rF) :=
  flattening_decodable exampleEnv 3 freshEncoder .OR .none
    [boolVar 0, boolVar 1, boolVar 2, boolVar 3, boolVar 4] (WF_new NodeManager.fresh)
    (Or.inl rfl) (by decide) (by decide)

/-! ## C4: the meaning of the chain -/

theorem eval_mk (s : LfscTermProcessor) (rho : Node → Option Val) (k : Kind) (p : Payload)
    (cs : List Node) : eval s rho (.mk k p cs) = evalNode s rho k p cs (evalList s rho cs) := by
  rw [eval]

theorem evalList_cons (s : LfscTermProcessor) (rho : Node → Option Val) (c : Node)
    (cs : List Node) : evalList s rho (c :: cs) = eval s rho c :: evalList s rho cs := by
  rw [evalList]

theorem evalList_nil (s : LfscTermProcessor) (rho : Node → Option Val) :
    evalList s rho [] = [] := by
  rw [evalList]

/-- Under the invariant the kind for which a cached symbol was minted is the kind
of its key. -/
theorem symbolKind_of_cached (s : LfscTermProcessor) (hs : SymbolsOK s) (key : SymbolKey)
    (sym : Node) (h : mapFind s.d_symbolsMap key = some sym) :
    symbolKind s sym = some key.1 := by
  unfold symbolKind
  have hmem := mem_of_mapFind _ _ _ h
  cases hf : s.d_symbolsMap.find? (fun e => decide (e.2 = sym)) with
  | none =>
    have := List.find?_eq_none.1 hf (key, sym) hmem
    simp at this
  | some e =>
    have he2 : e.2 = sym := by simpa using List.find?_some hf
    have hemem := List.mem_of_find?_eq_some hf
    have hfind : mapFind s.d_symbolsMap e.1 = some sym := by
      rw [← he2]
      exact mapFind_of_mem_nodup _ _ _ hs.nodup hemem
    have := hs.inj _ _ _ hfind h
    simp [this]

theorem eval_or_chain (s : LfscTermProcessor) (rho : Node → Option Val) (p : Payload)
    (operands : List Node) :
    eval s rho (operands.foldr (fun a r => mkNode .OR [a, r]) (mkConstBool false)) =
      eval s rho (.mk .OR p operands) := by
  rw [eval_mk _ _ .OR]
  simp only [evalNode]
  induction operands with
  | nil => simp [mkConstBool, eval_mk, evalNode, evalList_nil, asBools]
  | cons a rest ih =>
    simp only [List.foldr_cons, mkNode, eval_mk _ _ .OR, evalNode, evalList_cons, evalList_nil]
    rw [show Node.mk Kind.OR Payload.none = mkNode .OR from rfl, ih]
    generalize eval s rho a = va
    rcases va with _ | ⟨b | i⟩
    · simp [asBools]
    · simp only [asBools]
      generalize asBools (evalList s rho rest) = ob
      rcases ob with _ | bs <;> simp [asBools]
    · simp [asBools]

theorem eval_and_chain (s : LfscTermProcessor) (rho : Node → Option Val) (p : Payload)
    (operands : List Node) :
    eval s rho (operands.foldr (fun a r => mkNode .AND [a, r]) (mkConstBool true)) =
      eval s rho (.mk .AND p operands) := by
  rw [eval_mk _ _ .AND]
  simp only [evalNode]
  induction operands with
  | nil => simp [mkConstBool, eval_mk, evalNode, evalList_nil, asBools]
  | cons a rest ih =>
    simp only [List.foldr_cons, mkNode, eval_mk _ _ .AND, evalNode, evalList_cons, evalList_nil]
    rw [show Node.mk Kind.AND Payload.none = mkNode .AND from rfl, ih]
    generalize eval s rho a = va
    rcases va with _ | ⟨b | i⟩
    · simp [asBools]
    · simp only [asBools]
      generalize asBools (evalList s rho rest) = ob
      rcases ob with _ | bs <;> simp [asBools]
    · simp [asBools]

theorem eval_int_terminator (s : LfscTermProcessor) (rho : Node → Option Val) (sym : Node)
    (hsym : symbolKind s sym = some .CONST_RATIONAL) (i : Int) :
    eval s rho (mkNode .APPLY_UF [sym, mkConstRational i]) = some (.int i) := by
  simp [mkNode, mkConstRational, eval_mk, evalNode, evalList_cons, evalList_nil, hsym, asInts]

theorem eval_plus_chain (s : LfscTermProcessor) (rho : Node → Option Val) (p : Payload)
    (opc sym : Node) (hopc : symbolKind s opc = some .PLUS)
    (hsym : symbolKind s sym = some .CONST_RATIONAL) (operands : List Node) :
    eval s rho (operands.foldr (fun a r => mkNode .APPLY_UF [opc, a, r])
        (mkNode .APPLY_UF [sym, mkConstRational 0])) =
      eval s rho (.mk .PLUS p operands) := by
  rw [eval_mk _ _ .PLUS]
  simp only [evalNode]
  induction operands with
  | nil => simp [eval_int_terminator s rho sym hsym, evalList_nil, asInts]
  | cons a rest ih =>
    simp only [List.foldr_cons]
    rw [mkNode, eval_mk]
    simp only [evalNode, evalList_cons, evalList_nil, List.headD_cons, hopc, List.tail_cons]
    rw [ih]
    generalize eval s rho a = va
    rcases va with _ | ⟨b | i⟩
    · simp [asInts]
    · simp [asInts]
    · simp only [asInts]
      generalize asInts (evalList s rho rest) = oi
      rcases oi with _ | is <;> simp [asInts]

theorem eval_mult_chain (s : LfscTermProcessor) (rho : Node → Option Val) (p : Payload)
    (opc sym : Node) (hopc : symbolKind s opc = some .MULT)
    (hsym : symbolKind s sym = some .CONST_RATIONAL) (operands : List Node) :
    eval s rho (operands.foldr (fun a r => mkNode .APPLY_UF [opc, a, r])
        (mkNode .APPLY_UF [sym, mkConstRational 1])) =
      eval s rho (.mk .MULT p operands) := by
  rw [eval_mk _ _ .MULT]
  simp only [evalNode]
  induction operands with
  | nil => simp [eval_int_terminator s rho sym hsym, evalList_nil, asInts]
  | cons a rest ih =>
    simp only [List.foldr_cons]
    rw [mkNode, eval_mk]
    simp only [evalNode, evalList_cons, evalList_nil, List.headD_cons, hopc, List.tail_cons]
    rw [ih]
    generalize eval s rho a = va
    rcases va with _ | ⟨b | i⟩
    · simp [asInts]
    · simp [asInts]
    · simp only [asInts]
      generalize asInts (evalList s rho rest) = oi
      rcases oi with _ | is <;> simp [asInts]

/-- C4: in every state that satisfies the invariant of the encoder, for `OR` and
`AND` over Booleans and `PLUS` and `MULT` over integers and two or more
operands, `runConvert` returns a chain whose value, under the standard
interpretation and every assignment, is the value of the original n-ary
application; and the terminator `getNullTerminator` gives is the identity
element of the operator: applying the operator to an operand and the
terminator yields the value of the operand. -/
theorem flattening_preserves_meaning (env : Env) (fuel : Nat) (s : LfscTermProcessor)
    (k : Kind) (p : Payload) (operands : List Node) (hw : WF s)
    (hk : k = .OR ∨ k = .AND ∨ k = .PLUS ∨ k = .MULT)
    (hlen : 2 ≤ operands.length) (hfuel : 3 ≤ fuel) :
    ∃ r s1, runConvert env (fuel + 1) s (.mk k p operands) = .ok (r, s1) ∧
      (∀ rho, eval s1 rho r = eval s1 rho (.mk k p operands)) ∧
      (∀ rho a v, eval s1 rho a = some v →
        ((k = .OR ∨ k = .AND) → ∃ b, v = .bool b) →
        ((k = .PLUS ∨ k = .MULT) → ∃ i, v = .int i) →
        eval s1 rho (mkNode k [a, getNullTerminator k]) = some v) := by
  have hk6 : k = .OR ∨ k = .AND ∨ k = .PLUS ∨ k = .MULT ∨ k = .STRING_CONCAT ∨
      k = .REGEXP_CONCAT := by
    rcases hk with h | h | h | h <;> simp [h]
  obtain ⟨r, s1, hr⟩ := runConvert_nary_total env fuel s k p operands hk6 hlen hfuel
  obtain ⟨f, T, s0, _, hT, hstruct, hsym⟩ :=
    runConvert_nary_inv env (fuel + 1) s s1 k p operands r hk6 hlen hr
  obtain ⟨hw0, hor, hand, hplus, hmult, _, _⟩ :=
    convert_nullTerminator_shape env f s s0 k T hw hT
  refine ⟨r, s1, hr, ?_, ?_⟩
  · intro rho
    rcases hk with rfl | rfl | rfl | rfl
    · rw [(hstruct ⟨by decide, by decide⟩).1, hor rfl]
      exact eval_or_chain s1 rho p operands
    · rw [(hstruct ⟨by decide, by decide⟩).1, hand rfl]
      exact eval_and_chain s1 rho p operands
    · obtain ⟨ftype, name, hre, hs1⟩ := hsym (Or.inl rfl)
      obtain ⟨tnv, sym, hTe, hsymc⟩ := hplus rfl
      have hok1 : SymbolsOK s1 := by
        rw [hs1]; exact SymbolsOK_getSymbolInternal s0 hw0.symbols _ _ _ _
      have hopc : symbolKind s1 (s0.getSymbolInternal .PLUS ftype name 0).1 = some .PLUS :=
        symbolKind_of_cached s1 hok1 (.PLUS, ftype, 0) _
          (by rw [hs1]; exact getSymbolInternal_cached s0 _ _ _ _)
      have hsk : symbolKind s1 sym = some .CONST_RATIONAL :=
        symbolKind_of_cached s1 hok1 (.CONST_RATIONAL, tnv, 0) _
          (by rw [hs1]; exact getSymbolInternal_extends s0 _ _ _ _ _ _ hsymc)
      rw [hre, chainLoop_symbol _ (getSymbolInternal_not_null s0 hw0.symbols _ _ _ _), hTe]
      exact eval_plus_chain s1 rho p _ sym hopc hsk operands
    · obtain ⟨ftype, name, hre, hs1⟩ := hsym (Or.inr rfl)
      obtain ⟨tnv, sym, hTe, hsymc⟩ := hmult rfl
      have hok1 : SymbolsOK s1 := by
        rw [hs1]; exact SymbolsOK_getSymbolInternal s0 hw0.symbols _ _ _ _
      have hopc : symbolKind s1 (s0.getSymbolInternal .MULT ftype name 0).1 = some .MULT :=
        symbolKind_of_cached s1 hok1 (.MULT, ftype, 0) _
          (by rw [hs1]; exact getSymbolInternal_cached s0 _ _ _ _)
      have hsk : symbolKind s1 sym = some .CONST_RATIONAL :=
        symbolKind_of_cached s1 hok1 (.CONST_RATIONAL, tnv, 0) _
          (by rw [hs1]; exact getSymbolInternal_extends s0 _ _ _ _ _ _ hsymc)
      rw [hre, chainLoop_symbol _ (getSymbolInternal_not_null s0 hw0.symbols _ _ _ _), hTe]
      exact eval_mult_chain s1 rho p _ sym hopc hsk operands
  · intro rho a v hv hb hi
    rcases hk with rfl | rfl | rfl | rfl
    · obtain ⟨b, rfl⟩ := hb (Or.inl rfl)
      simp [mkNode, getNullTerminator, mkConstBool, eval_mk _ _ .OR, evalNode, evalList_cons,
        evalList_nil, hv, asBools, eval_mk _ _ .CONST_BOOLEAN]
    · obtain ⟨b, rfl⟩ := hb (Or.inr rfl)
      simp [mkNode, getNullTerminator, mkConstBool, eval_mk _ _ .AND, evalNode, evalList_cons,
        evalList_nil, hv, asBools, eval_mk _ _ .CONST_BOOLEAN]
    · obtain ⟨i, rfl⟩ := hi (Or.inl rfl)
      simp [mkNode, getNullTerminator, mkConstRational, eval_mk _ _ .PLUS, evalNode,
        evalList_cons, evalList_nil, hv, asInts, eval_mk _ _ .CONST_RATIONAL]
    · obtain ⟨i, rfl⟩ := hi (Or.inr rfl)
      simp [mkNode, getNullTerminator, mkConstRational, eval_mk _ _ .MULT, evalNode,
        evalList_cons, evalList_nil, hv, asInts, eval_mk _ _ .CONST_RATIONAL]

/-- C4 at a concrete input: `(+ x0 x1 x2)` on the fresh encoder. -/
theorem flattening_preserves_meaning_witness :
    ∃ r s1, runConvert exampleEnv (3 + 1) freshEncoder
        (.mk .PLUS .none [intVar 0, intVar 1, intVar 2]) = .ok (r, s1) ∧
      (∀ rho, eval s1 rho r = eval s1 rho (.mk .PLUS .none [intVar 0, intVar 1, intVar 2])) ∧
      (∀ rho a v, eval s1 rho a = some v →
        ((Kind.PLUS = .OR ∨ Kind.PLUS = .AND) → ∃ b, v = .bool b) →
        ((Kind.PLUS = .PLUS ∨ Kind.PLUS = .MULT) → ∃ i, v = .int i) →
        eval s1 rho (mkNode .PLUS [a, getNullTerminator .PLUS]) = some v) :=
  flattening_preserves_meaning exampleEnv 3 freshEncoder .PLUS .none
    [intVar 0, intVar 1, intVar 2] (WF_new NodeManager.fresh)
    (Or.inr (Or.inr (Or.inl rfl))) (by decide) (by decide)

/-! ## C5: the conclusion of the replacement steps -/

theorem getProof_some_mem (cdp : CDProof) (f : Node) (st : ProofStep)
    (h : cdp.getProof f = some st) : st ∈ cdp ∧ st.conclusion = f := by
  unfold CDProof.getProof at h
  have h1 := List.mem_of_find?_eq_some h
  have h2 := List.find?_some h
  exact ⟨h1, by simpa using h2⟩

/-- When `addStep` succeeds the accumulator holds a step that concludes
`expected`. -/
theorem addStep_success (pc : ProofChecker) (cdp : CDProof) (expected : Node) (id : PfRule)
    (children args : List Node) (opolicy : CDPOverwrite)
    (h : (cdp.addStep pc expected id children args opolicy).1 = true) :
    ∃ st ∈ (cdp.addStep pc expected id children args opolicy).2, st.conclusion = expected := by
  unfold CDProof.addStep at h ⊢
  cases hg : cdp.getProof expected with
  | some prev =>
    obtain ⟨hmem, hconc⟩ := getProof_some_mem cdp expected prev hg
    simp only [hg] at h ⊢
    by_cases hso : CDProof.shouldOverwrite prev opolicy = true
    · simp only [hso, if_true] at h ⊢
      split at h
      · next hacc =>
        simp only [hacc, if_true]
        exact ⟨{ conclusion := expected, rule := id, premises := children, args := args },
          by simp [CDProof.setStep], rfl⟩
      · simp at h
    · simp only [hso]
      exact ⟨prev, hmem, hconc⟩
  | none =>
    simp only [hg] at h ⊢
    split at h
    · next hacc =>
      simp only [hacc, if_true]
      exact ⟨{ conclusion := expected, rule := id, premises := children, args := args },
          by simp [CDProof.setStep], rfl⟩
    · simp at h

/-- C5 (as amended): for the rule tags `ASSUME`, `SCOPE` and `REFL` and every
input, when `update` returns success the output accumulator contains a step
whose conclusion is the original conclusion `res`. -/
theorem update_concludes_res (pc : ProofChecker) (res : Node) (id : PfRule)
    (children args : List Node) (cdp cdp1 : CDProof) (cu cu1 : Bool)
    (hid : id = .ASSUME ∨ id = .SCOPE ∨ id = .REFL)
    (h : update pc res id children args cdp cu = .ok (true, cdp1, cu1)) :
    ∃ st ∈ cdp1, st.conclusion = res := by
  rcases hid with rfl | rfl | rfl <;>
  · simp only [update, addLeanStep, Except.ok.injEq, Prod.mk.injEq] at h
    obtain ⟨h1, h2, _⟩ := h
    rw [← h2]
    exact addStep_success pc cdp res .LEAN_RULE children _ .ASSUME_ONLY h1

/-- C5 (as amended) at a concrete input: a `REFL` step concluding `x0 = x1` added
to the empty accumulator. -/
theorem update_concludes_res_witness :
    update trustingChecker eqAB .REFL [] [] [] false =
        .ok (true, [{ conclusion := eqAB, rule := .LEAN_RULE, premises := [],
                      args := [mkConstRational 2, eqAB] }], false) ∧
      ∃ st ∈ ([{ conclusion := eqAB, rule := .LEAN_RULE, premises := [],
                 args := [mkConstRational 2, eqAB] }] : CDProof), st.conclusion = eqAB :=
  ⟨rfl, update_concludes_res trustingChecker eqAB .REFL [] [] [] _ false false
    (Or.inr (Or.inr rfl)) rfl⟩

/-- C5 (counterexample): the `SYMM` step that concludes `x1 = x0` from the
premise `x0 = x1`, and the `CHAIN_RESOLUTION` step with the single premise
`x0 = x1`, both make `update` return success on the empty accumulator, and
after neither does the accumulator hold a step that concludes `res`: `SYMM`
adds one step, which concludes the pairing `(not (x0 = x1), x1 = x0)`, and
`CHAIN_RESOLUTION` adds none. -/
theorem update_success_without_res :
    (∃ cdp1, update trustingChecker eqBA .SYMM [eqAB] [] [] false = .ok (true, cdp1, false) ∧
      (cdp1.map (fun st => st.conclusion) =
        [mkNodeOp (mkNode .NOT [eqAB]) eqBA]) ∧
      ¬ ∃ st ∈ cdp1, st.conclusion = eqBA) ∧
    (∃ cdp1, update trustingChecker eqAB .CHAIN_RESOLUTION [eqAB] [] [] false =
        .ok (true, cdp1, false) ∧ ¬ ∃ st ∈ cdp1, st.conclusion = eqAB) := by
  refine ⟨⟨_, rfl, rfl, by decide⟩, ⟨_, rfl, by decide⟩⟩

/-! ## C6, C7: the closure-check guard -/

/-- C6: when the guard is active (proof production on, and eager checking on or
the diagnostic tag traced) and a generator is present, `pfgEnsureClosed`
returns normally iff the generator's `getProofFor(proven)` is a non-null proof
that is closed; a null proof is fatal whatever `reqGen` is, and so is a non-null
proof that is open. -/
theorem pfgEnsureClosed_generator_present (opts : Options) (traceOn : String → Bool)
    (proven : Node) (g : ProofGenerator) (c ctx : String) (reqGen : Bool)
    (hProofs : opts.proofNew = true)
    (hActive : opts.proofNewEagerChecking = true ∨ traceOn c = true) :
    ((pfgEnsureClosed opts traceOn proven (some g) c ctx reqGen).outcome = .ok () ↔
        ∃ pn, g.getProofFor proven = .ok (some pn) ∧ pn.isClosed = true) ∧
      (g.getProofFor proven = .ok none →
        (pfgEnsureClosed opts traceOn proven (some g) c ctx reqGen).outcome = .error .fatal) ∧
      (∀ pn, g.getProofFor proven = .ok (some pn) → pn.isClosed = false →
        (pfgEnsureClosed opts traceOn proven (some g) c ctx reqGen).outcome = .error .fatal) := by
  have hgate : (!opts.proofNewEagerChecking && !traceOn c) = false := by
    rcases hActive with h | h <;> simp [h]
  unfold pfgEnsureClosed
  simp only [hProofs, hgate]
  refine ⟨?_, ?_, ?_⟩
  · cases hg : g.getProofFor proven with
    | error e => simp
    | ok r =>
      cases r with
      | none => simp
      | some pn => cases hcl : pn.isClosed <;> simp [hcl]
  · intro hg
    simp [hg]
  · intro pn hg hcl
    simp [hg, hcl]

/-- C6 at a concrete input: eager checking, a generator with a closed proof. -/
theorem pfgEnsureClosed_generator_present_witness :
    ((pfgEnsureClosed eagerOptions traceNothing (mkConstBool true) (some closedGenerator)
          "tag" "ctx" true).outcome = .ok () ↔
        ∃ pn, closedGenerator.getProofFor (mkConstBool true) = .ok (some pn) ∧
          pn.isClosed = true) ∧
      (closedGenerator.getProofFor (mkConstBool true) = .ok none →
        (pfgEnsureClosed eagerOptions traceNothing (mkConstBool true) (some closedGenerator)
          "tag" "ctx" true).outcome = .error .fatal) ∧
      (∀ pn, closedGenerator.getProofFor (mkConstBool true) = .ok (some pn) →
        pn.isClosed = false →
        (pfgEnsureClosed eagerOptions traceNothing (mkConstBool true) (some closedGenerator)
          "tag" "ctx" true).outcome = .error .fatal) :=
  pfgEnsureClosed_generator_present eagerOptions traceNothing (mkConstBool true)
    closedGenerator "tag" "ctx" true rfl (Or.inl rfl)

/-- C7: when the guard is active and the generator is absent (null),
`pfgEnsureClosed` aborts iff `reqGen` is true, and returns normally when
`reqGen` is false; it asks no generator for a proof. -/
theorem pfgEnsureClosed_generator_absent (opts : Options) (traceOn : String → Bool)
    (proven : Node) (c ctx : String) (reqGen : Bool)
    (hProofs : opts.proofNew = true)
    (hActive : opts.proofNewEagerChecking = true ∨ traceOn c = true) :
    ((pfgEnsureClosed opts traceOn proven none c ctx reqGen).outcome = .error .fatal ↔
        reqGen = true) ∧
      (reqGen = false →
        (pfgEnsureClosed opts traceOn proven none c ctx reqGen).outcome = .ok ()) ∧
      (pfgEnsureClosed opts traceOn proven none c ctx reqGen).queried = [] := by
  have hgate : (!opts.proofNewEagerChecking && !traceOn c) = false := by
    rcases hActive with h | h <;> simp [h]
  unfold pfgEnsureClosed
  simp only [hProofs, hgate]
  cases reqGen <;> simp

/-- C7 at a concrete input: eager checking, no generator, generator required. -/
theorem pfgEnsureClosed_generator_absent_witness :
    ((pfgEnsureClosed eagerOptions traceNothing (mkConstBool true) none "tag" "ctx"
          true).outcome = .error .fatal ↔ true = true) ∧
      (true = false →
        (pfgEnsureClosed eagerOptions traceNothing (mkConstBool true) none "tag" "ctx"
          true).outcome = .ok ()) ∧
      (pfgEnsureClosed eagerOptions traceNothing (mkConstBool true) none "tag" "ctx"
          true).queried = [] :=
  pfgEnsureClosed_generator_absent eagerOptions traceNothing (mkConstBool true) "tag" "ctx"
    true rfl (Or.inl rfl)

/-! ## C8: symbol canonicalization -/

/-- C8: in every state of the encoder that satisfies the invariant of the symbol
cache (it holds after the constructor and every request preserves it), a
second `getSymbolInternal` request with the same kind, sort, name and
discriminant returns the identical symbol and leaves the whole state, in
particular the symbol cache `d_symbolsMap` and the internal-symbol set
`d_symbols`, unchanged; and a request with a different sort, made in the state
after the first or in any other state satisfying the invariant, returns a
different symbol. -/
theorem getSymbolInternal_canonical (s : LfscTermProcessor) (hs : SymbolsOK s) (k : Kind)
    (tn : TypeNode) (name : String) (v : Nat) :
    ((s.getSymbolInternal k tn name v).2.getSymbolInternal k tn name v).1 =
        (s.getSymbolInternal k tn name v).1 ∧
      ((s.getSymbolInternal k tn name v).2.getSymbolInternal k tn name v).2 =
        (s.getSymbolInternal k tn name v).2 ∧
      SymbolsOK (s.getSymbolInternal k tn name v).2 ∧
      (∀ (s2 : LfscTermProcessor), SymbolsOK s2 →
        ∀ (k2 : Kind) (tn2 : TypeNode) (name2 : String) (v2 : Nat), tn2 ≠ tn →
          (s2.getSymbolInternal k2 tn2 name2 v2).1 ≠ (s.getSymbolInternal k tn name v).1) := by
  have hc := getSymbolInternal_cached s k tn name v
  refine ⟨?_, ?_, SymbolsOK_getSymbolInternal s hs k tn name v, ?_⟩
  · rw [getSymbolInternal_of_some _ _ _ _ _ _ hc]
  · rw [getSymbolInternal_of_some _ _ _ _ _ _ hc]
  · intro s2 hs2 k2 tn2 name2 v2 hne heq
    obtain ⟨id1, h1⟩ := getSymbolInternal_sort s hs k tn name v
    obtain ⟨id2, h2⟩ := getSymbolInternal_sort s2 hs2 k2 tn2 name2 v2
    rw [h1, h2] at heq
    injection heq with _ hp _
    injection hp with _ ht
    exact hne ht

/-- C8 at a concrete input: the symbol for `(PLUS, Int, "int.+", 0)` on the fresh
encoder. -/
theorem getSymbolInternal_canonical_witness :
    ((freshEncoder.getSymbolInternal .PLUS integerType "int.+" 0).2.getSymbolInternal
          .PLUS integerType "int.+" 0).1 =
        (freshEncoder.getSymbolInternal .PLUS integerType "int.+" 0).1 ∧
      ((freshEncoder.getSymbolInternal .PLUS integerType "int.+" 0).2.getSymbolInternal
          .PLUS integerType "int.+" 0).2 =
        (freshEncoder.getSymbolInternal .PLUS integerType "int.+" 0).2 ∧
      SymbolsOK (freshEncoder.getSymbolInternal .PLUS integerType "int.+" 0).2 ∧
      (∀ (s2 : LfscTermProcessor), SymbolsOK s2 →
        ∀ (k2 : Kind) (tn2 : TypeNode) (name2 : String) (v2 : Nat), tn2 ≠ integerType →
          (s2.getSymbolInternal k2 tn2 name2 v2).1 ≠
            (freshEncoder.getSymbolInternal .PLUS integerType "int.+" 0).1) :=
  getSymbolInternal_canonical freshEncoder (SymbolsOK_new NodeManager.fresh) .PLUS
    integerType "int.+" 0

/-! ## C9: sort reflection -/

/-- C9 (code_bug): two distinct uninterpreted sorts `U` and `V`, both processed
by `runConvertType` on a fresh encoder, have the same reflection, the symbol
named `U`: the symbol cache is keyed by the kind, the sort `d_sortType` and the
discriminant, not by the name, so the request for `V` is answered with the
symbol minted for `U`. -/
theorem typeAsNode_shared_by_distinct_sorts :
    sortU ≠ sortV ∧
    ∃ s1 s2 r, (LfscTermProcessor.new nmWithTwoSorts).runConvertType sortU = .ok (sortU, s1) ∧
      s1.runConvertType sortV = .ok (sortV, s2) ∧
      s2.typeAsNode sortU = .ok r ∧ s2.typeAsNode sortV = .ok r ∧
      s2.nm.getName r = some "U" := by
  refine ⟨by decide, _, _, _, rfl, rfl, rfl, rfl, rfl⟩

/-! ## C10: the variable-index table -/

theorem getOrAssignIndexForVar_total (s : LfscTermProcessor) (v : Node) (hv : v.isVar = true) :
    ∃ i s1, s.getOrAssignIndexForVar v = .ok (i, s1) := by
  unfold getOrAssignIndexForVar
  simp only [hv, if_true]
  cases mapFind s.d_varIndex v with
  | some i => exact ⟨i, s, rfl⟩
  | none => exact ⟨_, _, rfl⟩

/-- A call of `getOrAssignIndexForVar` keeps the index of every variable that is
in the table. -/
theorem getOrAssignIndexForVar_stable (s s1 : LfscTermProcessor) (w : Node) (j : Nat)
    (h : s.getOrAssignIndexForVar w = .ok (j, s1)) (v : Node) (i : Nat)
    (hv : mapFind s.d_varIndex v = some i) : mapFind s1.d_varIndex v = some i := by
  unfold getOrAssignIndexForVar at h
  by_cases hw : w.isVar = true
  · simp only [hw, if_true] at h
    cases hf : mapFind s.d_varIndex w with
    | some i0 =>
      simp only [hf, Except.ok.injEq, Prod.mk.injEq] at h
      rw [← h.2]; exact hv
    | none =>
      simp only [hf, Except.ok.injEq, Prod.mk.injEq] at h
      rw [← h.2]
      have hne : w ≠ v := by
        rintro rfl
        rw [hf] at hv
        cases hv
      simp [mapFind_mapInsert_ne _ _ _ _ hne, hv]
  · simp [hw] at h

theorem getOrAssignIndexForVar_inv (s s1 : LfscTermProcessor) (w : Node) (j : Nat)
    (h : s.getOrAssignIndexForVar w = .ok (j, s1)) (hok : VarIndexOK s.d_varIndex) :
    VarIndexOK s1.d_varIndex ∧
      (∀ v, v ∈ s1.d_varIndex.map Prod.fst ↔ v ∈ s.d_varIndex.map Prod.fst ∨ v = w) := by
  unfold getOrAssignIndexForVar at h
  by_cases hw : w.isVar = true
  · simp only [hw, if_true] at h
    cases hf : mapFind s.d_varIndex w with
    | some i0 =>
      simp only [hf, Except.ok.injEq, Prod.mk.injEq] at h
      rw [← h.2]
      refine ⟨hok, fun v => ⟨Or.inl, ?_⟩⟩
      rintro (hv | rfl)
      · exact hv
      · have := mem_of_mapFind _ _ _ hf
        exact List.mem_map_of_mem Prod.fst this
    | none =>
      simp only [hf, Except.ok.injEq, Prod.mk.injEq] at h
      rw [← h.2]
      have hnot := (mapFind_none_iff _ _).1 hf
      simp only [mapInsert_of_none _ _ _ hf]
      refine ⟨⟨?_, ?_⟩, ?_⟩
      · simp [List.range_succ, hok.1]
      · rw [List.map_append, List.nodup_append]
        refine ⟨hok.2, by simp, ?_⟩
        intro a ha hb
        simp at hb
        subst hb
        exact hnot ha
      · intro v
        simp
  · simp [hw] at h

theorem assignAll_inv (vs : List Node) : ∀ (s : LfscTermProcessor),
    (∀ v ∈ vs, v.isVar = true) → VarIndexOK s.d_varIndex →
    ∃ s1, assignAll s vs = .ok s1 ∧ VarIndexOK s1.d_varIndex ∧
      (∀ v, v ∈ s1.d_varIndex.map Prod.fst ↔ v ∈ s.d_varIndex.map Prod.fst ∨ v ∈ vs) := by
  induction vs with
  | nil =>
    intro s _ hok
    exact ⟨s, rfl, hok, by simp⟩
  | cons w ws ih =>
    intro s hvars hok
    obtain ⟨j, s1, h1⟩ := getOrAssignIndexForVar_total s w (hvars w (by simp))
    obtain ⟨hok1, hkeys1⟩ := getOrAssignIndexForVar_inv s s1 w j h1 hok
    obtain ⟨s2, h2, hok2, hkeys2⟩ := ih s1 (fun v hv => hvars v (by simp [hv])) hok1
    refine ⟨s2, ?_, hok2, ?_⟩
    · simp [assignAll, h1, h2]
    · intro v
      rw [hkeys2, hkeys1]
      simp only [List.mem_cons]
      tauto

theorem VarIndexOK.lt {t : List (Node × Nat)} (hok : VarIndexOK t) (v : Node) (i : Nat)
    (h : mapFind t v = some i) : i < t.length := by
  have hm := mem_of_mapFind _ _ _ h
  have : i ∈ t.map Prod.snd := List.mem_map_of_mem Prod.snd hm
  rw [hok.1] at this
  simpa using this

theorem VarIndexOK.onto {t : List (Node × Nat)} (hok : VarIndexOK t) (i : Nat)
    (h : i < t.length) : ∃ v, mapFind t v = some i := by
  have : i ∈ t.map Prod.snd := by rw [hok.1]; simpa using h
  obtain ⟨⟨v, j⟩, hm, hj⟩ := List.mem_map.1 this
  simp only at hj
  subst hj
  exact ⟨v, mapFind_of_mem_nodup _ _ _ hok.2 hm⟩

theorem VarIndexOK.inj {t : List (Node × Nat)} (hok : VarIndexOK t) (v w : Node) (i : Nat)
    (hv : mapFind t v = some i) (hw : mapFind t w = some i) : v = w := by
  have hmv := mem_of_mapFind _ _ _ hv
  have hmw := mem_of_mapFind _ _ _ hw
  have hnd : (t.map Prod.snd).Nodup := by rw [hok.1]; exact List.nodup_range _
  have := List.inj_on_of_nodup_map hnd hmv hmw rfl
  exact congrArg Prod.fst this

theorem new_varIndex (nm : NodeManager) : (LfscTermProcessor.new nm).d_varIndex = [] := rfl

/-- C10: after any sequence of `getOrAssignIndexForVar` calls on a fresh
encoder (the calls being on variables, as the function asserts), the
variable-index table has an entry exactly for the variables seen, their number
`n` is the number of distinct variables seen, the table maps them one-to-one
onto `{0, ..., n-1}`, and a further call changes the index of no variable that
is in the table. -/
theorem varIndex_bijection (nm : NodeManager) (vs : List Node)
    (hvars : ∀ v ∈ vs, v.isVar = true) :
    ∃ s, assignAll (LfscTermProcessor.new nm) vs = .ok s ∧
      (∀ v, (∃ i, mapFind s.d_varIndex v = some i) ↔ v ∈ vs) ∧
      s.d_varIndex.length = vs.dedup.length ∧
      (∀ v i, mapFind s.d_varIndex v = some i → i < s.d_varIndex.length) ∧
      (∀ i, i < s.d_varIndex.length → ∃ v, mapFind s.d_varIndex v = some i) ∧
      (∀ v w i, mapFind s.d_varIndex v = some i → mapFind s.d_varIndex w = some i → v = w) ∧
      (∀ w j s2, s.getOrAssignIndexForVar w = .ok (j, s2) →
        ∀ v i, mapFind s.d_varIndex v = some i → mapFind s2.d_varIndex v = some i) := by
  have hok0 : VarIndexOK (LfscTermProcessor.new nm).d_varIndex := by
    rw [new_varIndex]; exact ⟨rfl, List.nodup_nil⟩
  obtain ⟨s, hs, hok, hkeys⟩ := assignAll_inv vs (LfscTermProcessor.new nm) hvars hok0
  have hdom : ∀ v, v ∈ s.d_varIndex.map Prod.fst ↔ v ∈ vs := by
    intro v
    rw [hkeys, new_varIndex]
    simp
  refine ⟨s, hs, ?_, ?_, hok.lt, hok.onto, hok.inj, ?_⟩
  · intro v
    rw [← hdom]
    constructor
    · rintro ⟨i, hi⟩
      exact List.mem_map_of_mem Prod.fst (mem_of_mapFind _ _ _ hi)
    · intro hv
      cases hf : mapFind s.d_varIndex v with
      | some i => exact ⟨i, rfl⟩
      | none => exact absurd hv ((mapFind_none_iff _ _).1 hf)
  · have hperm : (s.d_varIndex.map Prod.fst).Perm vs.dedup := by
      rw [List.perm_ext_iff_of_nodup hok.2 (List.nodup_dedup vs)]
      intro a
      rw [hdom, List.mem_dedup]
    rw [← hperm.length_eq, List.length_map]
  · intro w j s2 h v i hv
    exact getOrAssignIndexForVar_stable s s2 w j h v i hv

/-- C10 at a concrete input: the calls for `x0, x1, x0` on the fresh encoder. -/
theorem varIndex_bijection_witness :
    ∃ s, assignAll (LfscTermProcessor.new NodeManager.fresh)
        [boolVar 0, boolVar 1, boolVar 0] = .ok s ∧
      (∀ v, (∃ i, mapFind s.d_varIndex v = some i) ↔ v ∈ [boolVar 0, boolVar 1, boolVar 0]) ∧
      s.d_varIndex.length = [boolVar 0, boolVar 1, boolVar 0].dedup.length ∧
      (∀ v i, mapFind s.d_varIndex v = some i → i < s.d_varIndex.length) ∧
      (∀ i, i < s.d_varIndex.length → ∃ v, mapFind s.d_varIndex v = some i) ∧
      (∀ v w i, mapFind s.d_varIndex v = some i → mapFind s.d_varIndex w = some i → v = w) ∧
      (∀ w j s2, s.getOrAssignIndexForVar w = .ok (j, s2) →
        ∀ v i, mapFind s.d_varIndex v = some i → mapFind s2.d_varIndex v = some i) :=
  varIndex_bijection NodeManager.fresh [boolVar 0, boolVar 1, boolVar 0] (by decide)

/-! ## C13: the `SYMM` step -/

/-- C15: for every rule tag other than `ASSUME`, `SCOPE`, `CHAIN_RESOLUTION`,
`REFL` and `SYMM`, `update` returns failure and leaves the accumulator (and the
continue flag) as they were; and `shouldUpdate` answers "no rewrite needed"
exactly for the steps tagged `LEAN_RULE` and leaves the continue flag as it
was. -/
theorem update_passes_through (pc : ProofChecker) (res : Node) (id : PfRule)
    (children args : List Node) (cdp : CDProof) (cu : Bool) (pn : ProofNode)
    (h1 : id ≠ .ASSUME) (h2 : id ≠ .SCOPE) (h3 : id ≠ .CHAIN_RESOLUTION) (h4 : id ≠ .REFL)
    (h5 : id ≠ .SYMM) :
    update pc res id children args cdp cu = .ok (false, cdp, cu) ∧
      ((shouldUpdate pn cu).1 = false ↔ pn.getRule = .LEAN_RULE) ∧
      (shouldUpdate pn cu).2 = cu := by
  refine ⟨?_, ?_, rfl⟩
  · cases id <;> first | rfl | (exfalso; first | exact h1 rfl | exact h2 rfl | exact h3 rfl | exact h4 rfl | exact h5 rfl)
  · simp [shouldUpdate]

/-- C15 at a concrete input: a `TRANS` step on the empty accumulator, and the
closed proof of `true`. -/
theorem update_passes_through_witness :
    update trustingChecker eqAB .TRANS [eqAB] [] [] true = .ok (false, [], true) ∧
      ((shouldUpdate closedProof true).1 = false ↔ closedProof.getRule = .LEAN_RULE) ∧
      (shouldUpdate closedProof true).2 = true :=
  update_passes_through trustingChecker eqAB .TRANS [eqAB] [] [] true closedProof
    (by decide) (by decide) (by decide) (by decide) (by decide)

/-! ## C14: chain resolution -/

/-- C17: `mkBoundVar(attr, n, tn)` fails if and only if the pairing `(attr, n)`
is cached and the sort of the cached variable is not `tn`; the failure is the
one of the `Assert` on the sort, no variable is returned then, and the manager,
its cache included, is as before the call. -/
theorem mkBoundVar_fails_iff (env : Env) (s : BoundVarManager) (attr : AttrId) (n : Node)
    (tn : TypeNode) :
    ((∃ e, (s.mkBoundVar env attr n tn).2 = .error e) ↔
        ∃ cached, mapFind s.attrs (attr, n) = some cached ∧ cached.getType env ≠ tn) ∧
      ∀ e, (s.mkBoundVar env attr n tn).2 = .error e →
        e = .assertion ∧ (s.mkBoundVar env attr n tn).1 = s := by
  unfold BoundVarManager.mkBoundVar
  cases hc : mapFind s.attrs (attr, n) with
  | some cached =>
    by_cases ht : cached.getType env = tn
    · simp [ht]
    · simp [ht]
  | none =>
    simp only
    split <;> simp

/-- C17 at a concrete input: a manager that has cached a variable of sort `Bool`
for the key `x0 = x1` is asked for one of sort `Int` for the same pairing. -/
theorem mkBoundVar_fails_iff_witness :
    ((∃ e, ((freshBoundVarManager.mkBoundVar exampleEnv 0 eqAB booleanType).1.mkBoundVar
          exampleEnv 0 eqAB integerType).2 = .error e) ↔
        ∃ cached, mapFind (freshBoundVarManager.mkBoundVar exampleEnv 0 eqAB booleanType).1.attrs
            (0, eqAB) = some cached ∧ cached.getType exampleEnv ≠ integerType) ∧
      ∀ e, ((freshBoundVarManager.mkBoundVar exampleEnv 0 eqAB booleanType).1.mkBoundVar
          exampleEnv 0 eqAB integerType).2 = .error e →
        e = .assertion ∧
          ((freshBoundVarManager.mkBoundVar exampleEnv 0 eqAB booleanType).1.mkBoundVar
            exampleEnv 0 eqAB integerType).1 =
            (freshBoundVarManager.mkBoundVar exampleEnv 0 eqAB booleanType).1 :=
  mkBoundVar_fails_iff exampleEnv
    (freshBoundVarManager.mkBoundVar exampleEnv 0 eqAB booleanType).1 0 eqAB integerType

/-! ## The bound variable manager: retention (C18) -/

/-- C18 (defect of the code): a call that returns a variable while retention is
on and leaves its key outside the retained set, where the documentation of
`mkBoundVar` has the key added to `d_cacheVals` whenever the manager keeps cache
values.  The pairing is cached while retention is off, retention is switched on,
and the pairing is asked for again; the call returns the cached variable and the
retained set stays empty. -/
theorem mkBoundVar_cached_not_retained :
    (((freshBoundVarManager.mkBoundVar exampleEnv 0 eqAB booleanType).1.enableKeepCacheValues
        true).d_keepCacheVals = true) ∧
      (((freshBoundVarManager.mkBoundVar exampleEnv 0 eqAB booleanType).1.enableKeepCacheValues
        true).mkBoundVar exampleEnv 0 eqAB booleanType).2 =
          .ok (.mk .BOUND_VARIABLE (.var 0 booleanType) []) ∧
      eqAB ∉ (((freshBoundVarManager.mkBoundVar exampleEnv 0 eqAB
        booleanType).1.enableKeepCacheValues true).mkBoundVar exampleEnv 0 eqAB
          booleanType).1.d_cacheVals := by
  refine ⟨rfl, rfl, ?_⟩
  decide

/-- Where `mkBoundVar(attr, n, tn)` inserts into the retained set, in the code:
a call never removes a key from the retained set; while retention is on, a call
for a pairing that is not cached yet (the call that allocates the variable and
caches it) leaves `n` in the retained set; a call for a pairing that is cached
returns before the insertion and leaves the retained set as it is, whether
retention is on or off; and while retention is off, no call changes the retained
set. -/
theorem mkBoundVar_retention (env : Env) (s : BoundVarManager) (attr : AttrId) (n : Node)
    (tn : TypeNode) :
    (∀ m, m ∈ s.d_cacheVals → m ∈ (s.mkBoundVar env attr n tn).1.d_cacheVals) ∧
      (s.d_keepCacheVals = true → mapFind s.attrs (attr, n) = none →
        n ∈ (s.mkBoundVar env attr n tn).1.d_cacheVals) ∧
      ((∃ cached, mapFind s.attrs (attr, n) = some cached) →
        (s.mkBoundVar env attr n tn).1.d_cacheVals = s.d_cacheVals) ∧
      (s.d_keepCacheVals = false →
        (s.mkBoundVar env attr n tn).1.d_cacheVals = s.d_cacheVals) := by
  unfold BoundVarManager.mkBoundVar
  cases hc : mapFind s.attrs (attr, n) with
  | some cached =>
    by_cases ht : cached.getType env = tn <;> simp [ht]
  | none =>
    cases hk : s.d_keepCacheVals
    · simp [hk]
    · simp only [hk, if_true]
      refine ⟨?_, ?_, ?_, ?_⟩
      · intro m hm
        unfold setInsert
        split
        · exact hm
        · exact List.mem_cons_of_mem _ hm
      · intro _ _
        unfold setInsert
        split
        · assumption
        · exact List.mem_cons_self _ _
      · rintro ⟨c, hc2⟩; cases hc2
      · intro h; cases h

/-- The retained set at a concrete input: a manager with retention on is asked
for a variable for the key `x0 = x1`, which is not cached. -/
theorem mkBoundVar_retention_witness :
    (∀ m, m ∈ (freshBoundVarManager.enableKeepCacheValues true).d_cacheVals →
        m ∈ ((freshBoundVarManager.enableKeepCacheValues true).mkBoundVar exampleEnv 0 eqAB
          booleanType).1.d_cacheVals) ∧
      ((freshBoundVarManager.enableKeepCacheValues true).d_keepCacheVals = true →
        mapFind (freshBoundVarManager.enableKeepCacheValues true).attrs (0, eqAB) = none →
        eqAB ∈ ((freshBoundVarManager.enableKeepCacheValues true).mkBoundVar exampleEnv 0 eqAB
          booleanType).1.d_cacheVals) ∧
      ((∃ cached, mapFind (freshBoundVarManager.enableKeepCacheValues true).attrs (0, eqAB) =
          some cached) →
        ((freshBoundVarManager.enableKeepCacheValues true).mkBoundVar exampleEnv 0 eqAB
          booleanType).1.d_cacheVals =
          (freshBoundVarManager.enableKeepCacheValues true).d_cacheVals) ∧
      ((freshBoundVarManager.enableKeepCacheValues true).d_keepCacheVals = false →
        ((freshBoundVarManager.enableKeepCacheValues true).mkBoundVar exampleEnv 0 eqAB
          booleanType).1.d_cacheVals =
          (freshBoundVarManager.enableKeepCacheValues true).d_cacheVals) :=
  mkBoundVar_retention exampleEnv (freshBoundVarManager.enableKeepCacheValues true) 0 eqAB
    booleanType

/-! ## The bound variable manager: the overload with a name (C19) -/

/-- C19: on a fresh manager, the overload with a name, asked for a variable of
sort `Bool` named "x" for the key `x0 = x1`, returns the variable that the
overload without a name returns, and that variable has no name afterwards: the
name "x" is the name attribute of the key `x0 = x1`. -/
theorem mkBoundVarNamed_names_key :
    (freshBoundVarManager.mkBoundVarNamed exampleEnv 0 eqAB "x" booleanType).2 =
        (freshBoundVarManager.mkBoundVar exampleEnv 0 eqAB booleanType).2 ∧
      (freshBoundVarManager.mkBoundVarNamed exampleEnv 0 eqAB "x" booleanType).2 =
        .ok (.mk .BOUND_VARIABLE (.var 0 booleanType) []) ∧
      (freshBoundVarManager.mkBoundVarNamed exampleEnv 0 eqAB "x" booleanType).1.nm.getName
        (.mk .BOUND_VARIABLE (.var 0 booleanType) []) = none ∧
      (freshBoundVarManager.mkBoundVarNamed exampleEnv 0 eqAB "x" booleanType).1.nm.getName
        eqAB = some "x" := by
  refine ⟨rfl, rfl, ?_, ?_⟩
  · decide
  · decide

/-! ## C20: adding the proof of a generator to an accumulator -/

/-- C20: `addProofTo(f, pf, opolicy)` on an accumulator returns success if and
only if `getProofFor(f)` yields a proof and the accumulator's `addProof` accepts
that proof, called with the caller's policy and without deep copy; whenever
`getProofFor(f)` yields a proof the accumulator afterwards is the one that call
of `addProof` leaves; and when `getProofFor(f)` yields no proof, the accumulator
is as before, the `Assert` fails, and the call does not return success. -/
theorem addProofTo_success_iff
    (addProof : CDProof → ProofNode → CDPOverwrite → Bool → Bool × CDProof)
    (g : ProofGenerator) (f : Node) (cdp : CDProof) (opolicy : CDPOverwrite) :
    ((g.addProofTo addProof f (some cdp) opolicy).2 = .ok true ↔
        ∃ apf, g.getProofFor f = .ok (some apf) ∧ (addProof cdp apf opolicy false).1 = true) ∧
      (∀ apf, g.getProofFor f = .ok (some apf) →
        g.addProofTo addProof f (some cdp) opolicy =
          (some (addProof cdp apf opolicy false).2,
           .ok (addProof cdp apf opolicy false).1)) ∧
      (g.getProofFor f = .ok none →
        g.addProofTo addProof f (some cdp) opolicy = (some cdp, .error .assertion) ∧
        (g.addProofTo addProof f (some cdp) opolicy).2 ≠ .ok true) := by
  unfold ProofGenerator.addProofTo
  cases hg : g.getProofFor f with
  | error e => simp
  | ok o =>
    cases o with
    | none => simp
    | some apf =>
      cases hr : (addProof cdp apf opolicy false).1 <;> simp [hr]

/-- C20 at concrete inputs: the generator of the closed proof of `true` and the
generator without proofs, each on the empty accumulator under the policy
`NEVER`. -/
theorem addProofTo_success_iff_witness :
    closedGenerator.addProofTo CDProof.addProof (mkConstBool true) (some []) .NEVER =
        (some [closedProof.rootStep], .ok true) ∧
      emptyGenerator.addProofTo CDProof.addProof (mkConstBool true) (some []) .NEVER =
        (some [], .error .assertion) :=
  ⟨((addProofTo_success_iff CDProof.addProof closedGenerator (mkConstBool true) []
      .NEVER).2.1 closedProof rfl).trans rfl,
   ((addProofTo_success_iff CDProof.addProof emptyGenerator (mkConstBool true) []
      .NEVER).2.2 rfl).1⟩

/-! ## Relations that hold across every step of the encoder -/

theorem mkNode_applyUf_isNull (cs : List Node) : (mkNode .APPLY_UF cs).isNull = false := by
  simp [Node.isNull, mkNode, Node.null]

theorem runConvertTypeArgs_not_null (s : LfscTermProcessor) (arrown : Node) :
    ∀ (its : List TypeNode) (cur r : TypeNode) (tnn res : Node),
      tnn.isNull = false →
      s.runConvertTypeArgs arrown its cur tnn = .ok (r, res) → res.isNull = false := by
  intro its
  induction its with
  | nil =>
    intro cur r tnn res hn h
    simp only [runConvertTypeArgs, Except.ok.injEq, Prod.mk.injEq] at h
    rw [← h.2]; exact hn
  | cons it rest ih =>
    intro cur r tnn res _ h
    rw [runConvertTypeArgs] at h
    split at h
    · cases h
    · exact ih _ _ _ _ (mkNode_applyUf_isNull _) h

/-- What `runConvertType` leaves: a state in the relation, in which the sort it
returns has a reflection that is not null. -/
theorem runConvertType_rel {R : LfscTermProcessor → LfscTermProcessor → Prop} (hR : StepRel R)
    (s s1 : LfscTermProcessor) (tn r : TypeNode)
    (h : s.runConvertType tn = .ok (r, s1)) :
    R s s1 ∧ ∃ n, mapFind s1.d_typeAsNode r = some n := by
  unfold runConvertType at h
  simp only at h
  split at h
  · split at h
    · cases h
    · split at h
      · cases h
      · split at h
        · cases h
        · split at h
          · cases h
          · split at h
            · cases h
            · next hnn =>
              simp only [Except.ok.injEq, Prod.mk.injEq] at h
              obtain ⟨h1, h2⟩ := h
              subst h1
              rw [← h2]
              exact ⟨hR.reflect s _ _ (by simpa using hnn), _, mapFind_mapInsert_self _ _ _⟩
  · split at h
    · split at h
      · cases h
      · next hnn =>
        simp only [Except.ok.injEq, Prod.mk.injEq] at h
        obtain ⟨h1, h2⟩ := h
        subst h1
        rw [← h2]
        refine ⟨hR.rel_trans _ _ _ (hR.symbol s tn.getKind s.d_sortType tn.toString 0)
          (hR.reflect _ tn _ (by simpa using hnn)), _, mapFind_mapInsert_self _ _ _⟩
    · cases h

mutual
theorem convertType_rel {R : LfscTermProcessor → LfscTermProcessor → Prop} (hR : StepRel R) :
    ∀ (t : TypeNode) (s s1 : LfscTermProcessor) (r : TypeNode),
    convertType s t = .ok (r, s1) → R s s1
  | .mk k p cs, s, s1, r, h => by
    rw [convertType] at h
    split at h
    · simp only [Except.ok.injEq, Prod.mk.injEq] at h
      rw [← h.2]; exact hR.rel_refl s
    · split at h
      · cases h
      · next cs1 s2 hl =>
        split at h
        · cases h
        · next r2 s3 hr =>
          simp only [Except.ok.injEq, Prod.mk.injEq] at h
          rw [← h.2]
          have h1 := convertTypeList_rel hR cs s s2 cs1 hl
          obtain ⟨h2, hn⟩ := runConvertType_rel hR s2 s3 _ r2 hr
          exact hR.rel_trans _ _ _ (hR.rel_trans _ _ _ h1 h2) (hR.tmemo s3 _ r2 hn)
theorem convertTypeList_rel {R : LfscTermProcessor → LfscTermProcessor → Prop}
    (hR : StepRel R) :
    ∀ (ts : List TypeNode) (s s1 : LfscTermProcessor)
    (rs : List TypeNode), convertTypeList s ts = .ok (rs, s1) → R s s1
  | [], s, s1, rs, h => by
    rw [convertTypeList] at h
    simp only [Except.ok.injEq, Prod.mk.injEq] at h
    rw [← h.2]; exact hR.rel_refl s
  | t :: ts, s, s1, rs, h => by
    rw [convertTypeList] at h
    split at h
    · cases h
    · next t1 s2 ht =>
      split at h
      · cases h
      · next ts1 s3 hts =>
        simp only [Except.ok.injEq, Prod.mk.injEq] at h
        rw [← h.2]
        exact hR.rel_trans _ _ _ (convertType_rel hR t s s2 t1 ht)
          (convertTypeList_rel hR ts s2 s3 ts1 hts)
end

theorem closureLoop_rel {R : LfscTermProcessor → LfscTermProcessor → Prop} (hR : StepRel R)
    (env : Env) (forallOp : Node) (vs : List Node) :
    ∀ (s s1 : LfscTermProcessor) (ret r : Node),
      closureLoop env forallOp s vs ret = .ok (r, s1) → R s s1 := by
  induction vs with
  | nil =>
    intro s s1 ret r h
    simp only [closureLoop, Except.ok.injEq, Prod.mk.injEq] at h
    rw [← h.2]; exact hR.rel_refl s
  | cons v vs ih =>
    intro s s1 ret r h
    rw [closureLoop] at h
    split at h
    · cases h
    · next idx s2 hv =>
      simp only at h
      split at h
      · cases h
      · next ct s3 hct =>
        split at h
        · cases h
        · next tc htc =>
          exact hR.rel_trans _ _ _ (hR.rel_trans _ _ _ (hR.index s v idx s2 hv)
            (convertType_rel hR _ s2 s3 ct hct)) (ih s3 s1 _ r h)

theorem convertList_rel {R : LfscTermProcessor → LfscTermProcessor → Prop} (hR : StepRel R)
    (cv : LfscTermProcessor → Node → Except Err (Node × LfscTermProcessor))
    (hcv : ∀ s n r s1, cv s n = .ok (r, s1) → R s s1) (ns : List Node) :
    ∀ (s s1 : LfscTermProcessor) (rs : List Node),
      convertList cv s ns = .ok (rs, s1) → R s s1 := by
  induction ns with
  | nil =>
    intro s s1 rs h
    simp only [convertList, Except.ok.injEq, Prod.mk.injEq] at h
    rw [← h.2]; exact hR.rel_refl s
  | cons n ns ih =>
    intro s s1 rs h
    rw [convertList] at h
    split at h
    · cases h
    · next n1 s2 hn =>
      split at h
      · cases h
      · next ns1 s3 hns =>
        simp only [Except.ok.injEq, Prod.mk.injEq] at h
        rw [← h.2]
        exact hR.rel_trans _ _ _ (hcv s n n1 s2 hn) (ih s2 s3 ns1 hns)

theorem stringLoop_rel {R : LfscTermProcessor → LfscTermProcessor → Prop} (hR : StepRel R)
    (rc : LfscTermProcessor → Node → Except Err (Node × LfscTermProcessor))
    (hrc : ∀ s n r s1, rc s n = .ok (r, s1) → R s s1) (cs : List Nat) :
    ∀ (s s1 : LfscTermProcessor) (ret r : Node),
      stringLoop rc s cs ret = .ok (r, s1) → R s s1 := by
  induction cs with
  | nil =>
    intro s s1 ret r h
    simp only [stringLoop, Except.ok.injEq, Prod.mk.injEq] at h
    rw [← h.2]; exact hR.rel_refl s
  | cons c cs ih =>
    intro s s1 ret r h
    rw [stringLoop] at h
    split at h
    · cases h
    · next e1 s2 he =>
      exact hR.rel_trans _ _ _ (hrc s _ e1 s2 he) (ih s2 s1 _ r h)

/-- One round of the induction: `runConvert` with one more unit of budget stays
in the relation, if `convert` and `runConvert` do with the budget. -/
theorem runConvert_rel_step {R : LfscTermProcessor → LfscTermProcessor → Prop}
    (hR : StepRel R) (env : Env) (fuel : Nat)
    (ihc : ∀ s n r s1, convert env fuel s n = .ok (r, s1) → R s s1)
    (ihr : ∀ s n r s1, runConvert env fuel s n = .ok (r, s1) → R s s1)
    (s : LfscTermProcessor) (n r : Node) (s1 : LfscTermProcessor)
    (h : runConvert env (fuel + 1) s n = .ok (r, s1)) : R s s1 := by
  rw [runConvert] at h
  conv at h => lhs; zeta
  by_cases h1 : n.getKind = .BOUND_VARIABLE
  · rw [if_pos h1] at h
    split at h
    · simp only [Except.ok.injEq, Prod.mk.injEq] at h
      rw [← h.2]; exact hR.rel_refl s
    · split at h
      · cases h
      · next idx s2 hv =>
        split at h
        · cases h
        · next ct s3 hct =>
          split at h
          · cases h
          · next tc htc =>
            simp only [Except.ok.injEq, Prod.mk.injEq] at h
            rw [← h.2]
            exact hR.rel_trans _ _ _ (hR.rel_trans _ _ _ (hR.index s n idx s2 hv)
              (convertType_rel hR _ s2 s3 ct hct)) (hR.symbol s3 _ _ _ _)
  rw [if_neg h1] at h
  by_cases h2 : n.getKind = .SKOLEM
  · rw [if_pos h2] at h
    split at h
    · cases h
    · next wi s2 hw =>
      simp only [Except.ok.injEq, Prod.mk.injEq] at h
      rw [← h.2]
      exact hR.rel_trans _ _ _ (ihc s _ wi s2 hw) (hR.symbol s2 _ _ _ _)
  rw [if_neg h2] at h
  by_cases h3 : n.getKind = .APPLY_UF
  · rw [if_pos h3] at h
    exact ihr s _ r s1 h
  rw [if_neg h3] at h
  by_cases h4 : n.getKind = .HO_APPLY
  · rw [if_pos h4] at h
    simp only [Except.ok.injEq, Prod.mk.injEq] at h
    rw [← h.2]
    exact hR.symbol s _ _ _ _
  rw [if_neg h4] at h
  by_cases h5 : n.getKind = .CONST_RATIONAL
  · rw [if_pos h5] at h
    split at h
    · simp only [Except.ok.injEq, Prod.mk.injEq] at h
      rw [← h.2]
      exact hR.symbol s _ _ _ _
    · simp only [Except.ok.injEq, Prod.mk.injEq] at h
      rw [← h.2]
      exact hR.symbol s _ _ _ _
  rw [if_neg h5] at h
  by_cases h6 : n.getKind = .CONST_STRING
  · rw [if_pos h6] at h
    split at h
    · simp only [Except.ok.injEq] at h
      rw [getSymbolInternalFor] at h
      have := (Prod.ext_iff.1 h).2
      simp only at this
      rw [← this]
      exact hR.symbol s _ _ _ _
    · split at h
      · simp only [Except.ok.injEq, Prod.mk.injEq] at h
        rw [← h.2]
        exact hR.symbol s _ _ _ _
      · split at h
        · cases h
        · next ret s2 hret =>
          exact hR.rel_trans _ _ _ (ihr s _ ret s2 hret)
            (stringLoop_rel hR _ ihr _ s2 s1 ret r h)
  rw [if_neg h6] at h
  by_cases h7 : n.getKind = .ITE
  · rw [if_pos h7] at h
    split at h
    next iteSym s2 hg =>
    split at h
    · cases h
    · simp only [Except.ok.injEq, Prod.mk.injEq] at h
      rw [← h.2]
      have hq := hR.symbol s n.getKind
        (mkFunctionType [s.d_sortType]
          (mkFunctionType [booleanType, n.getType env, n.getType env] (n.getType env))) "ite" 0
      rw [hg] at hq
      exact hq
  rw [if_neg h7] at h
  by_cases h8 : n.getKind = .MINUS
  · rw [if_pos h8] at h
    split at h
    · simp only [Except.ok.injEq, Prod.mk.injEq] at h
      rw [← h.2]
      exact hR.symbol s _ _ _ _
    · cases h
  rw [if_neg h8] at h
  by_cases h9 : n.isClosure = true
  · rw [if_pos h9] at h
    exact hR.rel_trans _ _ _ (hR.symbol s _ _ _ _) (closureLoop_rel hR env _ _ _ s1 _ r h)
  rw [if_neg h9] at h
  by_cases h10 : (isNAryKind n.getKind && decide (n.getNumChildren ≥ 2)) = true
  · rw [if_pos h10] at h
    split at h
    · cases h
    · split at h
      · simp only [Except.ok.injEq, Prod.mk.injEq] at h
        rw [← h.2]; exact hR.rel_refl s
      · split at h
        · cases h
        · next ret i s2 hstart =>
          have hg1 : R s s2 := by
            split at hstart
            · simp only [Except.ok.injEq, Prod.mk.injEq] at hstart
              rw [← hstart.2]; exact hR.rel_refl s
            · split at hstart
              · cases hstart
              · next ret0 s3 hc =>
                simp only [Except.ok.injEq, Prod.mk.injEq] at hstart
                rw [← hstart.2]
                exact ihc s _ ret0 s3 hc
          split at h
          · simp only [Except.ok.injEq, Prod.mk.injEq] at h
            rw [← h.2]
            exact hR.rel_trans _ _ _ hg1 (hR.symbol s2 _ _ _ _)
          · simp only [Except.ok.injEq, Prod.mk.injEq] at h
            rw [← h.2]
            exact hg1
  rw [if_neg h10] at h
  simp only [Except.ok.injEq, Prod.mk.injEq] at h
  rw [← h.2]; exact hR.rel_refl s

/-- The base class's `convert` and the member `runConvert` stay in every
relation that holds across the elementary changes of state, whatever the
budget. -/
theorem convert_runConvert_rel {R : LfscTermProcessor → LfscTermProcessor → Prop}
    (hR : StepRel R) (env : Env) : ∀ fuel : Nat,
    (∀ s n r s1, convert env fuel s n = .ok (r, s1) → R s s1) ∧
    (∀ s n r s1, runConvert env fuel s n = .ok (r, s1) → R s s1) := by
  intro fuel
  induction fuel with
  | zero =>
    constructor
    · intro s n r s1 h
      rw [convert] at h; cases h
    · intro s n r s1 h
      rw [runConvert] at h; cases h
  | succ fuel ih =>
    obtain ⟨ihc, ihr⟩ := ih
    refine ⟨?_, runConvert_rel_step hR env fuel ihc ihr⟩
    intro s n r s1 h
    rw [convert] at h
    split at h
    · simp only [Except.ok.injEq, Prod.mk.injEq] at h
      rw [← h.2]; exact hR.rel_refl s
    · split at h
      · split at h
        · cases h
        · next cs1 s2 hl =>
          split at h
          · cases h
          · next r2 s3 hr =>
            simp only [Except.ok.injEq, Prod.mk.injEq] at h
            rw [← h.2]
            exact hR.rel_trans _ _ _ (hR.rel_trans _ _ _ (convertList_rel hR _ ihc _ s s2 cs1 hl)
              (ihr s2 _ r2 s3 hr)) (hR.memo s3 n r2)
      · simp only [Except.ok.injEq, Prod.mk.injEq] at h
        rw [← h.2]
        exact hR.memo s n n

/-! ## The variable-index table and the sort tables across a pass -/

theorem mapInsert_keeps_key {α β : Type} [DecidableEq α] (m : List (α × β)) (a c : α) (b d : β)
    (h : mapFind m c = some d) : ∃ d2, mapFind (mapInsert m a b) c = some d2 := by
  by_cases hac : a = c
  · subst hac
    exact ⟨b, mapFind_mapInsert_self _ _ _⟩
  · exact ⟨d, by rw [mapFind_mapInsert_ne _ _ _ _ hac]; exact h⟩

theorem getSymbolInternal_varIndex (s : LfscTermProcessor) (k : Kind) (tn : TypeNode)
    (name : String) (v : Nat) :
    (s.getSymbolInternal k tn name v).2.d_varIndex = s.d_varIndex := by
  cases hf : mapFind s.d_symbolsMap (k, tn, v) with
  | some sym0 => rw [getSymbolInternal_of_some _ _ _ _ _ _ hf]
  | none => rw [getSymbolInternal_of_none _ _ _ _ _ hf]

theorem getSymbolInternal_types (s : LfscTermProcessor) (k : Kind) (tn : TypeNode)
    (name : String) (v : Nat) :
    (s.getSymbolInternal k tn name v).2.d_typeAsNode = s.d_typeAsNode ∧
      (s.getSymbolInternal k tn name v).2.d_tcache = s.d_tcache ∧
      (s.getSymbolInternal k tn name v).2.d_arrow = s.d_arrow ∧
      (s.getSymbolInternal k tn name v).2.d_sortType = s.d_sortType := by
  cases hf : mapFind s.d_symbolsMap (k, tn, v) with
  | some sym0 => rw [getSymbolInternal_of_some _ _ _ _ _ _ hf]; exact ⟨rfl, rfl, rfl, rfl⟩
  | none => rw [getSymbolInternal_of_none _ _ _ _ _ hf]; exact ⟨rfl, rfl, rfl, rfl⟩

theorem getOrAssignIndexForVar_types (s s1 : LfscTermProcessor) (v : Node) (i : Nat)
    (h : s.getOrAssignIndexForVar v = .ok (i, s1)) :
    s1.d_typeAsNode = s.d_typeAsNode ∧ s1.d_tcache = s.d_tcache ∧ s1.d_arrow = s.d_arrow ∧
      s1.d_sortType = s.d_sortType ∧ s1.d_symbols = s.d_symbols := by
  unfold getOrAssignIndexForVar at h
  split at h
  · split at h
    · simp only [Except.ok.injEq, Prod.mk.injEq] at h
      rw [← h.2]; exact ⟨rfl, rfl, rfl, rfl, rfl⟩
    · simp only [Except.ok.injEq, Prod.mk.injEq] at h
      rw [← h.2]; exact ⟨rfl, rfl, rfl, rfl, rfl⟩
  · cases h

/-- The relation `IndexExt` holds across every elementary change of state. -/
theorem IndexExt_stepRel : StepRel IndexExt where
  rel_refl := fun _ _ _ h => h
  rel_trans := fun _ _ _ h12 h23 v i h => h23 v i (h12 v i h)
  symbol := fun s k tn name v w i h => by rw [getSymbolInternal_varIndex]; exact h
  index := fun s v i s1 h w j hw => getOrAssignIndexForVar_stable s s1 v i h w j hw
  reflect := fun _ _ _ _ _ _ h => h
  tmemo := fun _ _ _ _ _ _ h => h
  memo := fun _ _ _ _ _ h => h

/-- The relation `TypeGrows` holds across every elementary change of state. -/
theorem TypeGrows_stepRel : StepRel TypeGrows where
  rel_refl := fun _ => ⟨fun h => h, fun _ n h => ⟨n, h⟩⟩
  rel_trans := fun _ _ _ h12 h23 =>
    ⟨fun h => h23.ok (h12.ok h), fun t n h => by
      obtain ⟨n2, h2⟩ := h12.keys t n h
      exact h23.keys t n2 h2⟩
  symbol := fun s k tn name v => by
    obtain ⟨e1, e2, e3, _⟩ := getSymbolInternal_types s k tn name v
    refine ⟨fun h => ⟨SymbolsOK_getSymbolInternal s h.symbols k tn name v, ?_, ?_, ?_⟩, ?_⟩
    · rw [e1, e3]; exact h.arrow
    · rw [e1]; exact h.nonnull
    · rw [e1, e2]; exact h.tcache
    · rw [e1]; exact fun t n h => ⟨n, h⟩
  index := fun s v i s1 h => by
    obtain ⟨e1, e2, e3, _, _⟩ := getOrAssignIndexForVar_types s s1 v i h
    have hq := getOrAssignIndexForVar_quiet s s1 v i h
    refine ⟨fun h => ⟨hq.symbols h.symbols, ?_, ?_, ?_⟩, ?_⟩
    · rw [e1, e3]; exact h.arrow
    · rw [e1]; exact h.nonnull
    · rw [e1, e2]; exact h.tcache
    · rw [e1]; exact fun t n h => ⟨n, h⟩
  reflect := fun s t n hn => by
    refine ⟨fun h => ⟨⟨h.symbols.typed, h.symbols.inj, h.symbols.nodup⟩, ?_, ?_, ?_⟩, ?_⟩
    · obtain ⟨a, ha⟩ := h.arrow
      exact mapInsert_keeps_key _ _ _ _ _ ha
    · intro t2 n2 h2
      simp only at h2
      by_cases htt : t = t2
      · subst htt
        rw [mapFind_mapInsert_self] at h2
        cases h2
        exact hn
      · rw [mapFind_mapInsert_ne _ _ _ _ htt] at h2
        exact h.nonnull t2 n2 h2
    · intro t2 r h2
      obtain ⟨n2, hn2⟩ := h.tcache t2 r h2
      exact mapInsert_keeps_key _ _ _ _ _ hn2
    · intro t2 n2 h2
      exact mapInsert_keeps_key _ _ _ _ _ h2
  tmemo := fun s t r hr => by
    refine ⟨fun h => ⟨⟨h.symbols.typed, h.symbols.inj, h.symbols.nodup⟩, h.arrow, h.nonnull, ?_⟩,
      fun t2 n2 h2 => ⟨n2, h2⟩⟩
    intro t2 r2 h2
    simp only at h2
    by_cases htt : t = t2
    · subst htt
      rw [mapFind_mapInsert_self] at h2
      cases h2
      exact hr
    · rw [mapFind_mapInsert_ne _ _ _ _ htt] at h2
      exact h.tcache t2 r2 h2
  memo := fun s n r =>
    ⟨fun h => ⟨⟨h.symbols.typed, h.symbols.inj, h.symbols.nodup⟩, h.arrow, h.nonnull, h.tcache⟩,
      fun t2 n2 h2 => ⟨n2, h2⟩⟩

/-- The invariant of the sort tables holds right after the constructor. -/
theorem TypesOK_new (nm : NodeManager) : TypesOK (LfscTermProcessor.new nm) := by
  refine ⟨SymbolsOK_new nm, ⟨_, mapFind_mapInsert_self _ _ _⟩, ?_, ?_⟩
  · intro t n h
    have h2 : n = Node.mk .BOUND_VARIABLE (.var (nm.nextId + 2)
        (mkFunctionType [(TypeNode.mk .SORT_TYPE (.sort "sortType" (nm.nextId + 1)) []),
          (TypeNode.mk .SORT_TYPE (.sort "sortType" (nm.nextId + 1)) [])]
          (TypeNode.mk .SORT_TYPE (.sort "sortType" (nm.nextId + 1)) []))) [] := by
      simp only [LfscTermProcessor.new, NodeManager.mkSortConstructor, NodeManager.mkSort,
        getSymbolInternal, mapFind, mkInternalSymbol, NodeManager.mkBoundVar, mapInsert] at h
      split at h
      · cases h; rfl
      · cases h
    rw [h2]
    simp [Node.isNull, Node.null]
  · intro t r h
    have : (LfscTermProcessor.new nm).d_tcache = [] := rfl
    rw [this] at h
    cases h

/-! ## The conversion of sorts returns -/

theorem typeAsNode_of_reflection (s : LfscTermProcessor) (t : TypeNode) (n : Node)
    (h : mapFind s.d_typeAsNode t = some n) : s.typeAsNode t = .ok n := by
  simp [typeAsNode, h]

theorem runConvertTypeArgs_total (s : LfscTermProcessor) (arrown : Node) :
    ∀ (its : List TypeNode), (∀ t ∈ its, ∃ n, mapFind s.d_typeAsNode t = some n) →
      ∀ (cur : TypeNode) (tnn : Node),
        ∃ r res, s.runConvertTypeArgs arrown its cur tnn = .ok (r, res) := by
  intro its
  induction its with
  | nil => intro _ cur tnn; exact ⟨cur, tnn, rfl⟩
  | cons it rest ih =>
    intro h cur tnn
    obtain ⟨n, hn⟩ := h it (List.mem_cons_self _ _)
    rw [runConvertTypeArgs, typeAsNode_of_reflection s it n hn]
    exact ih (fun t ht => h t (List.mem_cons_of_mem _ ht)) _ _

/-- In a state that satisfies the invariant of the sort tables, `runConvertType`
returns for a childless sort that is no function sort. -/
theorem runConvertType_atomic_total (s : LfscTermProcessor) (hs : SymbolsOK s) (k : Kind)
    (p : TypePayload) (hk : k ≠ .FUNCTION_TYPE) :
    ∃ s1, s.runConvertType (.mk k p []) = .ok (.mk k p [], s1) := by
  unfold runConvertType
  have h1 : (TypeNode.mk k p []).getKind = k := rfl
  have h2 : (TypeNode.mk k p []).getNumChildren = 0 := rfl
  simp only [h1, h2, if_neg hk, if_true]
  have hnn := getSymbolInternal_not_null s hs k s.d_sortType (TypeNode.mk k p []).toString 0
  simp only [hnn]
  exact ⟨_, rfl⟩

/-- In a state that satisfies the invariant of the sort tables, `runConvertType`
returns for a function sort whose children have reflections. -/
theorem runConvertType_function_total (s : LfscTermProcessor) (hs : TypesOK s)
    (p : TypePayload) (cs : List TypeNode) (hne : cs ≠ [])
    (hcs : ∀ t ∈ cs, ∃ n, mapFind s.d_typeAsNode t = some n) :
    ∃ r s1, s.runConvertType (.mk .FUNCTION_TYPE p cs) = .ok (r, s1) := by
  unfold runConvertType
  have h1 : (TypeNode.mk .FUNCTION_TYPE p cs).getKind = .FUNCTION_TYPE := rfl
  simp only [h1, if_true]
  obtain ⟨a, ha⟩ := hs.arrow
  have hann := hs.nonnull _ _ ha
  simp only [ha, hann]
  have hrange : (TypeNode.mk .FUNCTION_TYPE p cs).getRangeType ∈ cs := by
    show cs.getLastD TypeNode.null ∈ cs
    cases cs with
    | nil => exact absurd rfl hne
    | cons c cs2 =>
      rw [List.getLastD_cons]
      have := List.getLast_mem (List.cons_ne_nil c cs2)
      rw [List.getLast_eq_getLastD] at this
      simpa using this
  obtain ⟨n0, hn0⟩ := hcs _ hrange
  rw [typeAsNode_of_reflection s _ n0 hn0]
  have hargs : ∀ t ∈ (TypeNode.mk .FUNCTION_TYPE p cs).getArgTypes.reverse,
      ∃ n, mapFind s.d_typeAsNode t = some n := by
    intro t ht
    rw [List.mem_reverse] at ht
    exact hcs t (List.dropLast_subset cs ht)
  obtain ⟨r, res, hr⟩ := runConvertTypeArgs_total s a _ hargs
    (TypeNode.mk .FUNCTION_TYPE p cs).getRangeType n0
  have hres := runConvertTypeArgs_not_null s a _ _ _ _ _ (hs.nonnull _ _ hn0) hr
  simp only [hr, hres]
  exact ⟨_, _, rfl⟩

theorem convertTypeList_length : ∀ (ts : List TypeNode) (s s1 : LfscTermProcessor)
    (rs : List TypeNode), convertTypeList s ts = .ok (rs, s1) → rs.length = ts.length
  | [], s, s1, rs, h => by
    rw [convertTypeList] at h
    simp only [Except.ok.injEq, Prod.mk.injEq] at h
    rw [← h.1]
  | t :: ts, s, s1, rs, h => by
    rw [convertTypeList] at h
    split at h
    · cases h
    · next t1 s2 ht =>
      split at h
      · cases h
      · next ts1 s3 hts =>
        simp only [Except.ok.injEq, Prod.mk.injEq] at h
        rw [← h.1]
        simp [convertTypeList_length ts s2 s3 ts1 hts]

mutual
/-- In a state that satisfies the invariant of the sort tables, `convertType`
returns for every sort the encoder reflects, and the sort it returns has a
reflection in the state it leaves. -/
theorem convertType_total : ∀ (t : TypeNode) (s : LfscTermProcessor),
    t.isEncodable = true → TypesOK s →
    ∃ r s1, convertType s t = .ok (r, s1) ∧ ∃ n, mapFind s1.d_typeAsNode r = some n
  | .mk k p cs, s, ht, hs => by
    rw [convertType]
    cases hc : mapFind s.d_tcache (.mk k p cs) with
    | some r => exact ⟨r, s, rfl, hs.tcache _ _ hc⟩
    | none =>
      simp only
      rw [TypeNode.isEncodable] at ht
      by_cases hk : k = .FUNCTION_TYPE
      · subst hk
        simp only [if_true, Bool.and_eq_true, Bool.not_eq_true', List.isEmpty_eq_false] at ht
        obtain ⟨rs, s1, hl, hrs⟩ := convertTypeList_total cs s ht.2 hs
        have hs1 : TypesOK s1 := (convertTypeList_rel TypeGrows_stepRel cs s s1 rs hl).ok hs
        have hlen := convertTypeList_length cs s s1 rs hl
        have hne : rs ≠ [] := by
          intro e
          rw [e] at hlen
          exact ht.1 (List.length_eq_zero.1 hlen.symm)
        obtain ⟨r, s2, hr⟩ := runConvertType_function_total s1 hs1 p rs hne hrs
        obtain ⟨-, n, hn⟩ := runConvertType_rel TypeGrows_stepRel s1 s2 _ r hr
        simp only [hl, hr]
        exact ⟨_, _, rfl, n, hn⟩
      · simp only [if_neg hk, List.isEmpty_iff] at ht
        subst ht
        obtain ⟨s1, hr⟩ := runConvertType_atomic_total s hs.symbols k p hk
        obtain ⟨-, n, hn⟩ := runConvertType_rel TypeGrows_stepRel s s1 _ _ hr
        simp only [convertTypeList, hr]
        exact ⟨_, _, rfl, n, hn⟩
theorem convertTypeList_total : ∀ (ts : List TypeNode) (s : LfscTermProcessor),
    TypeNode.isEncodableList ts = true → TypesOK s →
    ∃ rs s1, convertTypeList s ts = .ok (rs, s1) ∧
      ∀ r ∈ rs, ∃ n, mapFind s1.d_typeAsNode r = some n
  | [], s, _, _ => ⟨[], s, by rw [convertTypeList], by simp⟩
  | t :: ts, s, ht, hs => by
    rw [TypeNode.isEncodableList, Bool.and_eq_true] at ht
    obtain ⟨r, s1, h1, n, hn⟩ := convertType_total t s ht.1 hs
    have hs1 : TypesOK s1 := (convertType_rel TypeGrows_stepRel t s s1 r h1).ok hs
    obtain ⟨rs, s2, h2, hrs⟩ := convertTypeList_total ts s1 ht.2 hs1
    have hg := convertTypeList_rel TypeGrows_stepRel ts s1 s2 rs h2
    rw [convertTypeList]
    simp only [h1, h2]
    refine ⟨_, _, rfl, ?_⟩
    intro r2 hr2
    rcases List.mem_cons.1 hr2 with rfl | hm
    · exact hg.keys _ n hn
    · exact hrs r2 hm
end

/-! ## The binders of a closure -/

theorem binderChain_snoc (op : Node) (data : List (Nat × Node)) (d : Nat × Node) (body : Node) :
    binderChain op (data ++ [d]) body =
      binderChain op data
        (mkNode .APPLY_UF [mkNode .APPLY_UF [op, mkConstRational d.1, d.2], body]) := by
  simp [binderChain, List.foldr_append]

/-- The loop of the closure case computes the data of the binders, last declared
variable first, and nests the binders with the first declared variable
outermost. -/
theorem closureLoop_eq (env : Env) (op : Node) (vs : List Node) :
    ∀ (s : LfscTermProcessor) (ret : Node),
      closureLoop env op s vs ret =
        match binderDataList env s vs with
        | .error e => .error e
        | .ok (data, s1) => .ok (binderChain op data.reverse ret, s1) := by
  induction vs with
  | nil => intro s ret; rfl
  | cons v vs ih =>
    intro s ret
    rw [closureLoop, binderDataList, binderData]
    cases h1 : s.getOrAssignIndexForVar v with
    | error e => rfl
    | ok r1 =>
      obtain ⟨idx, s1⟩ := r1
      simp only
      cases h2 : convertType s1 (v.getType env) with
      | error e => rfl
      | ok r2 =>
        obtain ⟨ct, s2⟩ := r2
        simp only
        cases h3 : s2.typeAsNode ct with
        | error e => rfl
        | ok tc =>
          simp only
          rw [ih]
          cases h4 : binderDataList env s2 vs with
          | error e => rfl
          | ok r4 =>
            obtain ⟨ds, s3⟩ := r4
            simp only [List.reverse_cons, binderChain_snoc]

theorem isClosureKind_cases (k : Kind) (hk : isClosureKind k = true) :
    k ≠ .BOUND_VARIABLE ∧ k ≠ .SKOLEM ∧ k ≠ .APPLY_UF ∧ k ≠ .HO_APPLY ∧ k ≠ .CONST_RATIONAL ∧
      k ≠ .CONST_STRING ∧ k ≠ .ITE ∧ k ≠ .MINUS ∧ isParameterized k = false := by
  cases k <;> simp [isClosureKind] at hk <;> simp [isParameterized]

/-- The closure case of `runConvert`, for a closure over the variable list
`vars` and the body `B`. -/
theorem runConvert_closure_eq (env : Env) (fuel : Nat) (s : LfscTermProcessor) (k : Kind)
    (p pb : Payload) (vars : List Node) (B : Node) (rest : List Node)
    (hk : isClosureKind k = true) :
    runConvert env (fuel + 1) s (.mk k p (.mk .BOUND_VAR_LIST pb vars :: B :: rest)) =
      closureLoop env
        (s.getSymbolInternal k (mkFunctionType [integerType, s.d_sortType]
          (mkFunctionType [B.getType env]
            ((Node.mk k p (.mk .BOUND_VAR_LIST pb vars :: B :: rest)).getType env)))
          (smtKindString k) 0).1
        (s.getSymbolInternal k (mkFunctionType [integerType, s.d_sortType]
          (mkFunctionType [B.getType env]
            ((Node.mk k p (.mk .BOUND_VAR_LIST pb vars :: B :: rest)).getType env)))
          (smtKindString k) 0).2
        vars.reverse B := by
  obtain ⟨h1, h2, h3, h4, h5, h6, h7, h8, hp⟩ := isClosureKind_cases k hk
  have hkind : (Node.mk k p (.mk .BOUND_VAR_LIST pb vars :: B :: rest)).getKind = k := rfl
  have hcl : (Node.mk k p (.mk .BOUND_VAR_LIST pb vars :: B :: rest)).isClosure = true := hk
  have hc0 : (Node.mk k p (.mk .BOUND_VAR_LIST pb vars :: B :: rest)).getChild 0 =
      .mk .BOUND_VAR_LIST pb vars := by
    simp [Node.getChild, Node.getChildren, hp]
  have hc1 : (Node.mk k p (.mk .BOUND_VAR_LIST pb vars :: B :: rest)).getChild 1 = B := by
    simp [Node.getChild, Node.getChildren, hp]
  have hvs : (Node.mk .BOUND_VAR_LIST pb vars).getChildren = vars := by
    simp [Node.getChildren, isParameterized]
  rw [runConvert]
  conv => lhs; zeta
  rw [hkind, if_neg h1, if_neg h2, if_neg h3, if_neg h4, if_neg h5, if_neg h6, if_neg h7,
    if_neg h8, if_pos hcl, hc0, hc1, hvs]

theorem getOrAssignIndexForVar_of_index (s : LfscTermProcessor) (v : Node) (i : Nat)
    (hv : v.isVar = true) (h : mapFind s.d_varIndex v = some i) :
    s.getOrAssignIndexForVar v = .ok (i, s) := by
  simp [getOrAssignIndexForVar, hv, h]

theorem getOrAssignIndexForVar_index (s s1 : LfscTermProcessor) (v : Node) (i : Nat)
    (h : s.getOrAssignIndexForVar v = .ok (i, s1)) :
    v.isVar = true ∧ mapFind s1.d_varIndex v = some i := by
  unfold getOrAssignIndexForVar at h
  by_cases hv : v.isVar = true
  · simp only [hv, if_true] at h
    refine ⟨hv, ?_⟩
    cases hf : mapFind s.d_varIndex v with
    | some i0 =>
      simp only [hf, Except.ok.injEq, Prod.mk.injEq] at h
      rw [← h.2, ← h.1]; exact hf
    | none =>
      simp only [hf, Except.ok.injEq, Prod.mk.injEq] at h
      rw [← h.2, ← h.1]
      exact mapFind_mapInsert_self _ _ _
  · simp [hv] at h

/-- What `binderData` leaves: the variable has the index returned, and the
entries of the variable-index table are kept. -/
theorem binderData_index (env : Env) (s s1 : LfscTermProcessor) (v : Node) (d : Nat × Node)
    (h : binderData env s v = .ok (d, s1)) :
    v.isVar = true ∧ mapFind s1.d_varIndex v = some d.1 ∧ IndexExt s s1 := by
  unfold binderData at h
  split at h
  · cases h
  · next idx s2 hv =>
    split at h
    · cases h
    · next ct s3 hct =>
      split at h
      · cases h
      · next tc htc =>
        simp only [Except.ok.injEq, Prod.mk.injEq] at h
        obtain ⟨h1, h2⟩ := h
        subst h1; subst h2
        obtain ⟨hvar, hidx⟩ := getOrAssignIndexForVar_index s s2 v idx hv
        have he := convertType_rel IndexExt_stepRel _ s2 s3 ct hct
        exact ⟨hvar, he v idx hidx,
          IndexExt_stepRel.rel_trans _ _ _ (IndexExt_stepRel.index s v idx s2 hv) he⟩

theorem binderDataList_index (env : Env) (vs : List Node) :
    ∀ (s s1 : LfscTermProcessor) (data : List (Nat × Node)),
      binderDataList env s vs = .ok (data, s1) →
      data.length = vs.length ∧ IndexExt s s1 ∧
        ∀ q ∈ List.zip vs data, q.1.isVar = true ∧ mapFind s1.d_varIndex q.1 = some q.2.1 := by
  induction vs with
  | nil =>
    intro s s1 data h
    simp only [binderDataList, Except.ok.injEq, Prod.mk.injEq] at h
    rw [← h.1, ← h.2]
    exact ⟨rfl, IndexExt_stepRel.rel_refl s, by simp⟩
  | cons v vs ih =>
    intro s s1 data h
    rw [binderDataList] at h
    split at h
    · cases h
    · next d s2 hd =>
      split at h
      · cases h
      · next ds s3 hds =>
        simp only [Except.ok.injEq, Prod.mk.injEq] at h
        obtain ⟨h1, h2⟩ := h
        subst h1; subst h2
        obtain ⟨hv, hi, he⟩ := binderData_index env s s2 v d hd
        obtain ⟨hlen, he2, hz⟩ := ih s2 s3 ds hds
        refine ⟨by simp [hlen], IndexExt_stepRel.rel_trans _ _ _ he he2, ?_⟩
        intro q hq
        rw [List.zip_cons_cons, List.mem_cons] at hq
        rcases hq with rfl | hq
        · exact ⟨hv, he2 v d.1 hi⟩
        · exact hz q hq

/-- In a state that satisfies the invariant of the sort tables, `binderData`
returns for a variable whose sort the encoder reflects. -/
theorem binderData_total (env : Env) (s : LfscTermProcessor) (v : Node) (hs : TypesOK s)
    (hv : v.isVar = true) (ht : (v.getType env).isEncodable = true) :
    ∃ d s1, binderData env s v = .ok (d, s1) ∧ TypesOK s1 := by
  obtain ⟨idx, s1, h1⟩ := getOrAssignIndexForVar_total s v hv
  have hs1 : TypesOK s1 := (TypeGrows_stepRel.index s v idx s1 h1).ok hs
  obtain ⟨ct, s2, h2, n, hn⟩ := convertType_total (v.getType env) s1 ht hs1
  have hs2 : TypesOK s2 := (convertType_rel TypeGrows_stepRel _ s1 s2 ct h2).ok hs1
  refine ⟨(idx, n), s2, ?_, hs2⟩
  simp [binderData, h1, h2, typeAsNode_of_reflection s2 ct n hn]

theorem binderDataList_total (env : Env) (vs : List Node) :
    ∀ (s : LfscTermProcessor), TypesOK s →
      (∀ v ∈ vs, v.isVar = true ∧ (v.getType env).isEncodable = true) →
      ∃ data s1, binderDataList env s vs = .ok (data, s1) ∧ TypesOK s1 := by
  induction vs with
  | nil => intro s hs _; exact ⟨[], s, rfl, hs⟩
  | cons v vs ih =>
    intro s hs hvs
    obtain ⟨d, s1, h1, hs1⟩ := binderData_total env s v hs (hvs v (List.mem_cons_self _ _)).1
      (hvs v (List.mem_cons_self _ _)).2
    obtain ⟨ds, s2, h2, hs2⟩ := ih s1 hs1 (fun w hw => hvs w (List.mem_cons_of_mem _ hw))
    refine ⟨d :: ds, s2, ?_, hs2⟩
    simp [binderDataList, h1, h2]

theorem binderDataList_reverse_index (env : Env) (vars : List Node)
    (s s1 : LfscTermProcessor) (data : List (Nat × Node))
    (hd : binderDataList env s vars.reverse = .ok (data, s1)) :
    data.reverse.length = vars.length ∧ IndexExt s s1 ∧
      ∀ q ∈ List.zip vars data.reverse, s1.getOrAssignIndexForVar q.1 = .ok (q.2.1, s1) := by
  obtain ⟨hlen, hext, hz⟩ := binderDataList_index env vars.reverse s s1 data hd
  have hlen2 : data.reverse.length = vars.length := by
    rw [List.length_reverse, hlen, List.length_reverse]
  refine ⟨hlen2, hext, ?_⟩
  intro q hq
  have hq2 : q ∈ List.zip vars.reverse data := by
    have hrev : (List.zip vars data.reverse).reverse = List.zip vars.reverse data := by
      unfold List.zip
      rw [List.reverse_zipWith hlen2.symm, List.reverse_reverse]
    rw [← hrev, List.mem_reverse]
    exact hq
  obtain ⟨hv, hi⟩ := hz q hq2
  exact getOrAssignIndexForVar_of_index s1 q.1 q.2.1 hv hi

/-- Whenever the closure case of `runConvert` returns, it returns the nested
binders over the data of the binders, and each variable has the index of its
binder in the state left. -/
theorem runConvert_closure_shape (env : Env) (fuel : Nat) (s s1 : LfscTermProcessor) (k : Kind)
    (p pb : Payload) (vars : List Node) (B : Node) (rest : List Node) (r : Node)
    (hk : isClosureKind k = true)
    (h : runConvert env (fuel + 1) s (.mk k p (.mk .BOUND_VAR_LIST pb vars :: B :: rest)) =
      .ok (r, s1)) :
    ∃ data,
      r = binderChain (s.getSymbolInternal k (mkFunctionType [integerType, s.d_sortType]
            (mkFunctionType [B.getType env]
              ((Node.mk k p (.mk .BOUND_VAR_LIST pb vars :: B :: rest)).getType env)))
            (smtKindString k) 0).1 data B ∧
      data.length = vars.length ∧
      binderDataList env (s.getSymbolInternal k (mkFunctionType [integerType, s.d_sortType]
            (mkFunctionType [B.getType env]
              ((Node.mk k p (.mk .BOUND_VAR_LIST pb vars :: B :: rest)).getType env)))
            (smtKindString k) 0).2 vars.reverse = .ok (data.reverse, s1) ∧
      (∀ q ∈ List.zip vars data, s1.getOrAssignIndexForVar q.1 = .ok (q.2.1, s1)) ∧
      IndexExt s s1 := by
  rw [runConvert_closure_eq env fuel s k p pb vars B rest hk, closureLoop_eq] at h
  split at h
  · cases h
  · next data s2 hd =>
    simp only [Except.ok.injEq, Prod.mk.injEq] at h
    obtain ⟨h1, h2⟩ := h
    subst h1; subst h2
    obtain ⟨hlen, hext, hz⟩ := binderDataList_reverse_index env vars _ s2 data hd
    refine ⟨data.reverse, rfl, hlen, by rw [List.reverse_reverse]; exact hd, hz, ?_⟩
    exact IndexExt_stepRel.rel_trans _ _ _ (IndexExt_stepRel.symbol s _ _ _ _) hext

/-- The closure case of `runConvert` returns, in a state that satisfies the
invariant of the sort tables, for a closure whose bound variables are variables
of sorts the encoder reflects. -/
theorem runConvert_closure_total (env : Env) (fuel : Nat) (s : LfscTermProcessor) (k : Kind)
    (p pb : Payload) (vars : List Node) (B : Node) (rest : List Node)
    (hk : isClosureKind k = true) (hs : TypesOK s)
    (hvars : ∀ v ∈ vars, v.isVar = true ∧ (v.getType env).isEncodable = true) :
    ∃ r s1,
      runConvert env (fuel + 1) s (.mk k p (.mk .BOUND_VAR_LIST pb vars :: B :: rest)) =
        .ok (r, s1) := by
  have hs0 : TypesOK (s.getSymbolInternal k (mkFunctionType [integerType, s.d_sortType]
            (mkFunctionType [B.getType env]
              ((Node.mk k p (.mk .BOUND_VAR_LIST pb vars :: B :: rest)).getType env)))
            (smtKindString k) 0).2 := (TypeGrows_stepRel.symbol s _ _ _ _).ok hs
  obtain ⟨data, s1, hd, -⟩ := binderDataList_total env vars.reverse _ hs0
    (fun v hv => hvars v (List.mem_reverse.1 hv))
  rw [runConvert_closure_eq env fuel s k p pb vars B rest hk, closureLoop_eq, hd]
  exact ⟨_, s1, rfl⟩

/-! ## C12: the binders are curried -/

/-- C12: for a closure of kind `k` that binds the variables `vars` (in the order
of their declaration) over the body `B`: whenever `runConvert` returns, it
returns the nested applications `((op i1 S1) ((op i2 S2) ... ((op ik Sk) B)))`,
one for each variable, the first declared outermost, with one symbol `op` at
every level, the symbol cached for the kind `k`; the pairs `(ij, Sj)` are what
`binderData` computes for the variables, last declared first: `ij` is the index
`getOrAssignIndexForVar` gives `xj` (and gives it again in the state left), and
`Sj` is `typeAsNode` of the converted sort of `xj`.  And `runConvert` does
return, in a state that satisfies the invariant of the sort tables, when the
bound variables are variables of sorts the encoder reflects. -/
theorem runConvert_closure_curried (env : Env) (fuel : Nat) (s : LfscTermProcessor) (k : Kind)
    (p pb : Payload) (vars : List Node) (B : Node) (rest : List Node)
    (hk : isClosureKind k = true) :
    (∀ r s1,
      runConvert env (fuel + 1) s (.mk k p (.mk .BOUND_VAR_LIST pb vars :: B :: rest)) =
        .ok (r, s1) →
      ∃ data,
        r = binderChain (s.getSymbolInternal k (mkFunctionType [integerType, s.d_sortType]
            (mkFunctionType [B.getType env]
              ((Node.mk k p (.mk .BOUND_VAR_LIST pb vars :: B :: rest)).getType env)))
            (smtKindString k) 0).1 data B ∧
        data.length = vars.length ∧
        binderDataList env (s.getSymbolInternal k (mkFunctionType [integerType, s.d_sortType]
            (mkFunctionType [B.getType env]
              ((Node.mk k p (.mk .BOUND_VAR_LIST pb vars :: B :: rest)).getType env)))
            (smtKindString k) 0).2 vars.reverse = .ok (data.reverse, s1) ∧
        ∀ q ∈ List.zip vars data, s1.getOrAssignIndexForVar q.1 = .ok (q.2.1, s1)) ∧
    (TypesOK s → (∀ v ∈ vars, v.isVar = true ∧ (v.getType env).isEncodable = true) →
      ∃ r s1,
        runConvert env (fuel + 1) s (.mk k p (.mk .BOUND_VAR_LIST pb vars :: B :: rest)) =
          .ok (r, s1)) := by
  refine ⟨fun r s1 h => ?_, fun hs hvars =>
    runConvert_closure_total env fuel s k p pb vars B rest hk hs hvars⟩
  obtain ⟨data, h1, h2, h3, h4, -⟩ :=
    runConvert_closure_shape env fuel s s1 k p pb vars B rest r hk h
  exact ⟨data, h1, h2, h3, h4⟩

/-- C12 at a concrete input: on the fresh encoder, the closure
`forall x0 : Bool, x1 : Int. x0` is encoded, as two nested binders over `x0`. -/
theorem runConvert_closure_curried_witness :
    ∃ r s1 data,
      runConvert exampleEnv (0 + 1) freshEncoder
          (.mk .FORALL .none
            (.mk .BOUND_VAR_LIST .none [boundVar 0 booleanType, boundVar 1 integerType] ::
              boundVar 0 booleanType :: [])) = .ok (r, s1) ∧
        r = binderChain (freshEncoder.getSymbolInternal .FORALL
          (mkFunctionType [integerType, freshEncoder.d_sortType]
            (mkFunctionType [(boundVar 0 booleanType).getType exampleEnv]
              ((Node.mk .FORALL .none
                (.mk .BOUND_VAR_LIST .none [boundVar 0 booleanType, boundVar 1 integerType] ::
                  boundVar 0 booleanType :: [])).getType exampleEnv)))
          (smtKindString .FORALL) 0).1 data (boundVar 0 booleanType) ∧
        data.length = [boundVar 0 booleanType, boundVar 1 integerType].length ∧
        binderDataList exampleEnv (freshEncoder.getSymbolInternal .FORALL
          (mkFunctionType [integerType, freshEncoder.d_sortType]
            (mkFunctionType [(boundVar 0 booleanType).getType exampleEnv]
              ((Node.mk .FORALL .none
                (.mk .BOUND_VAR_LIST .none [boundVar 0 booleanType, boundVar 1 integerType] ::
                  boundVar 0 booleanType :: [])).getType exampleEnv)))
          (smtKindString .FORALL) 0).2
          [boundVar 0 booleanType, boundVar 1 integerType].reverse = .ok (data.reverse, s1) ∧
        ∀ q ∈ List.zip [boundVar 0 booleanType, boundVar 1 integerType] data,
          s1.getOrAssignIndexForVar q.1 = .ok (q.2.1, s1) := by
  have T := runConvert_closure_curried exampleEnv 0 freshEncoder .FORALL .none .none
    [boundVar 0 booleanType, boundVar 1 integerType] (boundVar 0 booleanType) [] rfl
  obtain ⟨r, s1, h⟩ := T.2 (TypesOK_new NodeManager.fresh) (by decide)
  obtain ⟨data, h1, h2, h3, h4⟩ := T.1 r s1 h
  exact ⟨r, s1, data, h, h1, h2, h3, h4⟩

/-! ## C11: the index of a variable is stable -/

theorem assignAll_append (vs ws : List Node) : ∀ (s : LfscTermProcessor),
    assignAll s (vs ++ ws) =
      match assignAll s vs with
      | .error e => .error e
      | .ok s1 => assignAll s1 ws := by
  induction vs with
  | nil => intro s; rfl
  | cons v vs ih =>
    intro s
    simp only [List.cons_append, assignAll]
    cases h : s.getOrAssignIndexForVar v with
    | error e => rfl
    | ok r =>
      obtain ⟨i, s1⟩ := r
      exact ih s1

theorem assignAll_indexExt (vs : List Node) : ∀ (s s1 : LfscTermProcessor),
    assignAll s vs = .ok s1 → IndexExt s s1 := by
  induction vs with
  | nil =>
    intro s s1 h
    simp only [assignAll, Except.ok.injEq] at h
    rw [← h]; exact IndexExt_stepRel.rel_refl s
  | cons v vs ih =>
    intro s s1 h
    rw [assignAll] at h
    split at h
    · cases h
    · next i s2 hv =>
      exact IndexExt_stepRel.rel_trans _ _ _ (IndexExt_stepRel.index s v i s2 hv) (ih s2 s1 h)

/-- A sequence of calls either never asks for `x`, or splits at the first call
for `x`. -/
theorem takeWhile_ne_split (vs : List Node) (x : Node) :
    (x ∉ vs ∧ vs.takeWhile (fun v => decide (v ≠ x)) = vs) ∨
      ∃ post, vs = vs.takeWhile (fun v => decide (v ≠ x)) ++ x :: post := by
  induction vs with
  | nil => left; simp
  | cons v vs ih =>
    by_cases hv : v = x
    · right
      subst hv
      exact ⟨vs, by simp⟩
    · have e : List.takeWhile (fun v => decide (v ≠ x)) (v :: vs) =
          v :: List.takeWhile (fun v => decide (v ≠ x)) vs := by
        simp [List.takeWhile_cons, hv]
      rcases ih with ⟨h1, h2⟩ | ⟨post, hp⟩
      · left
        refine ⟨?_, by rw [e, h2]⟩
        intro hm
        rcases List.mem_cons.1 hm with rfl | hm2
        · exact hv rfl
        · exact h1 hm2
      · right
        refine ⟨post, ?_⟩
        rw [e, List.cons_append, ← hp]

theorem not_mem_takeWhile_ne (vs : List Node) (x : Node) :
    x ∉ vs.takeWhile (fun v => decide (v ≠ x)) := by
  intro h
  have := List.mem_takeWhile_imp h
  simp at this

/-- On a fresh encoder, after the calls for the variables of a list, the table
has as many entries as the list has distinct variables, and an entry exactly for
the variables of the list. -/
theorem assignAll_new_table (nm : NodeManager) (vs : List Node)
    (hvars : ∀ v ∈ vs, v.isVar = true) :
    ∃ s, assignAll (LfscTermProcessor.new nm) vs = .ok s ∧
      s.d_varIndex.length = vs.dedup.length ∧
      ∀ v, v ∉ vs → mapFind s.d_varIndex v = none := by
  have hok0 : VarIndexOK (LfscTermProcessor.new nm).d_varIndex := by
    rw [new_varIndex]; exact ⟨rfl, List.nodup_nil⟩
  obtain ⟨s, hs, hok, hkeys⟩ := assignAll_inv vs (LfscTermProcessor.new nm) hvars hok0
  have hdom : ∀ v, v ∈ s.d_varIndex.map Prod.fst ↔ v ∈ vs := by
    intro v
    rw [hkeys, new_varIndex]
    simp
  refine ⟨s, hs, ?_, ?_⟩
  · have hperm : (s.d_varIndex.map Prod.fst).Perm vs.dedup := by
      rw [List.perm_ext_iff_of_nodup hok.2 (List.nodup_dedup vs)]
      intro a
      rw [hdom, List.mem_dedup]
    rw [← hperm.length_eq, List.length_map]
  · intro v hv
    rw [mapFind_none_iff, hdom]
    exact hv

theorem getOrAssignIndexForVar_of_none (s : LfscTermProcessor) (v : Node)
    (hv : v.isVar = true) (h : mapFind s.d_varIndex v = none) :
    s.getOrAssignIndexForVar v =
      .ok (s.d_varIndex.length,
        { s with d_varIndex := mapInsert s.d_varIndex v s.d_varIndex.length }) := by
  simp [getOrAssignIndexForVar, hv, h]

/-- On a fresh encoder, after the calls for the variables `vs`, the call for `x`
returns the position at which `x` is first seen. -/
theorem getOrAssignIndexForVar_firstSeen (nm : NodeManager) (vs : List Node) (x : Node)
    (hvars : ∀ v ∈ vs, v.isVar = true) (hx : x.isVar = true) :
    ∃ s s1, assignAll (LfscTermProcessor.new nm) vs = .ok s ∧
      s.getOrAssignIndexForVar x = .ok (firstSeenPosition vs x, s1) := by
  rcases takeWhile_ne_split vs x with ⟨hnot, htw⟩ | ⟨post, hsplit⟩
  · obtain ⟨s, hs, hlen, hnone⟩ := assignAll_new_table nm vs hvars
    refine ⟨s, { s with d_varIndex := mapInsert s.d_varIndex x s.d_varIndex.length }, hs, ?_⟩
    rw [getOrAssignIndexForVar_of_none s x hx (hnone x hnot), firstSeenPosition, htw, hlen]
  · have hpre : ∀ v ∈ vs.takeWhile (fun v => decide (v ≠ x)), v.isVar = true :=
      fun v hv => hvars v (List.takeWhile_subset _ hv)
    obtain ⟨sp, hsp, hlen, hnone⟩ := assignAll_new_table nm _ hpre
    have hcall := getOrAssignIndexForVar_of_none sp x hx (hnone x (not_mem_takeWhile_ne vs x))
    have hpost : ∀ v ∈ post, v.isVar = true := by
      intro v hv
      apply hvars v
      rw [hsplit]
      exact List.mem_append_right _ (List.mem_cons_of_mem _ hv)
    have hok0 : VarIndexOK (LfscTermProcessor.new nm).d_varIndex := by
      rw [new_varIndex]; exact ⟨rfl, List.nodup_nil⟩
    obtain ⟨s, hs, -, -⟩ := assignAll_inv vs (LfscTermProcessor.new nm) hvars hok0
    have hs2 := hs
    rw [hsplit, assignAll_append, hsp] at hs2
    simp only [assignAll, hcall] at hs2
    have hext := assignAll_indexExt post _ s hs2
    have hidx : mapFind s.d_varIndex x = some sp.d_varIndex.length :=
      hext x _ (mapFind_mapInsert_self _ _ _)
    refine ⟨s, s, hs, ?_⟩
    rw [getOrAssignIndexForVar_of_index s x _ hx hidx, firstSeenPosition, hlen]

/-- In a state that satisfies the invariant of the sort tables, `runConvert`
returns for a bound variable that is no internal symbol and whose sort the
encoder reflects: the application of a symbol to the index of the variable and
the reflection of its converted sort; and the variable has that index in the
state left. -/
theorem runConvert_boundVar_total (env : Env) (fuel : Nat) (s : LfscTermProcessor) (x : Node)
    (hs : TypesOK s) (hk : x.getKind = .BOUND_VARIABLE) (hsym : x ∉ s.d_symbols)
    (ht : (x.getType env).isEncodable = true) :
    ∃ i bvarOp tc s1,
      runConvert env (fuel + 1) s x =
        .ok (mkNode .APPLY_UF [bvarOp, mkConstRational (i : Nat), tc], s1) ∧
      (∃ s0, s.getOrAssignIndexForVar x = .ok (i, s0)) ∧
      mapFind s1.d_varIndex x = some i := by
  have hx : x.isVar = true := by simp [Node.isVar, hk]
  obtain ⟨i, s0, h0⟩ := getOrAssignIndexForVar_total s x hx
  have hs0 : TypesOK s0 := (TypeGrows_stepRel.index s x i s0 h0).ok hs
  obtain ⟨ct, s2, h2, n, hn⟩ := convertType_total (x.getType env) s0 ht hs0
  have hi0 := (getOrAssignIndexForVar_index s s0 x i h0).2
  have hi2 := convertType_rel IndexExt_stepRel _ s0 s2 ct h2 x i hi0
  refine ⟨i,
    (s2.getSymbolInternal x.getKind
      (mkFunctionType [integerType, s2.d_sortType] (x.getType env)) "bvar" 0).1, n,
    (s2.getSymbolInternal x.getKind
      (mkFunctionType [integerType, s2.d_sortType] (x.getType env)) "bvar" 0).2,
    ?_, ⟨s0, h0⟩, ?_⟩
  · rw [runConvert]
    conv => lhs; zeta
    rw [if_pos hk, if_neg hsym]
    simp only [h0, h2, typeAsNode_of_reflection s2 ct n hn]
  · rw [getSymbolInternal_varIndex]
    exact hi2

/-- C11: on a fresh encoder, after the calls of `getOrAssignIndexForVar` for the
variables `vs`, the call for the variable `x` returns the zero-based position at
which `x` is first seen among the distinct variables of the calls.  In every
later state `s2` of the pass (a state that keeps the entries of the table, as
every call of `getOrAssignIndexForVar`, `convert` and `runConvert` does) the call
for `x` returns that index again and leaves the state, and so the table, as it
is; the encoding of `x` as a bound variable carries that index; and so does the
binder for `x` in the encoding of every closure that binds `x`. -/
theorem varIndex_first_seen_stable (nm : NodeManager) (vs : List Node) (x : Node)
    (hvars : ∀ v ∈ vs, v.isVar = true) (hx : x.isVar = true) :
    ∃ s i s1, assignAll (LfscTermProcessor.new nm) vs = .ok s ∧
      s.getOrAssignIndexForVar x = .ok (i, s1) ∧
      i = firstSeenPosition vs x ∧
      (∀ s2, IndexExt s1 s2 → s2.getOrAssignIndexForVar x = .ok (i, s2)) ∧
      (∀ sa w j sb, LfscTermProcessor.getOrAssignIndexForVar sa w = .ok (j, sb) →
        IndexExt sa sb) ∧
      (∀ env fuel sa n r sb, convert env fuel sa n = .ok (r, sb) → IndexExt sa sb) ∧
      (∀ env fuel sa n r sb, runConvert env fuel sa n = .ok (r, sb) → IndexExt sa sb) ∧
      (∀ env fuel s2, IndexExt s1 s2 → TypesOK s2 → x.getKind = .BOUND_VARIABLE →
        x ∉ s2.d_symbols → (x.getType env).isEncodable = true →
        ∃ bvarOp tc s3, runConvert env (fuel + 1) s2 x =
          .ok (mkNode .APPLY_UF [bvarOp, mkConstRational (i : Nat), tc], s3)) ∧
      (∀ env fuel s2 k p pb vars B rest, IndexExt s1 s2 → TypesOK s2 →
        isClosureKind k = true →
        (∀ v ∈ vars, v.isVar = true ∧ (v.getType env).isEncodable = true) →
        ∃ op data s3,
          runConvert env (fuel + 1) s2 (.mk k p (.mk .BOUND_VAR_LIST pb vars :: B :: rest)) = .ok (binderChain op data B, s3) ∧
          data.length = vars.length ∧
          ∀ q ∈ List.zip vars data, q.1 = x → q.2.1 = i) := by
  obtain ⟨s, s1, hs, hcall⟩ := getOrAssignIndexForVar_firstSeen nm vs x hvars hx
  have hidx := (getOrAssignIndexForVar_index s s1 x _ hcall).2
  refine ⟨s, firstSeenPosition vs x, s1, hs, hcall, rfl, ?_, ?_, ?_, ?_, ?_, ?_⟩
  · intro s2 hext
    exact getOrAssignIndexForVar_of_index s2 x _ hx (hext x _ hidx)
  · intro sa w j sb h
    exact IndexExt_stepRel.index sa w j sb h
  · intro env fuel sa n r sb h
    exact (convert_runConvert_rel IndexExt_stepRel env fuel).1 sa n r sb h
  · intro env fuel sa n r sb h
    exact (convert_runConvert_rel IndexExt_stepRel env fuel).2 sa n r sb h
  · intro env fuel s2 hext hs2 hk hsym ht
    obtain ⟨i, bvarOp, tc, s3, hrun, ⟨s0, h0⟩, -⟩ :=
      runConvert_boundVar_total env fuel s2 x hs2 hk hsym ht
    rw [getOrAssignIndexForVar_of_index s2 x _ hx (hext x _ hidx)] at h0
    simp only [Except.ok.injEq, Prod.mk.injEq] at h0
    rw [← h0.1] at hrun
    exact ⟨bvarOp, tc, s3, hrun⟩
  · intro env fuel s2 k p pb vars B rest hext hs2 hk hv
    obtain ⟨r, s3, hrun⟩ := runConvert_closure_total env fuel s2 k p pb vars B rest hk hs2 hv
    obtain ⟨data, h1, h2, -, h4, hext2⟩ :=
      runConvert_closure_shape env fuel s2 s3 k p pb vars B rest r hk hrun
    refine ⟨_, data, s3, by rw [hrun, h1], h2, ?_⟩
    intro q hq hqx
    have hq1 := h4 q hq
    rw [hqx, getOrAssignIndexForVar_of_index s3 x _ hx (hext2 x _ (hext x _ hidx))] at hq1
    simp only [Except.ok.injEq, Prod.mk.injEq] at hq1
    exact hq1.1.symm

/-- C11 at a concrete input: on the fresh encoder, after the calls for
`y0, y1, y0`, the call for the bound variable `y1` returns 1, and so does every
later call for it. -/
theorem varIndex_first_seen_stable_witness :
    ∃ s s1, assignAll (LfscTermProcessor.new NodeManager.fresh)
        [boundVar 0 booleanType, boundVar 1 integerType, boundVar 0 booleanType] = .ok s ∧
      s.getOrAssignIndexForVar (boundVar 1 integerType) = .ok (1, s1) ∧
      (∀ s2, IndexExt s1 s2 →
        s2.getOrAssignIndexForVar (boundVar 1 integerType) = .ok (1, s2)) ∧
      (∀ env fuel s2, IndexExt s1 s2 → TypesOK s2 →
        boundVar 1 integerType ∉ s2.d_symbols →
        ∃ bvarOp tc s3, runConvert env (fuel + 1) s2 (boundVar 1 integerType) =
          .ok (mkNode .APPLY_UF [bvarOp, mkConstRational ((1 : Nat) : Nat), tc], s3)) := by
  obtain ⟨s, i, s1, h1, h2, h3, h4, -, -, -, h8, -⟩ :=
    varIndex_first_seen_stable NodeManager.fresh
      [boundVar 0 booleanType, boundVar 1 integerType, boundVar 0 booleanType]
      (boundVar 1 integerType) (by decide) rfl
  have hi : i = 1 := by rw [h3]; decide
  subst hi
  exact ⟨s, s1, h1, h2, h4, fun env fuel s2 hext hs2 hsym =>
    h8 env fuel s2 hext hs2 rfl hsym rfl⟩

/-! ## C21, C22, C23: when the closure-check guard does nothing -/

/-- C21: whenever proof production is off, and also whenever eager checking is
off and the diagnostic tag is not traced, `pfgEnsureClosed` does nothing, for
every goal, generator (present or not) and value of `reqGen`: it asks the
generator for no proof and returns normally. -/
theorem pfgEnsureClosed_inactive (opts : Options) (traceOn : String → Bool)
    (proven : Node) (pg : Option ProofGenerator) (c ctx : String) (reqGen : Bool)
    (hoff : opts.proofNew = false ∨
      (opts.proofNewEagerChecking = false ∧ traceOn c = false)) :
    pfgEnsureClosed opts traceOn proven pg c ctx reqGen = { queried := [], outcome := .ok () } := by
  unfold pfgEnsureClosed
  rcases hoff with h | ⟨h1, h2⟩
  · simp [h]
  · cases hp : opts.proofNew <;> simp [h1, h2]

/-- C21 at a concrete input: eager checking off, nothing traced, no generator
although one is required. -/
theorem pfgEnsureClosed_inactive_witness :
    pfgEnsureClosed lazyOptions traceNothing (mkConstBool true) none "tag" "ctx" true =
      { queried := [], outcome := .ok () } :=
  pfgEnsureClosed_inactive lazyOptions traceNothing (mkConstBool true) none "tag" "ctx" true
    (Or.inr ⟨rfl, rfl⟩)

/-- C22, a call whose outcome depends on the tracing: with proof production on
and eager checking off, for a required generator that is absent,
`pfgEnsureClosed` returns normally when the tag is not traced and aborts when it
is; and for a generator that is present it asks for a proof only when the tag is
traced. -/
theorem pfgEnsureClosed_tracing_matters :
    (pfgEnsureClosed lazyOptions traceNothing (mkConstBool true) none "tag" "ctx"
        true).outcome = .ok () ∧
      (pfgEnsureClosed lazyOptions traceTag (mkConstBool true) none "tag" "ctx"
        true).outcome = .error .fatal ∧
      (pfgEnsureClosed lazyOptions traceNothing (mkConstBool true) (some closedGenerator)
        "tag" "ctx" true).queried = [] ∧
      (pfgEnsureClosed lazyOptions traceTag (mkConstBool true) (some closedGenerator)
        "tag" "ctx" true).queried = [mkConstBool true] := by
  refine ⟨rfl, ?_, rfl, ?_⟩
  · simp [pfgEnsureClosed, lazyOptions, traceTag]
  · simp [pfgEnsureClosed, lazyOptions, traceTag, closedGenerator, closedProof,
      ProofNode.isClosed, ProofNode.freeAssumptions, ProofNode.freeAssumptionsList]

/-- C22, as the code has it: with proof production off, and with eager checking
on, what `pfgEnsureClosed` does (return or abort, and whether it asks the
generator) is the same whatever is traced; with proof production on and eager
checking off, it does nothing when the tag is not traced, and when the tag is
traced it does exactly what it does with eager checking on. -/
theorem pfgEnsureClosed_tracing (opts : Options) (traceOn traceOn2 : String → Bool)
    (proven : Node) (pg : Option ProofGenerator) (c ctx : String) (reqGen : Bool) :
    (opts.proofNew = false ∨ opts.proofNewEagerChecking = true →
        pfgEnsureClosed opts traceOn proven pg c ctx reqGen =
          pfgEnsureClosed opts traceOn2 proven pg c ctx reqGen) ∧
      (opts.proofNew = true → opts.proofNewEagerChecking = false → traceOn c = false →
        pfgEnsureClosed opts traceOn proven pg c ctx reqGen =
          { queried := [], outcome := .ok () }) ∧
      (opts.proofNew = true → opts.proofNewEagerChecking = false → traceOn c = true →
        pfgEnsureClosed opts traceOn proven pg c ctx reqGen =
          pfgEnsureClosed { opts with proofNewEagerChecking := true } traceOn2 proven pg c ctx
            reqGen) := by
  unfold pfgEnsureClosed
  refine ⟨?_, ?_, ?_⟩
  · rintro (h | h)
    · simp [h]
    · simp [h]
  · intro h1 h2 h3
    simp [h1, h2, h3]
  · intro h1 h2 h3
    simp [h1, h2, h3]

/-- C22 at a concrete input: eager checking on, a generator with a closed proof,
the tag traced or not. -/
theorem pfgEnsureClosed_tracing_witness :
    pfgEnsureClosed eagerOptions traceTag (mkConstBool true) (some closedGenerator) "tag" "ctx"
        true =
      pfgEnsureClosed eagerOptions traceNothing (mkConstBool true) (some closedGenerator) "tag"
        "ctx" true :=
  (pfgEnsureClosed_tracing eagerOptions traceTag traceNothing (mkConstBool true)
    (some closedGenerator) "tag" "ctx" true).1 (Or.inr rfl)

/-- C24 (code_bug): the name is no part of the key of the symbol cache.  In every
state, a request that matches an earlier one in kind, sort and discriminant and
differs from it in the name is answered with the symbol minted for the earlier
request, and mints nothing; on the fresh encoder, the request for the name "V"
after the request for the name "U" returns the symbol named "U". -/
theorem getSymbolInternal_ignores_name :
    (∀ (s : LfscTermProcessor) (k : Kind) (tn : TypeNode) (name1 name2 : String) (v : Nat),
      (s.getSymbolInternal k tn name1 v).2.getSymbolInternal k tn name2 v =
        ((s.getSymbolInternal k tn name1 v).1, (s.getSymbolInternal k tn name1 v).2)) ∧
    ((freshEncoder.getSymbolInternal .SORT_TYPE freshEncoder.d_sortType "U"
        0).2.getSymbolInternal .SORT_TYPE freshEncoder.d_sortType "V" 0).1 =
      (freshEncoder.getSymbolInternal .SORT_TYPE freshEncoder.d_sortType "U" 0).1 ∧
    ((freshEncoder.getSymbolInternal .SORT_TYPE freshEncoder.d_sortType "U"
        0).2.getSymbolInternal .SORT_TYPE freshEncoder.d_sortType "V" 0).2.nm.getName
      ((freshEncoder.getSymbolInternal .SORT_TYPE freshEncoder.d_sortType "U"
        0).2.getSymbolInternal .SORT_TYPE freshEncoder.d_sortType "V" 0).1 = some "U" := by
  refine ⟨?_, rfl, rfl⟩
  intro s k tn name1 name2 v
  exact getSymbolInternal_of_some _ _ _ _ _ _ (getSymbolInternal_cached s k tn name1 v)

/-! ## C25, C26: function sorts and reflections -/

/-- The loop of `runConvertType` over sorts that have reflections: the sort and
the reflection it builds. -/
theorem runConvertTypeArgs_eq (s : LfscTermProcessor) (arrown : Node)
    (reflect : TypeNode → Node) :
    ∀ (its : List TypeNode), (∀ t ∈ its, mapFind s.d_typeAsNode t = some (reflect t)) →
      ∀ (cur : TypeNode) (tnn : Node),
        s.runConvertTypeArgs arrown its cur tnn =
          .ok (its.foldl (fun c a => mkSortApp s.d_arrow [a, c]) cur,
               its.foldl (fun r a => mkNode .APPLY_UF [arrown, reflect a, r]) tnn) := by
  intro its
  induction its with
  | nil => intro _ cur tnn; rfl
  | cons it rest ih =>
    intro h cur tnn
    rw [runConvertTypeArgs, typeAsNode_of_reflection s it _ (h it (List.mem_cons_self _ _))]
    simp only [List.foldl_cons]
    exact ih (fun t ht => h t (List.mem_cons_of_mem _ ht)) _ _

/-- What `runConvertType` returns for a function sort over sorts that have
reflections. -/
theorem runConvertType_function_eq (s : LfscTermProcessor) (p : TypePayload)
    (args : List TypeNode) (range : TypeNode) (arrown : Node) (reflect : TypeNode → Node)
    (harrow : mapFind s.d_typeAsNode s.d_arrow = some arrown) (hnn : arrown.isNull = false)
    (hrefl : ∀ t ∈ args ++ [range], mapFind s.d_typeAsNode t = some (reflect t))
    (hrange : (reflect range).isNull = false) :
    s.runConvertType (.mk .FUNCTION_TYPE p (args ++ [range])) =
      .ok (args.foldr (fun a c => mkSortApp s.d_arrow [a, c]) range,
        { s with d_typeAsNode := (mapInsert s.d_typeAsNode
            (args.foldr (fun a c => mkSortApp s.d_arrow [a, c]) range)
            (args.foldr (fun a r => mkNode .APPLY_UF [arrown, reflect a, r])
              (reflect range))) }) := by
  unfold runConvertType
  have h1 : (TypeNode.mk .FUNCTION_TYPE p (args ++ [range])).getKind = .FUNCTION_TYPE := rfl
  have h2 : (TypeNode.mk .FUNCTION_TYPE p (args ++ [range])).getRangeType = range := by
    simp [TypeNode.getRangeType, TypeNode.getChildren]
  have h3 : (TypeNode.mk .FUNCTION_TYPE p (args ++ [range])).getArgTypes = args := by
    simp [TypeNode.getArgTypes, TypeNode.getChildren]
  have hr : mapFind s.d_typeAsNode range = some (reflect range) :=
    hrefl range (by simp)
  have hargs : ∀ t ∈ args.reverse, mapFind s.d_typeAsNode t = some (reflect t) := by
    intro t ht
    exact hrefl t (List.mem_append_left _ (List.mem_reverse.1 ht))
  have hloop := runConvertTypeArgs_eq s arrown reflect args.reverse hargs range (reflect range)
  have hres := runConvertTypeArgs_not_null s arrown _ _ _ _ _ hrange hloop
  simp only [h1, if_true, harrow, hnn, h2, h3, typeAsNode_of_reflection s range _ hr, hloop,
    hres]
  simp only [List.foldl_reverse, Bool.false_eq_true, if_false]

/-- In the state `runConvertType` leaves, the sort it returns has a reflection
that is not null. -/
theorem runConvertType_reflection (s s1 : LfscTermProcessor) (tn r : TypeNode)
    (h : s.runConvertType tn = .ok (r, s1)) :
    ∃ n, mapFind s1.d_typeAsNode r = some n ∧ n.isNull = false := by
  unfold runConvertType at h
  simp only at h
  split at h
  · split at h
    · cases h
    · split at h
      · cases h
      · split at h
        · cases h
        · split at h
          · cases h
          · split at h
            · cases h
            · next hnn =>
              simp only [Except.ok.injEq, Prod.mk.injEq] at h
              obtain ⟨h1, h2⟩ := h
              subst h1
              rw [← h2]
              exact ⟨_, mapFind_mapInsert_self _ _ _, by simpa using hnn⟩
  · split at h
    · split at h
      · cases h
      · next hnn =>
        simp only [Except.ok.injEq, Prod.mk.injEq] at h
        obtain ⟨h1, h2⟩ := h
        subst h1
        rw [← h2]
        exact ⟨_, mapFind_mapInsert_self _ _ _, by simpa using hnn⟩
    · cases h

/-- C25: for a function sort `(-> T1 ... Tn T)` whose argument sorts and range
sort have reflections (not null, as that of the arrow constructor, which holds
in every state the encoder reaches), `runConvertType` returns the sort
`arrow(T1, arrow(T2, ... arrow(Tn, T)))`, the right-nested application of the
arrow constructor to the `n` argument sorts, and records as its reflection the
same nesting `arrowSym(reflect(T1), ... arrowSym(reflect(Tn), reflect(T)))` of
the reflection of the arrow constructor over the reflections; nothing else in
the state changes. -/
theorem runConvertType_function_sort (s : LfscTermProcessor) (p : TypePayload)
    (args : List TypeNode) (range : TypeNode) (arrown : Node) (reflect : TypeNode → Node)
    (harrow : mapFind s.d_typeAsNode s.d_arrow = some arrown) (hnn : arrown.isNull = false)
    (hrefl : ∀ t ∈ args ++ [range], mapFind s.d_typeAsNode t = some (reflect t))
    (hrange : (reflect range).isNull = false) :
    ∃ s1, s.runConvertType (.mk .FUNCTION_TYPE p (args ++ [range])) =
        .ok (args.foldr (fun a c => mkSortApp s.d_arrow [a, c]) range, s1) ∧
      s1.typeAsNode (args.foldr (fun a c => mkSortApp s.d_arrow [a, c]) range) =
        .ok (args.foldr (fun a r => mkNode .APPLY_UF [arrown, reflect a, r]) (reflect range)) ∧
      s1 = { s with d_typeAsNode := (mapInsert s.d_typeAsNode
        (args.foldr (fun a c => mkSortApp s.d_arrow [a, c]) range)
        (args.foldr (fun a r => mkNode .APPLY_UF [arrown, reflect a, r])
          (reflect range))) } := by
  refine ⟨_, runConvertType_function_eq s p args range arrown reflect harrow hnn hrefl hrange,
    ?_, rfl⟩
  exact typeAsNode_of_reflection _ _ _ (mapFind_mapInsert_self _ _ _)

/-- C25 at a concrete input: the function sort `(-> Bool Bool Bool)` on the
encoder that has processed `Bool`. -/
theorem runConvertType_function_sort_witness :
    ∃ s1, encoderWithBool.runConvertType
          (.mk .FUNCTION_TYPE .none ([booleanType, booleanType] ++ [booleanType])) =
        .ok ([booleanType, booleanType].foldr
          (fun a c => mkSortApp encoderWithBool.d_arrow [a, c]) booleanType, s1) ∧
      s1.typeAsNode ([booleanType, booleanType].foldr
          (fun a c => mkSortApp encoderWithBool.d_arrow [a, c]) booleanType) =
        .ok ([booleanType, booleanType].foldr
          (fun a r => mkNode .APPLY_UF
            [(mapFind encoderWithBool.d_typeAsNode encoderWithBool.d_arrow).getD Node.null,
             (mapFind encoderWithBool.d_typeAsNode a).getD Node.null, r])
          ((mapFind encoderWithBool.d_typeAsNode booleanType).getD Node.null)) ∧
      s1 = { encoderWithBool with d_typeAsNode := (mapInsert encoderWithBool.d_typeAsNode
        ([booleanType, booleanType].foldr
          (fun a c => mkSortApp encoderWithBool.d_arrow [a, c]) booleanType)
        ([booleanType, booleanType].foldr
          (fun a r => mkNode .APPLY_UF
            [(mapFind encoderWithBool.d_typeAsNode encoderWithBool.d_arrow).getD Node.null,
             (mapFind encoderWithBool.d_typeAsNode a).getD Node.null, r])
          ((mapFind encoderWithBool.d_typeAsNode booleanType).getD Node.null))) } :=
  runConvertType_function_sort encoderWithBool .none [booleanType, booleanType] booleanType
    ((mapFind encoderWithBool.d_typeAsNode encoderWithBool.d_arrow).getD Node.null)
    (fun t => (mapFind encoderWithBool.d_typeAsNode t).getD Node.null)
    rfl (by decide) (by decide) (by decide)

/-- C26: `typeAsNode(t)` aborts, by its `AlwaysAssert`, if and only if `t` has no
entry in `d_typeAsNode`, and returns the entry otherwise (it is a `const` member
and returns nothing but the term); in the state `runConvertType(tn)` leaves when
it returns a sort `r`, `typeAsNode(r)` returns a term that is not null; and
`runConvertType` does return, in a state that satisfies the invariant of the
sort tables, for a childless sort that is no function sort and for a function
sort whose children have reflections. -/
theorem typeAsNode_fails_iff (s : LfscTermProcessor) (t : TypeNode) :
    (s.typeAsNode t = .error .fatal ↔ mapFind s.d_typeAsNode t = none) ∧
      (∀ e, s.typeAsNode t = .error e → e = .fatal) ∧
      (∀ n, mapFind s.d_typeAsNode t = some n → s.typeAsNode t = .ok n) ∧
      (∀ tn r s1, s.runConvertType tn = .ok (r, s1) →
        ∃ n, s1.typeAsNode r = .ok n ∧ n.isNull = false) ∧
      (TypesOK s → ∀ k p, k ≠ .FUNCTION_TYPE →
        ∃ s1, s.runConvertType (.mk k p []) = .ok (.mk k p [], s1)) ∧
      (TypesOK s → ∀ p cs, cs ≠ [] → (∀ c ∈ cs, ∃ n, mapFind s.d_typeAsNode c = some n) →
        ∃ r s1, s.runConvertType (.mk .FUNCTION_TYPE p cs) = .ok (r, s1)) := by
  refine ⟨?_, ?_, ?_, ?_, ?_, ?_⟩
  · unfold typeAsNode
    cases mapFind s.d_typeAsNode t <;> simp
  · intro e he
    unfold typeAsNode at he
    cases hm : mapFind s.d_typeAsNode t with
    | none => simp only [hm, Except.error.injEq] at he; exact he.symm
    | some n => simp [hm] at he
  · intro n hn
    exact typeAsNode_of_reflection s t n hn
  · intro tn r s1 h
    obtain ⟨n, hn, hnn⟩ := runConvertType_reflection s s1 tn r h
    exact ⟨n, typeAsNode_of_reflection s1 r n hn, hnn⟩
  · intro hs k p hk
    exact runConvertType_atomic_total s hs.symbols k p hk
  · intro hs p cs hne hcs
    exact runConvertType_function_total s hs p cs hne hcs

/-- C26 at a concrete input: on the fresh encoder `Bool` has no reflection, and
`runConvertType(Bool)` returns. -/
theorem typeAsNode_fails_iff_witness :
    freshEncoder.typeAsNode booleanType = .error .fatal ∧
      ∃ s1, freshEncoder.runConvertType (.mk .TYPE_CONSTANT (.typeConst "Bool") []) =
          .ok (.mk .TYPE_CONSTANT (.typeConst "Bool") [], s1) ∧
        ∃ n, s1.typeAsNode (.mk .TYPE_CONSTANT (.typeConst "Bool") []) = .ok n ∧
          n.isNull = false := by
  have T := typeAsNode_fails_iff freshEncoder booleanType
  obtain ⟨s1, h1⟩ := T.2.2.2.2.1 (TypesOK_new NodeManager.fresh) .TYPE_CONSTANT
    (.typeConst "Bool") (by decide)
  exact ⟨T.1.2 rfl, s1, h1, T.2.2.2.1 _ _ _ h1⟩

/-! ## C27: the encoding of a bound variable -/

theorem mem_setInsert {α : Type} [DecidableEq α] (l : List α) (a b : α) :
    b ∈ setInsert l a ↔ b = a ∨ b ∈ l := by
  unfold setInsert
  split
  · constructor
    · exact Or.inr
    · rintro (rfl | h)
      · assumption
      · exact h
  · simp

theorem getOrAssignIndexForVar_symbols (s s1 : LfscTermProcessor) (v : Node) (i : Nat)
    (h : s.getOrAssignIndexForVar v = .ok (i, s1)) :
    s1.d_symbols = s.d_symbols ∧ s1.d_symbolsMap = s.d_symbolsMap := by
  unfold getOrAssignIndexForVar at h
  split at h
  · split at h
    · simp only [Except.ok.injEq, Prod.mk.injEq] at h
      rw [← h.2]; exact ⟨rfl, rfl⟩
    · simp only [Except.ok.injEq, Prod.mk.injEq] at h
      rw [← h.2]; exact ⟨rfl, rfl⟩
  · cases h

/-- The relation `MintedGrows` holds across every elementary change of state. -/
theorem MintedGrows_stepRel : StepRel MintedGrows where
  rel_refl := fun _ => ⟨fun h => h, fun _ h => h⟩
  rel_trans := fun _ _ _ h12 h23 =>
    ⟨fun h => h23.minted (h12.minted h), fun sym h => h23.symbols sym (h12.symbols sym h)⟩
  symbol := fun s k tn name v => by
    cases hf : mapFind s.d_symbolsMap (k, tn, v) with
    | some sym0 =>
      rw [getSymbolInternal_of_some _ _ _ _ _ _ hf]
      exact ⟨fun h => h, fun _ h => h⟩
    | none =>
      rw [getSymbolInternal_of_none _ _ _ _ _ hf]
      refine ⟨?_, ?_⟩
      · intro hm key sym h
        simp only at h ⊢
        rw [mem_setInsert]
        by_cases hk : (k, tn, v) = key
        · subst hk
          rw [mapFind_mapInsert_self] at h
          cases h
          exact Or.inl rfl
        · rw [mapFind_mapInsert_ne _ _ _ _ hk] at h
          exact Or.inr (hm key sym h)
      · intro sym h
        simp only
        rw [mem_setInsert]
        exact Or.inr h
  index := fun s v i s1 h => by
    obtain ⟨e1, e2⟩ := getOrAssignIndexForVar_symbols s s1 v i h
    refine ⟨fun hm key sym hk => ?_, fun sym hs => ?_⟩
    · rw [e1]; rw [e2] at hk; exact hm key sym hk
    · rw [e1]; exact hs
  reflect := fun _ _ _ _ => ⟨fun h => h, fun _ h => h⟩
  tmemo := fun _ _ _ _ => ⟨fun h => h, fun _ h => h⟩
  memo := fun _ _ _ => ⟨fun h => h, fun _ h => h⟩

/-- Right after the constructor every symbol of the symbol cache is an internal
symbol. -/
theorem SymbolsMinted_new (nm : NodeManager) : SymbolsMinted (LfscTermProcessor.new nm) := by
  have hg : MintedGrows
      { nm := ((nm.mkSortConstructor "arrow" 2).2.mkSort "sortType").2,
        d_arrow := (nm.mkSortConstructor "arrow" 2).1,
        d_sortType := ((nm.mkSortConstructor "arrow" 2).2.mkSort "sortType").1,
        d_typeAsNode := [], d_symbols := [], d_symbolsMap := [], d_varIndex := [],
        d_cache := [], d_tcache := [] }
      (LfscTermProcessor.new nm) :=
    MintedGrows_stepRel.rel_trans _ _ _ (MintedGrows_stepRel.symbol _ .FUNCTION_TYPE
      (mkFunctionType [((nm.mkSortConstructor "arrow" 2).2.mkSort "sortType").1,
        ((nm.mkSortConstructor "arrow" 2).2.mkSort "sortType").1]
        ((nm.mkSortConstructor "arrow" 2).2.mkSort "sortType").1) "arrow" 0)
      ⟨fun h => h, fun _ h => h⟩
  exact hg.minted (fun key sym h => by cases h)

/-- The symbol a request returns is a bound variable in the set of internal
symbols of the state the request leaves. -/
theorem getSymbolInternal_minted (s : LfscTermProcessor) (hs : SymbolsOK s)
    (hm : SymbolsMinted s) (k : Kind) (tn : TypeNode) (name : String) (v : Nat) :
    (s.getSymbolInternal k tn name v).1.getKind = .BOUND_VARIABLE ∧
      (s.getSymbolInternal k tn name v).1 ∈ (s.getSymbolInternal k tn name v).2.d_symbols := by
  obtain ⟨id, hid⟩ := getSymbolInternal_sort s hs k tn name v
  refine ⟨by rw [hid]; rfl, ?_⟩
  exact (MintedGrows_stepRel.symbol s k tn name v).minted hm _ _
    (getSymbolInternal_cached s k tn name v)

/-- The encoding of an internal symbol is the symbol. -/
theorem runConvert_internal_symbol (env : Env) (fuel : Nat) (s : LfscTermProcessor) (n : Node)
    (hk : n.getKind = .BOUND_VARIABLE) (hsym : n ∈ s.d_symbols) :
    runConvert env (fuel + 1) s n = .ok (n, s) := by
  rw [runConvert]
  conv => lhs; zeta
  rw [if_pos hk, if_pos hsym]

/-- Whenever `runConvert` returns for a bound variable that is no internal
symbol, it returns the application of the symbol `bvar` to the index of the
variable and the reflection of its converted sort. -/
theorem runConvert_boundVar_inv (env : Env) (fuel : Nat) (s s1 : LfscTermProcessor)
    (n r : Node) (hk : n.getKind = .BOUND_VARIABLE) (hsym : n ∉ s.d_symbols)
    (h : runConvert env (fuel + 1) s n = .ok (r, s1)) :
    ∃ i s0 ct s2 tc,
      s.getOrAssignIndexForVar n = .ok (i, s0) ∧
      convertType s0 (n.getType env) = .ok (ct, s2) ∧
      s2.typeAsNode ct = .ok tc ∧
      r = mkNode .APPLY_UF
        [(s2.getSymbolInternal .BOUND_VARIABLE
            (mkFunctionType [integerType, s2.d_sortType] (n.getType env)) "bvar" 0).1,
         mkConstRational (i : Nat), tc] ∧
      s1 = (s2.getSymbolInternal .BOUND_VARIABLE
            (mkFunctionType [integerType, s2.d_sortType] (n.getType env)) "bvar" 0).2 := by
  rw [runConvert] at h
  conv at h => lhs; zeta
  rw [if_pos hk, if_neg hsym, hk] at h
  split at h
  · cases h
  · next idx s0 hv =>
    split at h
    · cases h
    · next ct s2 hct =>
      split at h
      · cases h
      · next tc htc =>
        simp only [Except.ok.injEq, Prod.mk.injEq] at h
        exact ⟨idx, s0, ct, s2, tc, hv, hct, htc, h.1.symm, h.2.symm⟩

/-- C27: `runConvert` applied to a bound variable that is in the set of internal
symbols returns it unchanged and leaves the state; the symbols the encoder mints
(what `getSymbolInternal` returns, in a state that satisfies the invariants of
the symbol cache) are bound variables in that set and stay in it, so their
encoding is the identity in every later state.  Applied to a bound variable `n`
that is not in the set, `runConvert`, whenever it returns, returns
`(bvar i S)`, the application of the symbol cached for `bvar` to the index
`i = getOrAssignIndexForVar(n)` and the reflection `S = typeAsNode(convertType(T))`
of the converted sort of `n`; and it does return, in a state that satisfies the
invariant of the sort tables, when the sort of `n` is one the encoder
reflects. -/
theorem runConvert_bound_variable (env : Env) (fuel : Nat) (s : LfscTermProcessor) (n : Node)
    (hk : n.getKind = .BOUND_VARIABLE) :
    (n ∈ s.d_symbols → runConvert env (fuel + 1) s n = .ok (n, s)) ∧
      (∀ (s0 : LfscTermProcessor) (k : Kind) (tn : TypeNode) (name : String) (v : Nat),
        SymbolsOK s0 → SymbolsMinted s0 →
        ∀ s2, MintedGrows (s0.getSymbolInternal k tn name v).2 s2 →
          runConvert env (fuel + 1) s2 (s0.getSymbolInternal k tn name v).1 =
            .ok ((s0.getSymbolInternal k tn name v).1, s2)) ∧
      (n ∉ s.d_symbols → ∀ r s1, runConvert env (fuel + 1) s n = .ok (r, s1) →
        ∃ i s0 ct s2 tc,
          s.getOrAssignIndexForVar n = .ok (i, s0) ∧
          convertType s0 (n.getType env) = .ok (ct, s2) ∧
          s2.typeAsNode ct = .ok tc ∧
          r = mkNode .APPLY_UF
            [(s2.getSymbolInternal .BOUND_VARIABLE
                (mkFunctionType [integerType, s2.d_sortType] (n.getType env)) "bvar" 0).1,
             mkConstRational (i : Nat), tc]) ∧
      (n ∉ s.d_symbols → TypesOK s → (n.getType env).isEncodable = true →
        ∃ r s1, runConvert env (fuel + 1) s n = .ok (r, s1)) := by
  refine ⟨runConvert_internal_symbol env fuel s n hk, ?_, ?_, ?_⟩
  · intro s0 k tn name v hs hm s2 hg
    obtain ⟨h1, h2⟩ := getSymbolInternal_minted s0 hs hm k tn name v
    exact runConvert_internal_symbol env fuel s2 _ h1 (hg.symbols _ h2)
  · intro hsym r s1 h
    obtain ⟨i, s0, ct, s2, tc, h1, h2, h3, h4, -⟩ :=
      runConvert_boundVar_inv env fuel s s1 n r hk hsym h
    exact ⟨i, s0, ct, s2, tc, h1, h2, h3, h4⟩
  · intro hsym hs ht
    obtain ⟨i, bvarOp, tc, s1, h, -, -⟩ := runConvert_boundVar_total env fuel s n hs hk hsym ht
    exact ⟨_, s1, h⟩

/-- C27 at a concrete input: on the fresh encoder, the bound variable `y0` of
sort `Bool` is encoded as `(bvar 0 S)`, and the symbol minted for `bvar` is
encoded as itself. -/
theorem runConvert_bound_variable_witness :
    (∃ r s1, runConvert exampleEnv (0 + 1) freshEncoder (boundVar 0 booleanType) = .ok (r, s1) ∧
      ∃ i s0 ct s2 tc,
        freshEncoder.getOrAssignIndexForVar (boundVar 0 booleanType) = .ok (i, s0) ∧
        convertType s0 ((boundVar 0 booleanType).getType exampleEnv) = .ok (ct, s2) ∧
        s2.typeAsNode ct = .ok tc ∧
        r = mkNode .APPLY_UF
          [(s2.getSymbolInternal .BOUND_VARIABLE
              (mkFunctionType [integerType, s2.d_sortType]
                ((boundVar 0 booleanType).getType exampleEnv)) "bvar" 0).1,
           mkConstRational (i : Nat), tc]) ∧
      runConvert exampleEnv (0 + 1)
          (freshEncoder.getSymbolInternal .BOUND_VARIABLE booleanType "bvar" 0).2
          (freshEncoder.getSymbolInternal .BOUND_VARIABLE booleanType "bvar" 0).1 =
        .ok ((freshEncoder.getSymbolInternal .BOUND_VARIABLE booleanType "bvar" 0).1,
          (freshEncoder.getSymbolInternal .BOUND_VARIABLE booleanType "bvar" 0).2) := by
  have T := runConvert_bound_variable exampleEnv 0 freshEncoder (boundVar 0 booleanType) rfl
  have hsym : boundVar 0 booleanType ∉ freshEncoder.d_symbols := by decide
  obtain ⟨r, s1, h⟩ := T.2.2.2 hsym (TypesOK_new NodeManager.fresh) rfl
  exact ⟨⟨r, s1, h, T.2.2.1 hsym r s1 h⟩,
    T.2.1 freshEncoder .BOUND_VARIABLE booleanType "bvar" 0 (SymbolsOK_new NodeManager.fresh)
      (SymbolsMinted_new NodeManager.fresh) _ (MintedGrows_stepRel.rel_refl _)⟩

/-! ## C28: skolems are encoded by their witness forms -/

/-- The skolem case of `runConvert`. -/
theorem runConvert_skolem_eq (env : Env) (fuel : Nat) (s : LfscTermProcessor) (n : Node)
    (hk : n.getKind = .SKOLEM) :
    runConvert env (fuel + 1) s n =
      match convert env fuel s (env.getWitnessForm n) with
      | .error e => .error e
      | .ok (wi, s1) =>
        .ok (mkNode .APPLY_UF
          [(s1.getSymbolInternal .SKOLEM (mkFunctionType [n.getType env] (n.getType env))
              "skolem" 0).1, wi],
          (s1.getSymbolInternal .SKOLEM (mkFunctionType [n.getType env] (n.getType env))
              "skolem" 0).2) := by
  have h1 : n.getKind ≠ .BOUND_VARIABLE := by rw [hk]; decide
  rw [runConvert]
  conv => lhs; zeta
  rw [if_neg h1, if_pos hk, hk]

/-- C28: for a skolem `n`, `runConvert(n)` returns exactly when the conversion
of the witness form of `n` returns, and then it returns the unary application
`(skolem W)` of the symbol cached for the kind `SKOLEM` and the function sort
from the sort of `n` to itself to the encoding `W` of the witness form; the
result is an application, not `n` itself. -/
theorem runConvert_skolem (env : Env) (fuel : Nat) (s : LfscTermProcessor) (n : Node)
    (hk : n.getKind = .SKOLEM) :
    (∀ wi s1, convert env fuel s (env.getWitnessForm n) = .ok (wi, s1) →
        runConvert env (fuel + 1) s n =
          .ok (mkNode .APPLY_UF
            [(s1.getSymbolInternal .SKOLEM (mkFunctionType [n.getType env] (n.getType env))
                "skolem" 0).1, wi],
            (s1.getSymbolInternal .SKOLEM (mkFunctionType [n.getType env] (n.getType env))
                "skolem" 0).2)) ∧
      (∀ r s2, runConvert env (fuel + 1) s n = .ok (r, s2) →
        r ≠ n ∧ r.getKind = .APPLY_UF ∧
        ∃ wi s1, convert env fuel s (env.getWitnessForm n) = .ok (wi, s1) ∧
          r = mkNode .APPLY_UF
            [(s1.getSymbolInternal .SKOLEM (mkFunctionType [n.getType env] (n.getType env))
                "skolem" 0).1, wi] ∧
          mapFind s2.d_symbolsMap
              (.SKOLEM, mkFunctionType [n.getType env] (n.getType env), 0) =
            some (s1.getSymbolInternal .SKOLEM
              (mkFunctionType [n.getType env] (n.getType env)) "skolem" 0).1) ∧
      (∀ e, convert env fuel s (env.getWitnessForm n) = .error e →
        runConvert env (fuel + 1) s n = .error e) := by
  refine ⟨?_, ?_, ?_⟩
  · intro wi s1 h
    rw [runConvert_skolem_eq env fuel s n hk, h]
  · intro r s2 h
    rw [runConvert_skolem_eq env fuel s n hk] at h
    split at h
    · cases h
    · next wi s1 hc =>
      simp only [Except.ok.injEq, Prod.mk.injEq] at h
      obtain ⟨h1, h2⟩ := h
      subst h1; subst h2
      refine ⟨?_, rfl, wi, s1, hc, rfl, getSymbolInternal_cached _ _ _ _ _⟩
      intro e
      have := congrArg Node.getKind e
      rw [hk] at this
      cases this
  · intro e h
    rw [runConvert_skolem_eq env fuel s n hk, h]

/-- C28 at a concrete input: a skolem whose witness form is the constant `true`,
on the fresh encoder. -/
theorem runConvert_skolem_witness :
    ∃ wi s1, convert witnessEnv (0 + 1 + 1) freshEncoder
        (witnessEnv.getWitnessForm (skolemVar 0 booleanType)) = .ok (wi, s1) ∧
      runConvert witnessEnv (0 + 1 + 1 + 1) freshEncoder (skolemVar 0 booleanType) =
        .ok (mkNode .APPLY_UF
          [(s1.getSymbolInternal .SKOLEM
              (mkFunctionType [(skolemVar 0 booleanType).getType witnessEnv]
                ((skolemVar 0 booleanType).getType witnessEnv)) "skolem" 0).1, wi],
          (s1.getSymbolInternal .SKOLEM
              (mkFunctionType [(skolemVar 0 booleanType).getType witnessEnv]
                ((skolemVar 0 booleanType).getType witnessEnv)) "skolem" 0).2) := by
  obtain ⟨wi, s1, h⟩ := convert_constBool_total witnessEnv 0 freshEncoder true
  exact ⟨wi, s1, h,
    (runConvert_skolem witnessEnv (0 + 1 + 1) freshEncoder (skolemVar 0 booleanType) rfl).1
      wi s1 h⟩

/-! ## C30: chains without a terminator -/

theorem unterminated_kind_cases (k : Kind) (hn : isNAryKind k = true)
    (hnull : (getNullTerminator k).isNull = true) (hd : k ≠ .DISTINCT)
    (hp : isParameterized k = false) :
    k = .REGEXP_UNION ∨ k = .REGEXP_INTER ∨ k = .BITVECTOR_CONCAT ∨ k = .BITVECTOR_AND ∨
      k = .BOUND_VAR_LIST ∨ k = .SEXPR := by
  cases k <;> simp [isNAryKind] at hn <;> simp [isParameterized] at hp <;>
    first
    | exact absurd rfl hd
    | (exfalso; revert hnull; decide)
    | simp

/-- C30: for an operator of unbounded arity that has no null terminator and is
not `DISTINCT` (and is not parameterized, which `runConvert` asserts), applied to
the operands `a1 ... a(k-1) ak`, `k >= 2`, `runConvert` returns, with the state
unchanged, the chain `op(a1, op(a2, ... op(a(k-1), ak)))`: one binary link for each
operand but the last, in the order of the operands, the innermost link joining
the last two operands. -/
theorem runConvert_unterminated_chain (env : Env) (fuel : Nat) (s : LfscTermProcessor)
    (k : Kind) (p : Payload) (init : List Node) (last : Node)
    (hn : isNAryKind k = true) (hnull : (getNullTerminator k).isNull = true)
    (hd : k ≠ .DISTINCT) (hp : isParameterized k = false) (hne : init ≠ []) :
    runConvert env (fuel + 1) s (.mk k p (init ++ [last])) =
      .ok (init.foldr (fun a r => mkNode k [a, r]) last, s) := by
  have hlen : 2 ≤ (init ++ [last]).length := by
    cases init with
    | nil => exact absurd rfl hne
    | cons a rest => simp
  have hrev : (init ++ [last]).reverse = last :: init.reverse := by simp
  rw [runConvert]
  rcases unterminated_kind_cases k hn hnull hd hp with rfl | rfl | rfl | rfl | rfl | rfl <;>
    simp [Node.getKind, Node.isClosure, isClosureKind, isNAryKind, Node.getNumChildren,
      Node.getChildren, isParameterized, hlen, getNullTerminator, null_isNull, hrev,
      chainLoop_null, List.foldl_reverse, hne]

/-- C30 at a concrete input: the union of three regular expressions. -/
theorem runConvert_unterminated_chain_witness :
    runConvert exampleEnv (0 + 1) freshEncoder
        (.mk .REGEXP_UNION .none ([boolVar 0, boolVar 1] ++ [boolVar 2])) =
      .ok ([boolVar 0, boolVar 1].foldr (fun a r => mkNode .REGEXP_UNION [a, r]) (boolVar 2),
        freshEncoder) :=
  runConvert_unterminated_chain exampleEnv 0 freshEncoder .REGEXP_UNION .none
    [boolVar 0, boolVar 1] (boolVar 2) rfl rfl (by decide) rfl (by decide)

/-! ## C29: string literals -/

/-- The encoding of a one-element literal. -/
theorem runConvert_char (env : Env) (fuel : Nat) (s : LfscTermProcessor) (c : Nat) :
    runConvert env (fuel + 1) s (mkConstString [c]) =
      .ok (charTerm (s.getSymbolInternal .CONST_STRING (charKey env c).2.1 "char" 0).1 c,
        (s.getSymbolInternal .CONST_STRING (charKey env c).2.1 "char" 0).2) := by
  rw [runConvert]
  simp [mkConstString, Node.getKind, Node.getVec, charTerm, charKey]

theorem decodeChar_charTerm (sym : Node) (c : Nat) : decodeChar (charTerm sym c) = some c := by
  simp [charTerm, mkNode, mkConstRational, decodeChar]

theorem decodeString_charTerm (sym : Node) (c : Nat) :
    decodeString (charTerm sym c) = some [c] := by
  simp [charTerm, mkNode, mkConstRational, decodeString, decodeChar]

theorem decodeString_link (sym : Node) (c : Nat) (r : Node) (cs : List Nat)
    (h : decodeString r = some cs) :
    decodeString (mkNode .STRING_CONCAT [charTerm sym c, r]) = some (c :: cs) := by
  have hc := decodeChar_charTerm sym c
  simp [mkNode, decodeString, h] at hc ⊢
  rw [hc]

theorem decodeString_chain (syms : List Node) (cinit : List Nat) (symLast : Node)
    (clast : Nat) (hlen : syms.length = cinit.length) :
    decodeString ((List.zipWith charTerm syms cinit).foldr
        (fun a r => mkNode .STRING_CONCAT [a, r]) (charTerm symLast clast)) =
      some (cinit ++ [clast]) := by
  induction cinit generalizing syms with
  | nil => simp [decodeString_charTerm]
  | cons c cs ih =>
    cases syms with
    | nil => simp at hlen
    | cons sym syms =>
      simp only [List.zipWith_cons_cons, List.foldr_cons, List.cons_append]
      exact decodeString_link sym c _ _ (ih syms (by simpa using hlen))

/-- The loop of the `CONST_STRING` case: the links it adds, and the symbols of
their `(char c)` terms. -/
theorem stringLoop_chars (env : Env) (fuel : Nat) :
    ∀ (cs : List Nat) (s : LfscTermProcessor) (ret : Node),
      ∃ syms s1, syms.length = cs.length ∧
        stringLoop (runConvert env (fuel + 1)) s cs ret =
          .ok ((List.zipWith charTerm syms cs).foldl
            (fun r a => mkNode .STRING_CONCAT [a, r]) ret, s1) ∧
        SymExt s s1 ∧
        ∀ q ∈ List.zip syms cs, mapFind s1.d_symbolsMap (charKey env q.2) = some q.1 := by
  intro cs
  induction cs with
  | nil =>
    intro s ret
    exact ⟨[], s, rfl, rfl, SymExt.ext_refl s, by simp⟩
  | cons c cs ih =>
    intro s ret
    obtain ⟨syms, s1, hlen, hrun, hext, hz⟩ :=
      ih (s.getSymbolInternal .CONST_STRING (charKey env c).2.1 "char" 0).2
        (mkNode .STRING_CONCAT
          [charTerm (s.getSymbolInternal .CONST_STRING (charKey env c).2.1 "char" 0).1 c, ret])
    refine ⟨(s.getSymbolInternal .CONST_STRING (charKey env c).2.1 "char" 0).1 :: syms, s1,
      by simp [hlen], ?_, ?_, ?_⟩
    · rw [stringLoop, runConvert_char]
      simp only [hrun, List.zipWith_cons_cons, List.foldl_cons]
    · exact SymExt.ext_trans (fun key sym h => getSymbolInternal_extends s _ _ _ _ key sym h) hext
    · intro q hq
      rw [List.zip_cons_cons, List.mem_cons] at hq
      rcases hq with rfl | hq
      · exact hext _ _ (getSymbolInternal_cached s _ _ _ _)
      · exact hz q hq

/-- What `runConvert` returns for a literal with at least one code point. -/
theorem runConvert_string_chain (env : Env) (fuel : Nat) (s : LfscTermProcessor)
    (cinit : List Nat) (clast : Nat) :
    ∃ syms symLast s1,
      runConvert env (fuel + 1 + 1) s (mkConstString (cinit ++ [clast])) =
        .ok ((List.zipWith charTerm syms cinit).foldr
          (fun a r => mkNode .STRING_CONCAT [a, r]) (charTerm symLast clast), s1) ∧
      syms.length = cinit.length ∧
      mapFind s1.d_symbolsMap (charKey env clast) = some symLast ∧
      ∀ q ∈ List.zip syms cinit, mapFind s1.d_symbolsMap (charKey env q.2) = some q.1 := by
  cases hc : cinit with
  | nil =>
    refine ⟨[], (s.getSymbolInternal .CONST_STRING (charKey env clast).2.1 "char" 0).1,
      (s.getSymbolInternal .CONST_STRING (charKey env clast).2.1 "char" 0).2, ?_, rfl,
      getSymbolInternal_cached s _ _ _ _, by simp⟩
    simp only [List.nil_append, List.zipWith_nil_left, List.foldr_nil]
    exact runConvert_char env (fuel + 1) s clast
  | cons c0 crest =>
    rw [← hc]
    have hne : cinit ≠ [] := by rw [hc]; simp
    have hlen0 : (cinit ++ [clast]).length ≠ 0 := by simp
    have hlen1 : (cinit ++ [clast]).length ≠ 1 := by
      rw [hc]; simp
    have hrev : (cinit ++ [clast]).reverse = clast :: cinit.reverse := by simp
    obtain ⟨syms, s1, hlen, hrun, hext, hz⟩ := stringLoop_chars env fuel cinit.reverse
      (s.getSymbolInternal .CONST_STRING (charKey env clast).2.1 "char" 0).2
      (charTerm (s.getSymbolInternal .CONST_STRING (charKey env clast).2.1 "char" 0).1 clast)
    have hlen2 : syms.reverse.length = cinit.length := by
      rw [List.length_reverse, hlen, List.length_reverse]
    refine ⟨syms.reverse, (s.getSymbolInternal .CONST_STRING (charKey env clast).2.1 "char" 0).1,
      s1, ?_, hlen2, hext _ _ (getSymbolInternal_cached s _ _ _ _), ?_⟩
    · have hk : (mkConstString (cinit ++ [clast])).getKind = .CONST_STRING := rfl
      have hv : (mkConstString (cinit ++ [clast])).getVec = cinit ++ [clast] := rfl
      rw [runConvert]
      conv => lhs; zeta
      rw [hk, hv]
      simp only [reduceCtorEq, if_false, if_true, hlen0, hlen1, hrev, List.getD_cons_zero,
        List.drop_succ_cons, List.drop_zero, runConvert_char, hrun]
      congr 2
      have hz2 : List.zipWith charTerm syms.reverse cinit =
          (List.zipWith charTerm syms cinit.reverse).reverse := by
        rw [List.reverse_zipWith (by rw [hlen]), List.reverse_reverse]
      rw [hz2, List.foldr_reverse]
    · intro q hq
      have hq2 : q ∈ List.zip syms cinit.reverse := by
        have hrevz : (List.zip syms.reverse cinit).reverse = List.zip syms cinit.reverse := by
          unfold List.zip
          rw [List.reverse_zipWith hlen2, List.reverse_reverse]
        rw [← hrevz, List.mem_reverse]
        exact hq
      exact hz q hq2

/-- C29: for the empty literal `runConvert` returns the symbol cached for the kind
`CONST_STRING` and the sort of the literal, the same symbol on every later
request.  For a literal with the code points `c1 ... c(k-1) ck`, `k >= 1`, it
returns, given a budget of two, the chain
`(str.++ (char c1) (str.++ (char c2) ... (str.++ (char c(k-1)) (char ck))))`: one
link for each code point but the last, in the order of the code points, and
`(char ck)` alone for `k = 1`; each `(char c)` is the application of the symbol
cached for `char` to the code point.  The decoder reads the code points back
from the result (the empty list from the symbol of the empty literal, in a state
that satisfies the invariant of the symbol cache). -/
theorem runConvert_string_literal (env : Env) (fuel : Nat) (s : LfscTermProcessor) :
    runConvert env (fuel + 1) s (mkConstString []) =
        .ok ((s.getSymbolInternal .CONST_STRING ((mkConstString []).getType env) "emptystr" 0).1,
          (s.getSymbolInternal .CONST_STRING ((mkConstString []).getType env) "emptystr"
            0).2) ∧
      (∀ fuel2 s2,
        SymExt (s.getSymbolInternal .CONST_STRING ((mkConstString []).getType env) "emptystr"
          0).2 s2 →
        runConvert env (fuel2 + 1) s2 (mkConstString []) =
          .ok ((s.getSymbolInternal .CONST_STRING ((mkConstString []).getType env) "emptystr"
            0).1, s2)) ∧
      (SymbolsOK s →
        decodeString (s.getSymbolInternal .CONST_STRING ((mkConstString []).getType env)
          "emptystr" 0).1 = some []) ∧
      (∀ (cinit : List Nat) (clast : Nat),
        ∃ syms symLast s1,
          runConvert env (fuel + 1 + 1) s (mkConstString (cinit ++ [clast])) =
            .ok ((List.zipWith charTerm syms cinit).foldr
              (fun a r => mkNode .STRING_CONCAT [a, r]) (charTerm symLast clast), s1) ∧
          syms.length = cinit.length ∧
          mapFind s1.d_symbolsMap (charKey env clast) = some symLast ∧
          (∀ q ∈ List.zip syms cinit, mapFind s1.d_symbolsMap (charKey env q.2) = some q.1) ∧
          decodeString ((List.zipWith charTerm syms cinit).foldr
              (fun a r => mkNode .STRING_CONCAT [a, r]) (charTerm symLast clast)) =
            some (cinit ++ [clast])) := by
  have hempty : ∀ (f : Nat) (t : LfscTermProcessor),
      runConvert env (f + 1) t (mkConstString []) =
        .ok ((t.getSymbolInternal .CONST_STRING ((mkConstString []).getType env) "emptystr"
            0).1,
          (t.getSymbolInternal .CONST_STRING ((mkConstString []).getType env) "emptystr"
            0).2) := by
    intro f t
    rw [runConvert]
    simp [mkConstString, Node.getKind, Node.getVec, getSymbolInternalFor]
  refine ⟨hempty fuel s, ?_, ?_, ?_⟩
  · intro fuel2 s2 hext
    rw [hempty fuel2 s2,
      getSymbolInternal_of_some s2 _ _ _ _ _ (hext _ _ (getSymbolInternal_cached s _ _ _ _))]
  · intro hs
    obtain ⟨id, hid⟩ := getSymbolInternal_sort s hs .CONST_STRING
      ((mkConstString []).getType env) "emptystr" 0
    rw [hid]
    simp [decodeString]
  · intro cinit clast
    obtain ⟨syms, symLast, s1, h1, h2, h3, h4⟩ := runConvert_string_chain env fuel s cinit clast
    exact ⟨syms, symLast, s1, h1, h2, h3, h4, decodeString_chain syms cinit symLast clast h2⟩

/-- C29 at a concrete input: the literal "ABC" on the fresh encoder. -/
theorem runConvert_string_literal_witness :
    ∃ syms symLast s1,
      runConvert exampleEnv (0 + 1 + 1) freshEncoder (mkConstString ([65, 66] ++ [67])) =
        .ok ((List.zipWith charTerm syms [65, 66]).foldr
          (fun a r => mkNode .STRING_CONCAT [a, r]) (charTerm symLast 67), s1) ∧
      syms.length = [65, 66].length ∧
      mapFind s1.d_symbolsMap (charKey exampleEnv 67) = some symLast ∧
      (∀ q ∈ List.zip syms [65, 66],
        mapFind s1.d_symbolsMap (charKey exampleEnv q.2) = some q.1) ∧
      decodeString ((List.zipWith charTerm syms [65, 66]).foldr
          (fun a r => mkNode .STRING_CONCAT [a, r]) (charTerm symLast 67)) =
        some ([65, 66] ++ [67]) :=
  (runConvert_string_literal exampleEnv 0 freshEncoder).2.2.2 [65, 66] 67

/-! ## C31: the chains of `PLUS` and `MULT` -/

/-- What `runConvert` returns for `PLUS` and `MULT` over two or more operands,
in terms of the encoding `T` of the terminator and the symbol requested after
it. -/
theorem runConvert_arith_eq (env : Env) (fuel : Nat) (s s0 : LfscTermProcessor) (k : Kind)
    (p : Payload) (operands : List Node) (T : Node)
    (hk : k = .PLUS ∨ k = .MULT) (hlen : 2 ≤ operands.length)
    (hT : convert env fuel s (getNullTerminator k) = .ok (T, s0)) :
    runConvert env (fuel + 1) s (.mk k p operands) =
      .ok (chainLoop .APPLY_UF
          (s0.getSymbolInternal k
            (mkFunctionType [(Node.mk k p operands).getType env,
              (Node.mk k p operands).getType env] ((Node.mk k p operands).getType env))
            ("int." ++ smtKindString k) 0).1 operands.reverse T,
        (s0.getSymbolInternal k
            (mkFunctionType [(Node.mk k p operands).getType env,
              (Node.mk k p operands).getType env] ((Node.mk k p operands).getType env))
            ("int." ++ smtKindString k) 0).2) := by
  have hn : (getNullTerminator k).isNull = false := by
    rcases hk with rfl | rfl <;> decide
  rw [runConvert]
  rcases hk with rfl | rfl <;>
    simp [Node.getKind, Node.isClosure, isClosureKind, isNAryKind, Node.getNumChildren,
      Node.getChildren, isParameterized, hlen, hn, hT]

/-- C31: for `PLUS` and `MULT` applied to the operands `a1 ... ak`, `k >= 2`, in a
state that satisfies the invariant of the encoder and given a budget of four,
`runConvert` returns the chain `(opc a1 (opc a2 ... (opc ak T)))`: one link for
each of the `k` operands, in their order, every link the application (of kind
`APPLY_UF`, not of the kind `PLUS` or `MULT`) of one symbol `opc`, the symbol
`getSymbolInternal` gives for the kind and the binary function sort over the
sort of the term, which is a bound variable cached under that key; and the chain
ends in the encoding `T` of the terminator, the application of the symbol for
integer constants to the constant 0 for `PLUS` and 1 for `MULT`. -/
theorem runConvert_arith_chain (env : Env) (fuel : Nat) (s : LfscTermProcessor) (k : Kind)
    (p : Payload) (operands : List Node)
    (hk : k = .PLUS ∨ k = .MULT) (hlen : 2 ≤ operands.length) (hfuel : 3 ≤ fuel)
    (hw : WF s) :
    ∃ T s0 opc s1 tnv sym,
      convert env fuel s (getNullTerminator k) = .ok (T, s0) ∧
      s0.getSymbolInternal k (mkFunctionType [((Node.mk k p operands).getType env), ((Node.mk k p operands).getType env)] ((Node.mk k p operands).getType env))
        ("int." ++ smtKindString k) 0 = (opc, s1) ∧
      runConvert env (fuel + 1) s (.mk k p operands) =
        .ok (operands.foldr (fun a r => mkNode .APPLY_UF [opc, a, r]) T, s1) ∧
      opc.getKind = .BOUND_VARIABLE ∧
      mapFind s1.d_symbolsMap (k, (mkFunctionType [((Node.mk k p operands).getType env), ((Node.mk k p operands).getType env)] ((Node.mk k p operands).getType env)), 0) = some opc ∧
      T = mkNode .APPLY_UF [sym, mkConstRational (if k = .PLUS then 0 else 1)] ∧
      mapFind s0.d_symbolsMap (.CONST_RATIONAL, tnv, 0) = some sym := by
  have hk6 : k = .OR ∨ k = .AND ∨ k = .PLUS ∨ k = .MULT ∨ k = .STRING_CONCAT ∨
      k = .REGEXP_CONCAT := by
    rcases hk with h | h <;> simp [h]
  obtain ⟨T, s0, hT⟩ := convert_nullTerminator_total env fuel s k hk6 hfuel
  obtain ⟨hw0, -, -, hplus, hmult, -, -⟩ := convert_nullTerminator_shape env fuel s s0 k T hw hT
  obtain ⟨id, hid⟩ := getSymbolInternal_sort s0 hw0.symbols k (mkFunctionType [((Node.mk k p operands).getType env), ((Node.mk k p operands).getType env)] ((Node.mk k p operands).getType env))
    ("int." ++ smtKindString k) 0
  have hnn := getSymbolInternal_not_null s0 hw0.symbols k (mkFunctionType [((Node.mk k p operands).getType env), ((Node.mk k p operands).getType env)] ((Node.mk k p operands).getType env))
    ("int." ++ smtKindString k) 0
  have hrun := runConvert_arith_eq env fuel s s0 k p operands T hk hlen hT
  rw [chainLoop_symbol _ hnn] at hrun
  have hshape : ∃ tnv sym,
      T = mkNode .APPLY_UF [sym, mkConstRational (if k = .PLUS then 0 else 1)] ∧
      mapFind s0.d_symbolsMap (.CONST_RATIONAL, tnv, 0) = some sym := by
    rcases hk with rfl | rfl
    · obtain ⟨tnv, sym, h1, h2⟩ := hplus rfl
      exact ⟨tnv, sym, by simpa using h1, h2⟩
    · obtain ⟨tnv, sym, h1, h2⟩ := hmult rfl
      exact ⟨tnv, sym, by simpa using h1, h2⟩
  obtain ⟨tnv, sym, h1, h2⟩ := hshape
  have hkind := congrArg Node.getKind hid
  exact ⟨T, s0, _, _, tnv, sym, hT, rfl, hrun, hkind,
    getSymbolInternal_cached s0 _ _ _ _, h1, h2⟩

/-- C31 at a concrete input: `(+ x0 x1 x2)` over integer variables on the fresh
encoder. -/
theorem runConvert_arith_chain_witness :
    ∃ T s0 opc s1 tnv sym,
      convert exampleEnv 3 freshEncoder (getNullTerminator .PLUS) = .ok (T, s0) ∧
      s0.getSymbolInternal .PLUS
        (mkFunctionType
          [(Node.mk .PLUS .none [intVar 0, intVar 1, intVar 2]).getType exampleEnv,
           (Node.mk .PLUS .none [intVar 0, intVar 1, intVar 2]).getType exampleEnv]
          ((Node.mk .PLUS .none [intVar 0, intVar 1, intVar 2]).getType exampleEnv))
        ("int." ++ smtKindString .PLUS) 0 = (opc, s1) ∧
      runConvert exampleEnv (3 + 1) freshEncoder (.mk .PLUS .none [intVar 0, intVar 1, intVar 2]) =
        .ok ([intVar 0, intVar 1, intVar 2].foldr
          (fun a r => mkNode .APPLY_UF [opc, a, r]) T, s1) ∧
      opc.getKind = .BOUND_VARIABLE ∧
      mapFind s1.d_symbolsMap (.PLUS,
        mkFunctionType
          [(Node.mk .PLUS .none [intVar 0, intVar 1, intVar 2]).getType exampleEnv,
           (Node.mk .PLUS .none [intVar 0, intVar 1, intVar 2]).getType exampleEnv]
          ((Node.mk .PLUS .none [intVar 0, intVar 1, intVar 2]).getType exampleEnv), 0) =
        some opc ∧
      T = mkNode .APPLY_UF
        [sym, mkConstRational (if Kind.PLUS = Kind.PLUS then 0 else 1)] ∧
      mapFind s0.d_symbolsMap (.CONST_RATIONAL, tnv, 0) = some sym :=
  runConvert_arith_chain exampleEnv 3 freshEncoder .PLUS .none [intVar 0, intVar 1, intVar 2]
    (Or.inl rfl) (by decide) (by decide) (WF_new NodeManager.fresh)

/-! ## C32: what a successful `update` adds to the accumulator -/

theorem getProof_none_not_mem (cdp : CDProof) (f : Node) (h : cdp.getProof f = none)
    (st : ProofStep) (hc : st.conclusion = f) : st ∉ cdp := by
  unfold CDProof.getProof at h
  intro hmem
  have := List.find?_eq_none.mp h st hmem
  simp [hc] at this

/-- When `addStep` succeeds on an accumulator that holds no step for `expected`,
the accumulator holds afterwards a step concluding `expected` that it did not
hold before. -/
theorem addStep_success_new (pc : ProofChecker) (cdp : CDProof) (expected : Node) (id : PfRule)
    (children args : List Node) (opolicy : CDPOverwrite)
    (hnone : cdp.getProof expected = none)
    (h : (cdp.addStep pc expected id children args opolicy).1 = true) :
    ∃ st ∈ (cdp.addStep pc expected id children args opolicy).2,
      st.conclusion = expected ∧ st ∉ cdp := by
  obtain ⟨st, hmem, hc⟩ := addStep_success pc cdp expected id children args opolicy h
  exact ⟨st, hmem, hc, getProof_none_not_mem cdp expected hnone st hc⟩

/-- The `CHAIN_RESOLUTION` case of `update` on a single premise: the loop runs no
round, nothing is handed to the accumulator, and the call returns success. -/
theorem update_chain_single (pc : ProofChecker) (res p0 : Node) (args : List Node)
    (cdp : CDProof) (cu : Bool) :
    update pc res .CHAIN_RESOLUTION [p0] args cdp cu = .ok (true, cdp, cu) := rfl

/-- C32 (as amended): whenever `update` returns success, then for the rule tags
`ASSUME`, `SCOPE` and `REFL`, if the accumulator held no step for `res` when the
call was made, the output accumulator holds a step that concludes `res` and that
the input accumulator did not hold (it was added during the invocation); and for
`CHAIN_RESOLUTION` with a single premise the output accumulator is the input
accumulator (no step was added). -/
theorem update_success_adds_step (pc : ProofChecker) (res : Node) (id : PfRule)
    (children args : List Node) (cdp cdp1 : CDProof) (cu cu1 : Bool)
    (h : update pc res id children args cdp cu = .ok (true, cdp1, cu1)) :
    ((id = .ASSUME ∨ id = .SCOPE ∨ id = .REFL) → cdp.getProof res = none →
        ∃ st ∈ cdp1, st.conclusion = res ∧ st ∉ cdp) ∧
      (id = .CHAIN_RESOLUTION → children.length = 1 → cdp1 = cdp) := by
  constructor
  · intro hid hnone
    rcases hid with rfl | rfl | rfl <;>
    · simp only [update, addLeanStep, Except.ok.injEq, Prod.mk.injEq] at h
      obtain ⟨h1, h2, _⟩ := h
      rw [← h2]
      exact addStep_success_new pc cdp res .LEAN_RULE children _ .ASSUME_ONLY hnone h1
  · intro hid hlen
    subst hid
    match children, hlen with
    | [p0], _ =>
      rw [update_chain_single] at h
      simp only [Except.ok.injEq, Prod.mk.injEq] at h
      exact h.2.1.symm

/-- C32 (as amended) at a concrete input: a `REFL` step concluding `x0 = x1` added
to the empty accumulator. -/
theorem update_success_adds_step_witness :
    update trustingChecker eqAB .REFL [] [] [] false =
        .ok (true, [{ conclusion := eqAB, rule := .LEAN_RULE, premises := [],
                      args := [mkConstRational 2, eqAB] }], false) ∧
      ∃ st ∈ ([{ conclusion := eqAB, rule := .LEAN_RULE, premises := [],
                 args := [mkConstRational 2, eqAB] }] : CDProof),
        st.conclusion = eqAB ∧ st ∉ ([] : CDProof) :=
  ⟨rfl, (update_success_adds_step trustingChecker eqAB .REFL [] [] [] _ false false rfl).1
    (Or.inr (Or.inr rfl)) rfl⟩

/-- C32 (counterexample): the `CHAIN_RESOLUTION` step with the single premise
`x0 = x1` makes `update` return success on the empty accumulator, and the output
accumulator is still empty: no replacement step was added during the
invocation. -/
theorem update_success_adds_nothing :
    update trustingChecker eqAB .CHAIN_RESOLUTION [eqAB] [] [] false =
      .ok (true, [], false) := rfl

/-! ## C33: the encoding of `ITE` reads the reflection of the unconverted sort -/

theorem typeAsNode_getSymbolInternal (s : LfscTermProcessor) (k : Kind) (tn : TypeNode)
    (name : String) (v : Nat) (t : TypeNode) :
    (s.getSymbolInternal k tn name v).2.typeAsNode t = s.typeAsNode t := by
  unfold typeAsNode
  rw [(getSymbolInternal_types s k tn name v).1]

/-- The `ITE` case of `runConvert`. -/
theorem runConvert_ite_eq (env : Env) (fuel : Nat) (s : LfscTermProcessor) (n : Node)
    (hk : n.getKind = .ITE) :
    runConvert env (fuel + 1) s n =
      match s.typeAsNode (n.getType env) with
      | .error e => .error e
      | .ok typeNode =>
        .ok (mkNode .APPLY_UF
          [mkNode .APPLY_UF
            [(s.getSymbolInternal .ITE
                (mkFunctionType [s.d_sortType]
                  (mkFunctionType [booleanType, n.getType env, n.getType env] (n.getType env)))
                "ite" 0).1, typeNode],
            n.getChild 0, n.getChild 1, n.getChild 2],
          (s.getSymbolInternal .ITE
            (mkFunctionType [s.d_sortType]
              (mkFunctionType [booleanType, n.getType env, n.getType env] (n.getType env)))
            "ite" 0).2) := by
  have h1 : n.getKind ≠ .BOUND_VARIABLE := by rw [hk]; decide
  have h2 : n.getKind ≠ .SKOLEM := by rw [hk]; decide
  have h3 : n.getKind ≠ .APPLY_UF := by rw [hk]; decide
  have h4 : n.getKind ≠ .HO_APPLY := by rw [hk]; decide
  have h5 : n.getKind ≠ .CONST_RATIONAL := by rw [hk]; decide
  have h6 : n.getKind ≠ .CONST_STRING := by rw [hk]; decide
  rw [runConvert]
  conv => lhs; zeta
  rw [if_neg h1, if_neg h2, if_neg h3, if_neg h4, if_neg h5, if_neg h6, if_pos hk, hk,
    ← typeAsNode_getSymbolInternal s .ITE
      (mkFunctionType [s.d_sortType]
        (mkFunctionType [booleanType, n.getType env, n.getType env] (n.getType env)))
      "ite" 0 (n.getType env)]

/-- C33: for a term `n` of kind `ITE` and of sort `T`, `runConvert` looks `T`
itself up in the table of reflections, in the state it was called in (the lookup
of the symbol for `ite` leaves the table as it is) and without converting `T`:
if `T` has the reflection `R` there, the result is `((ite R) C A B)`, over the
symbol `getSymbolInternal` gives for `ITE`, and the state left has the sort
tables of the state before; if `T` has no reflection there, the call aborts by
the `AlwaysAssert` of `typeAsNode`.  A bound variable `x` of the same sort `T`
that is no internal symbol is encoded, in a state that satisfies the invariant
of the sort tables and when `T` is a sort the encoder reflects, whether or not
`T` has a reflection there: `T` is converted first, and the reflection that is
looked up is that of the converted sort in the state the conversion leaves. -/
theorem runConvert_ite (env : Env) (fuel : Nat) (s : LfscTermProcessor) (n : Node)
    (hk : n.getKind = .ITE) :
    (∀ R, mapFind s.d_typeAsNode (n.getType env) = some R →
        runConvert env (fuel + 1) s n =
          .ok (mkNode .APPLY_UF
            [mkNode .APPLY_UF
              [(s.getSymbolInternal .ITE
                  (mkFunctionType [s.d_sortType]
                    (mkFunctionType [booleanType, n.getType env, n.getType env]
                      (n.getType env))) "ite" 0).1, R],
              n.getChild 0, n.getChild 1, n.getChild 2],
            (s.getSymbolInternal .ITE
              (mkFunctionType [s.d_sortType]
                (mkFunctionType [booleanType, n.getType env, n.getType env]
                  (n.getType env))) "ite" 0).2) ∧
          (s.getSymbolInternal .ITE
              (mkFunctionType [s.d_sortType]
                (mkFunctionType [booleanType, n.getType env, n.getType env]
                  (n.getType env))) "ite" 0).2.d_typeAsNode = s.d_typeAsNode ∧
          (s.getSymbolInternal .ITE
              (mkFunctionType [s.d_sortType]
                (mkFunctionType [booleanType, n.getType env, n.getType env]
                  (n.getType env))) "ite" 0).2.d_tcache = s.d_tcache) ∧
      (mapFind s.d_typeAsNode (n.getType env) = none →
        runConvert env (fuel + 1) s n = .error .fatal) ∧
      (∀ x : Node, x.getKind = .BOUND_VARIABLE → x ∉ s.d_symbols →
        x.getType env = n.getType env → TypesOK s → (n.getType env).isEncodable = true →
        ∃ i s0 ct s2 tc s1,
          s.getOrAssignIndexForVar x = .ok (i, s0) ∧
          convertType s0 (n.getType env) = .ok (ct, s2) ∧
          s2.typeAsNode ct = .ok tc ∧
          runConvert env (fuel + 1) s x =
            .ok (mkNode .APPLY_UF
              [(s2.getSymbolInternal .BOUND_VARIABLE
                  (mkFunctionType [integerType, s2.d_sortType] (n.getType env)) "bvar" 0).1,
               mkConstRational (i : Nat), tc], s1)) := by
  refine ⟨?_, ?_, ?_⟩
  · intro R hR
    refine ⟨?_, (getSymbolInternal_types s _ _ _ _).1, (getSymbolInternal_types s _ _ _ _).2.1⟩
    rw [runConvert_ite_eq env fuel s n hk, typeAsNode_of_reflection s _ R hR]
  · intro hnone
    rw [runConvert_ite_eq env fuel s n hk]
    simp [typeAsNode, hnone]
  · intro x hx hsym hty hs ht
    rw [← hty] at ht
    obtain ⟨i, bvarOp, tc, s1, h, -, -⟩ := runConvert_boundVar_total env fuel s x hs hx hsym ht
    obtain ⟨i2, s0, ct, s2, tc2, h1, h2, h3, h4, -⟩ :=
      runConvert_boundVar_inv env fuel s s1 x _ hx hsym h
    rw [hty] at h2 h4
    rw [h4] at h
    exact ⟨i2, s0, ct, s2, tc2, s1, h1, h2, h3, h⟩

/-- C33 at concrete inputs: `(ite x0 x1 x2)` of sort `Bool` aborts on the fresh
encoder, where `Bool` has no reflection, while the bound variable `y0` of sort
`Bool` is encoded there; and after `runConvertType(Bool)` the same term is
encoded as `((ite R) x0 x1 x2)` over the reflection `R` of `Bool`. -/
theorem runConvert_ite_witness :
    runConvert exampleEnv (0 + 1) freshEncoder
        (.mk .ITE .none [boolVar 0, boolVar 1, boolVar 2]) = .error .fatal ∧
      (∃ i s0 ct s2 tc s1,
        freshEncoder.getOrAssignIndexForVar (boundVar 0 booleanType) = .ok (i, s0) ∧
        convertType s0
          ((Node.mk .ITE .none [boolVar 0, boolVar 1, boolVar 2]).getType exampleEnv) =
            .ok (ct, s2) ∧
        s2.typeAsNode ct = .ok tc ∧
        runConvert exampleEnv (0 + 1) freshEncoder (boundVar 0 booleanType) =
          .ok (mkNode .APPLY_UF
            [(s2.getSymbolInternal .BOUND_VARIABLE
                (mkFunctionType [integerType, s2.d_sortType]
                  ((Node.mk .ITE .none [boolVar 0, boolVar 1, boolVar 2]).getType exampleEnv))
                "bvar" 0).1,
             mkConstRational (i : Nat), tc], s1)) ∧
      ∃ R, mapFind encoderWithBool.d_typeAsNode booleanType = some R ∧
        runConvert exampleEnv (0 + 1) encoderWithBool
            (.mk .ITE .none [boolVar 0, boolVar 1, boolVar 2]) =
          .ok (mkNode .APPLY_UF
            [mkNode .APPLY_UF
              [(encoderWithBool.getSymbolInternal .ITE
                  (mkFunctionType [encoderWithBool.d_sortType]
                    (mkFunctionType [booleanType, booleanType, booleanType] booleanType))
                  "ite" 0).1, R],
              boolVar 0, boolVar 1, boolVar 2],
            (encoderWithBool.getSymbolInternal .ITE
              (mkFunctionType [encoderWithBool.d_sortType]
                (mkFunctionType [booleanType, booleanType, booleanType] booleanType))
              "ite" 0).2) := by
  have T := runConvert_ite exampleEnv 0 freshEncoder
    (.mk .ITE .none [boolVar 0, boolVar 1, boolVar 2]) rfl
  have T2 := runConvert_ite exampleEnv 0 encoderWithBool
    (.mk .ITE .none [boolVar 0, boolVar 1, boolVar 2]) rfl
  have hsome : (mapFind encoderWithBool.d_typeAsNode booleanType).isSome = true := by decide
  obtain ⟨R, hR⟩ := Option.isSome_iff_exists.mp hsome
  exact ⟨T.2.1 (by decide),
    T.2.2 (boundVar 0 booleanType) rfl (by decide) rfl (TypesOK_new NodeManager.fresh) rfl,
    R, hR, (T2.1 R hR).1⟩

end CVC4
